import Mathlib

/-!
# LedgerConsensusZk: the ZooKeeper-arbitrated consensus round

A shallow embedding of `src/ripple/app/ledger/impl/LedgerConsensusZk.cpp`.

* 256-bit hashes, node ids and 32-bit times are natural numbers; 32-bit
  arithmetic that can wrap is written with an explicit `% 2 ^ 32`.
* `hash_map` / `hash_set` / `std::map` members are association lists with
  the usual find / assign / erase operations.
* A nullable `shared_ptr` is an `Option`.
* A function that can dereference a null pointer, call `abort ()` or let an
  exception escape returns `Option`: `none` is the crash.
* `assert` is compiled out (release build), so a failing assertion is a no-op.
* Collaborators (ZooKeeper, the ledger store, the inbound tx-set cache, the
  stored proposals, the validation table) are explicit inputs.
-/

set_option maxRecDepth 100000

namespace LedgerConsensusZk

/-! ## Associative containers -/

/-- The value stored under key `k`, if any (`find`). -/
def mfind {K V : Type} [DecidableEq K] : List (K × V) → K → Option V
  | [], _ => none
  | (k', v) :: m, k => if k' = k then some v else mfind m k

/-- Assignment `m[k] = v`: replaces the entry of `k` or adds one. -/
def mset {K V : Type} [DecidableEq K] : List (K × V) → K → V → List (K × V)
  | [], k, v => [(k, v)]
  | (k', v') :: m, k, v => if k' = k then (k, v) :: m else (k', v') :: mset m k v

/-- Removal `m.erase (k)`. -/
def merase {K V : Type} [DecidableEq K] : List (K × V) → K → List (K × V)
  | [], _ => []
  | (k', v) :: m, k => if k' = k then merase m k else (k', v) :: merase m k

/-- Insertion into a `hash_set`. -/
def sinsert {K : Type} [DecidableEq K] (s : List K) (k : K) : List K :=
  if k ∈ s then s else s ++ [k]

/-! ## Data model -/

abbrev uint256 := Nat
abbrev NodeID := Nat

/-- The wrap-around of `std::uint32_t` arithmetic. -/
def u32 (n : Nat) : Nat := n % 2 ^ 32

inductive State where
  | open_
  | establish
  | finished
  | accepted
deriving DecidableEq, Repr

/-- Modelled from the spec: `LedgerProposal` (its header is not under src/).
A position of a peer or of ourselves: tx-set hash, prior-ledger hash, close
time, sequence number and issuing node. -/
structure LedgerProposal where
  mPeerID : NodeID
  mPreviousLedger : uint256
  mCurrentHash : uint256
  mCloseTime : Nat
  mProposeSeq : Nat
deriving DecidableEq, Repr

namespace LedgerProposal

/-- Modelled from the spec: the distinguished INITIAL sequence number. -/
def seqJoin : Nat := 0

/-- Modelled from the spec: the sequence number of the bow-out sentinel. -/
def seqLeave : Nat := 0xffffffff

/-- Modelled from the spec: `LedgerProposal::isInitial`. -/
def isInitial (p : LedgerProposal) : Bool := p.mProposeSeq == seqJoin

/-- Modelled from the spec: `LedgerProposal::isBowOut`. -/
def isBowOut (p : LedgerProposal) : Bool := p.mProposeSeq == seqLeave

/-- Modelled from the spec: `LedgerProposal::isPrevLedger`. -/
def isPrevLedger (p : LedgerProposal) (h : uint256) : Bool := p.mPreviousLedger == h

/-- Modelled from the spec: `LedgerProposal::bowOut`, the position becomes the
bow-out sentinel. -/
def bowOut (p : LedgerProposal) : LedgerProposal :=
  { p with mProposeSeq := seqLeave }

/-- Modelled from the spec: `LedgerProposal::changePosition`, adjust the
position to a new tx-set hash and close time and bump the sequence number; a
position that has bowed out cannot change (`none` is the `false` return). -/
def changePosition (p : LedgerProposal) (newPosition : uint256) (closeTime : Nat) :
    Option LedgerProposal :=
  if p.mProposeSeq = seqLeave then none
  else some { p with mCurrentHash := newPosition, mCloseTime := closeTime,
                     mProposeSeq := p.mProposeSeq + 1 }

end LedgerProposal

/-- Modelled from the spec: `SHAMap` as used for tx-sets (not under src/): a
root hash and the ids of the transactions it holds. -/
structure SHAMap where
  hash : uint256
  items : List uint256
deriving DecidableEq, Repr

/-- Modelled from the spec: `SHAMap::hasItem`. -/
def SHAMap.hasItem (m : SHAMap) (tx : uint256) : Bool := decide (tx ∈ m.items)

/-- Modelled from the spec: `DisputedTx` (its header is not under src/): the
transaction id, our vote and the peers' votes. -/
structure DisputedTx where
  mTransactionID : uint256
  mOurVote : Bool
  mVotes : List (NodeID × Bool)
deriving DecidableEq, Repr

namespace DisputedTx

/-- Modelled from the spec: `DisputedTx::setVote`, record the vote of a peer. -/
def setVote (d : DisputedTx) (peer : NodeID) (votesYes : Bool) : DisputedTx :=
  { d with mVotes := mset d.mVotes peer votesYes }

/-- Modelled from the spec: `DisputedTx::unVote`, remove the vote of a peer. -/
def unVote (d : DisputedTx) (peer : NodeID) : DisputedTx :=
  { d with mVotes := merase d.mVotes peer }

/-- Modelled from the spec: `DisputedTx::setOurVote`. -/
def setOurVote (d : DisputedTx) (o : Bool) : DisputedTx :=
  { d with mOurVote := o }

end DisputedTx

/-- The fields of `Ledger::info ()` of the previous ledger that the round
reads, with its hash (`getHash ()`) and close-agree flag (`getCloseAgree`). -/
structure Ledger where
  hash : uint256
  parentHash : uint256
  seq : Nat
  closeTime : Nat
  parentCloseTime : Nat
  closeTimeResolution : Nat
  closeAgree : Bool
deriving DecidableEq, Repr

/-- The replay record handed out by `ledgerMaster_.releaseReplay ()`. -/
structure LedgerReplay where
  closeTime_ : Nat
  closeFlags_ : Nat
  txns_ : List uint256
deriving DecidableEq, Repr

/-- The events of a `TMStatusChange` that the round sends. -/
inductive NodeEvent where
  | neCLOSING_LEDGER
  | neACCEPTED_LEDGER
  | neLOST_SYNC
deriving DecidableEq, Repr

/-- Modelled from the spec: `STValidation` (not under src/), the signed
validation of a ledger: ledger hash, sign time, signer, whether the signer
was proposing (a full validation), the ledger sequence, the load fee when
there is one, and whether the fee-vote and amendment-vote fields are set. -/
structure STValidation where
  ledgerHash : uint256
  signTime : Nat
  signer : NodeID
  full : Bool
  ledgerSequence : Nat
  loadFee : Option Nat
  feeVote : Bool
  amendmentVote : Bool
deriving DecidableEq, Repr

/-- What the overlay was asked to send. -/
inductive Message where
  | proposeSet (p : LedgerProposal)
  | haveTxSet (hash : uint256) (direct : Bool)
  | transaction (txID : uint256)
  | statusChange (newEvent : NodeEvent) (ledgerSeq : Nat) (ledgerHash : uint256)
  | validation (v : STValidation)
deriving DecidableEq, Repr

/-- Constants and pure helpers of `LedgerTiming.h` and `Ledger.h`, which are
not under src/; they are parameters of the development. -/
structure LedgerTiming where
  roundCloseTime : Nat → Nat → Nat
  getNextLedgerTimeResolution : Nat → Bool → Nat → Nat
  LEDGER_MIN_CONSENSUS : Int
  LEDGER_IDLE_INTERVAL : Nat
  sLCF_NoConsensusTime : Nat
  shouldCloseLedger : Bool → Int → Int → Int → Int → Int → Int → Int → Bool

/-- The members of `LedgerConsensusZk`; `sent` is the trace of the messages
handed to the overlay, `acquireJobs` the ledger acquisitions queued and
`givenSets` the tx-sets handed to `inboundTransactions_.giveSet`. -/
structure Round where
  state_ : State
  mCloseTime : Nat
  mPrevLedgerHash : uint256
  mAcquiringLedger : uint256
  mPreviousLedger : Ledger
  mOurPosition : Option LedgerProposal
  mProposing : Bool
  mValidating : Bool
  mHaveCorrectLCL : Bool
  mConsensusFail : Bool
  mCurrentMSeconds : Int
  mClosePercent : Int
  mCloseResolution : Nat
  mHaveCloseTimeConsensus : Bool
  mPreviousProposers : Int
  mPreviousMSeconds : Int
  mPeerPositions : List (NodeID × LedgerProposal)
  mAcquired : List (uint256 × Option SHAMap)
  mDisputes : List (uint256 × DisputedTx)
  mCompares : List uint256
  mCloseTimes : List (Nat × Int)
  mDeadNodes : List NodeID
  mNewLedgerHash : uint256
  mValPublic : NodeID
  sent : List Message
  acquireJobs : List uint256
  givenSets : List uint256
deriving DecidableEq, Repr

/-! ## Close-time finalization (`accept`, `effectiveCloseTime`) -/

/-- Embedding of `LedgerConsensusZk::effectiveCloseTime`. -/
def effectiveCloseTime (T : LedgerTiming) (r : Round) (closeTime : Nat) : Nat :=
  if closeTime = 0 then 0
  else max (T.roundCloseTime closeTime r.mCloseResolution)
           (u32 (r.mPreviousLedger.closeTime + 1))

/-- The close time and the close-time-correct flag that `accept` hands to
`setAccepted` (lines 917-938); `none` when there is no position to read. -/
def acceptCloseTime (T : LedgerTiming) (r : Round) (replay : Option LedgerReplay) :
    Option (Nat × Bool) :=
  match r.mOurPosition with
  | none => none
  | some pos =>
    let closeTime := pos.mCloseTime
    match replay with
    | some rp => some (rp.closeTime_, (rp.closeFlags_ &&& T.sLCF_NoConsensusTime) == 0)
    | none =>
      if closeTime = 0 then some (u32 (r.mPreviousLedger.closeTime + 1), false)
      else some (effectiveCloseTime T r closeTime, true)

/-! ## Collaborators -/

/-- What the host answers when the round asks: the inbound tx-set cache
(`inboundTransactions_.getSet`), the proposals stored by the host
(`consensus_.peekStoredProposals`), the ledger store
(`ledgerMaster_.getLedgerByHash`) and the relay flag of the hash router
(`setFlags (txID, SF_RELAYED)`). -/
structure Env where
  getSet : uint256 → Option SHAMap
  storedProposals : List (NodeID × List LedgerProposal)
  ledgers : List Ledger
  setFlags : uint256 → Bool

/-- Embedding of `ledgerMaster_.getLedgerByHash`. -/
def getLedgerByHash (E : Env) (h : uint256) : Option Ledger :=
  E.ledgers.find? (fun l => l.hash == h)

/-! ## Peer proposal ingestion -/

/-- Embedding of `LedgerConsensusZk::propose`, called with our (non-null) position `pos`:
the position is handed to the overlay. -/
def propose (r : Round) (pos : LedgerProposal) : Round :=
  { r with sent := r.sent ++ [Message.proposeSet pos] }

/-- Embedding of `LedgerConsensusZk::getTransactionTree`. -/
def getTransactionTree (E : Env) (r : Round) (hash : uint256) : Option SHAMap × Round :=
  match mfind r.mAcquired hash with
  | some (some s) => (some s, r)
  | _ =>
    match E.getSet hash with
    | some s => (some s, { r with mAcquired := mset r.mAcquired hash (some s) })
    | none => (none, r)

/-- The staleness test of `peerPosition`: the peer has a stored position whose
sequence number is not below the new one. -/
def staleProposal (r : Round) (newPosition : LedgerProposal) : Bool :=
  match mfind r.mPeerPositions newPosition.mPeerID with
  | some currentPosition => decide (newPosition.mProposeSeq ≤ currentPosition.mProposeSeq)
  | none => false

/-- The close-time vote of `peerPosition` (lines 861-868): an INITIAL proposal
increments the count of its close time. -/
def countCloseTime (r : Round) (newPosition : LedgerProposal) : Round :=
  if newPosition.isInitial then
    { r with mCloseTimes := mset r.mCloseTimes newPosition.mCloseTime
               (((mfind r.mCloseTimes newPosition.mCloseTime).getD 0) + 1) }
  else r

/-- The tail of `peerPosition` (lines 861-889) for a proposal that is fresh
and not a bow-out: count the close time, store the position, and vote on the
disputes when the tx-set is held. -/
def peerPositionStore (E : Env) (r : Round) (newPosition : LedgerProposal) : Bool × Round :=
  let peerID := newPosition.mPeerID
  let r1 := countCloseTime r newPosition
  let r2 : Round := { r1 with mPeerPositions := mset r1.mPeerPositions peerID newPosition }
  match getTransactionTree E r2 newPosition.mCurrentHash with
  | (some set, r3) =>
    (true, { r3 with mDisputes :=
              r3.mDisputes.map (fun it => (it.1, it.2.setVote peerID (set.hasItem it.1))) })
  | (none, r3) => (true, r3)

/-- Embedding of `LedgerConsensusZk::peerPosition`.  `mPeerPositions[peerID]` default-inserts
a null entry for an unknown peer; every path that gets past the staleness test
either erases that entry or assigns the new position to it. -/
def peerPosition (E : Env) (r : Round) (newPosition : LedgerProposal) : Bool × Round :=
  let peerID := newPosition.mPeerID
  if peerID ∈ r.mDeadNodes then (false, r)
  else if staleProposal r newPosition then (false, r)
  else if newPosition.isBowOut then
    (true, { r with
              mDisputes := r.mDisputes.map (fun it => (it.1, it.2.unVote peerID)),
              mPeerPositions := merase r.mPeerPositions peerID,
              mDeadNodes := sinsert r.mDeadNodes peerID })
  else peerPositionStore E r newPosition

/-- Embedding of `LedgerConsensusZk::playbackProposals`. -/
def playbackProposals (E : Env) (r : Round) : Round :=
  E.storedProposals.foldl
    (fun r it => it.2.foldl
      (fun r proposal =>
        if proposal.isPrevLedger r.mPrevLedgerHash then (peerPosition E r proposal).2 else r)
      r)
    r

/-! ## View tracking -/

/-- The first half of `handleLCL` (lines 494-514): the switch to a prior
ledger hash that differs from `mPrevLedgerHash`. -/
def handleLCLSwitch (E : Env) (r : Round) (lclHash : uint256) : Round :=
  if r.mPrevLedgerHash ≠ lclHash then
    let ra : Round := { r with mPrevLedgerHash := lclHash }
    let rb : Round :=
      match ra.mOurPosition with
      | some pos =>
        if ra.mHaveCorrectLCL && ra.mProposing then
          propose { ra with mOurPosition := some pos.bowOut } pos.bowOut
        else ra
      | none => ra
    let rc : Round :=
      { rb with mProposing := false, mPeerPositions := [], mDisputes := [],
                mCloseTimes := [], mDeadNodes := [] }
    playbackProposals E rc
  else r

/-- The second half of `handleLCL` (lines 516-558): take the prior ledger from
the ledger store or start acquiring it. -/
def handleLCLLedger (T : LedgerTiming) (E : Env) (r1 : Round) (lclHash : uint256) : Round :=
  if r1.mPreviousLedger.hash = r1.mPrevLedgerHash then r1
  else
    match getLedgerByHash E r1.mPrevLedgerHash with
    | none =>
      if r1.mAcquiringLedger ≠ lclHash then
        { r1 with mAcquiringLedger := r1.mPrevLedgerHash,
                  acquireJobs := r1.acquireJobs ++ [r1.mPrevLedgerHash],
                  mHaveCorrectLCL := false }
      else r1
    | some newLCL =>
      { r1 with mPreviousLedger := newLCL, mPrevLedgerHash := lclHash,
                mHaveCorrectLCL := true,
                mCloseResolution := T.getNextLedgerTimeResolution
                  newLCL.closeTimeResolution newLCL.closeAgree (newLCL.seq + 1) }

/-- Embedding of `LedgerConsensusZk::handleLCL`. -/
def handleLCL (T : LedgerTiming) (E : Env) (r : Round) (lclHash : uint256) : Round :=
  handleLCLLedger T E (handleLCLSwitch E r lclHash) lclHash

/-- The selection loop of `LedgerConsensusZk::checkLCL` over the validation
counts `vals` returned by `getCurrentValidations`. -/
def checkLCLSelect (prev : uint256) (vals : List (uint256 × Int)) : uint256 × Int :=
  vals.foldl
    (fun acc it =>
      if it.2 > acc.2 || (it.2 == acc.2 && it.1 == prev) then (it.1, it.2) else acc)
    (prev, 0)

/-- Embedding of `LedgerConsensusZk::checkLCL`. -/
def checkLCL (T : LedgerTiming) (E : Env) (vals : List (uint256 × Int)) (r : Round) : Round :=
  let netLgr := (checkLCLSelect r.mPrevLedgerHash vals).1
  if netLgr ≠ r.mPrevLedgerHash then handleLCL T E r netLgr
  else if r.mPreviousLedger.hash ≠ r.mPrevLedgerHash then handleLCL T E r netLgr
  else r

/-! ## Tx-set acquisition and disputes -/

/-- Modelled from the spec: `SHAMap::compare` (not under src/), the symmetric
difference of two tx-sets capped at `maxCount` entries.  An entry is a
transaction id with two flags: present in the first set, present in the
second set. -/
def SHAMap.compare (m1 m2 : SHAMap) (maxCount : Nat) : List (uint256 × Bool × Bool) :=
  (((m1.items.filter (fun t => !m2.hasItem t)).map (fun t => (t, true, false))) ++
   ((m2.items.filter (fun t => !m1.hasItem t)).map (fun t => (t, false, true)))).take maxCount

/-- Embedding of `LedgerConsensusZk::sendHaveTxSet`. -/
def sendHaveTxSet (r : Round) (hash : uint256) (direct : Bool) : Round :=
  { r with sent := r.sent ++ [Message.haveTxSet hash direct] }

/-- Our vote on a newly disputed transaction (`addDisputedTransaction`, lines
1228-1239); `none` when the failed marker stored for our own position is
dereferenced. -/
def ourVoteOn (r : Round) (txID : uint256) : Option Bool :=
  match r.mOurPosition with
  | some pos =>
    match mfind r.mAcquired pos.mCurrentHash with
    | some (some s) => some (s.hasItem txID)
    | some none => none
    | none => some false
  | none => some false

/-- The new DisputedTx with the votes of all peers whose position set is
acquired (`addDisputedTransaction`, lines 1241-1253). -/
def newDisputedTx (r : Round) (txID : uint256) (ourVote : Bool) : DisputedTx :=
  r.mPeerPositions.foldl
    (fun t pit =>
      match mfind r.mAcquired pit.2.mCurrentHash with
      | some (some s) => t.setVote pit.1 (s.hasItem txID)
      | _ => t)
    { mTransactionID := txID, mOurVote := ourVote, mVotes := [] }

/-- The relay of a disputed transaction that was not relayed recently
(`addDisputedTransaction`, lines 1255-1266). -/
def relayDisputed (E : Env) (r : Round) (txID : uint256) : Round :=
  if E.setFlags txID then { r with sent := r.sent ++ [Message.transaction txID] } else r

/-- Embedding of `LedgerConsensusZk::addDisputedTransaction`. -/
def addDisputedTransaction (E : Env) (r : Round) (txID : uint256) : Option Round :=
  if (mfind r.mDisputes txID).isSome then some r
  else
    match ourVoteOn r txID with
    | none => none
    | some v =>
      some (relayDisputed E
        { r with mDisputes := mset r.mDisputes txID (newDisputedTx r txID v) } txID)

/-- Embedding of `LedgerConsensusZk::createDisputes`; both maps are dereferenced. -/
def createDisputes (E : Env) (r : Round) (m1 m2 : Option SHAMap) : Option Round :=
  match m1, m2 with
  | some a, some b =>
    if a.hash = b.hash then some r
    else
      (a.compare b 16384).foldlM
        (fun r pos =>
          if pos.2.1 then addDisputedTransaction E r pos.1
          else if pos.2.2 then addDisputedTransaction E r pos.1
          else some r)
        r
  | _, _ => none

/-- Embedding of `LedgerConsensusZk::adjustCount`. -/
def adjustCount (r : Round) (map : SHAMap) (peers : List NodeID) : Round :=
  { r with mDisputes := r.mDisputes.map (fun it =>
      let setHas := map.hasItem it.2.mTransactionID
      (it.1, peers.foldl (fun d pit => d.setVote pit setHas) it.2)) }

/-- The dispute creation of `mapCompleteInternal` (lines 340-365) for a newly
acquired map `m` with hash `hash`. -/
def mapCompleteDisputes (E : Env) (r : Round) (hash : uint256) (m : SHAMap) : Option Round :=
  match r.mOurPosition with
  | some pos =>
    if !pos.isBowOut && hash != pos.mCurrentHash then
      match mfind r.mAcquired pos.mCurrentHash with
      | some ours =>
        createDisputes E { r with mCompares := sinsert r.mCompares hash } ours (some m)
      | none => some r
    else some r
  | none => some r

/-- The vote tracking of `mapCompleteInternal` (lines 367-386) once the map
`m` is stored. -/
def mapCompleteAdjust (r : Round) (hash : uint256) (m : SHAMap) : Round :=
  let r5 : Round := { r with mAcquired := mset r.mAcquired hash (some m) }
  let peers : List NodeID :=
    (r5.mPeerPositions.filter (fun it => it.2.mCurrentHash == m.hash)).map
      (fun it => it.2.mPeerID)
  if !peers.isEmpty then adjustCount r5 m peers else r5

/-- Embedding of `LedgerConsensusZk::mapCompleteInternal`. -/
def mapCompleteInternal (E : Env) (r : Round) (hash : uint256) (map : Option SHAMap)
    (acquired : Bool) : Option Round :=
  match map with
  | none => some { r with mAcquired := mset r.mAcquired hash none }
  | some m =>
    match mfind r.mAcquired hash with
    | some (some _) => some r
    | found =>
      let r1 : Round :=
        if found.isSome then { r with mAcquired := merase r.mAcquired hash } else r
      let r2 : Round :=
        if !acquired then { r1 with givenSets := r1.givenSets ++ [hash] } else r1
      match mapCompleteDisputes E (sendHaveTxSet r2 hash true) hash m with
      | none => none
      | some r4 => some (mapCompleteAdjust r4 hash m)

/-- Embedding of `LedgerConsensusZk::leaveConsensus`. -/
def leaveConsensus (r : Round) : Round :=
  if r.mProposing then
    let r1 : Round :=
      match r.mOurPosition with
      | some pos =>
        if !pos.isBowOut then propose { r with mOurPosition := some pos.bowOut } pos.bowOut
        else r
      | none => r
    { r1 with mProposing := false }
  else r

/-- Embedding of `LedgerConsensusZk::mapComplete`.  The tx-sets of the model are fully
materialised, so `SHAMapMissingNode` is never raised and the handler that
calls `leaveConsensus` does not run. -/
def mapComplete (E : Env) (r : Round) (hash : uint256) (map : Option SHAMap)
    (acquired : Bool) : Option Round :=
  mapCompleteInternal E r hash map acquired

/-! ## The external arbiter (ZooKeeper) -/

/-- A ZooKeeper node: its data (null or bytes) and its data version. -/
structure ZkNode where
  data : Option (List Char)
  version : Int
deriving DecidableEq, Repr

/-- The ZooKeeper tree: path to node. -/
abbrev ZooKeeper := List (List Char × ZkNode)

/-- Return codes of the ZooKeeper client. -/
inductive ZkRet where
  | ZOK
  | ZNODEEXISTS
  | failure (code : Int)
deriving DecidableEq, Repr

/-- Transient backend failures of the three client calls that one
`haveConsensus` can make (`none`: the call reaches the service). -/
structure ZkFaults where
  create : Option Int
  get : Option Int
  set : Option Int
deriving DecidableEq, Repr

/-- Model of `zoo_create` of a node with data `value`. -/
def zoo_create (fault : Option Int) (zk : ZooKeeper) (path value : List Char) :
    ZkRet × ZooKeeper :=
  match fault with
  | some c => (ZkRet.failure c, zk)
  | none =>
    match mfind zk path with
    | some _ => (ZkRet.ZNODEEXISTS, zk)
    | none => (ZkRet.ZOK, mset zk path { data := some value, version := 0 })

/-- Model of `zoo_get` into a buffer of `buffSize` bytes: return code, the bytes copied,
the reported size (`-1` for null data) and the version of the node. -/
def zoo_get (fault : Option Int) (zk : ZooKeeper) (path : List Char) (buffSize : Nat) :
    ZkRet × List Char × Int × Int :=
  match fault with
  | some c => (ZkRet.failure c, [], (buffSize : Int), 0)
  | none =>
    match mfind zk path with
    | none => (ZkRet.failure (-101), [], (buffSize : Int), 0)
    | some n =>
      match n.data with
      | none => (ZkRet.ZOK, [], -1, n.version)
      | some d => (ZkRet.ZOK, d.take buffSize, ((d.take buffSize).length : Int), n.version)

/-- Model of `zoo_set` conditional on the data version. -/
def zoo_set (fault : Option Int) (zk : ZooKeeper) (path value : List Char) (version : Int) :
    ZkRet × ZooKeeper :=
  match fault with
  | some c => (ZkRet.failure c, zk)
  | none =>
    match mfind zk path with
    | none => (ZkRet.failure (-101), zk)
    | some n =>
      if version = -1 ∨ n.version = version then
        (ZkRet.ZOK, mset zk path { data := some value, version := n.version + 1 })
      else (ZkRet.failure (-103), zk)

/-- One upper-case hexadecimal digit. -/
def hexChar (d : Nat) : Char :=
  if d < 10 then Char.ofNat (48 + d) else Char.ofNat (55 + d)

/-- The `n` low hexadecimal digits of `v`, most significant first. -/
def hexDigits : Nat → Nat → List Char
  | 0, _ => []
  | n + 1, v => hexDigits n (v / 16) ++ [hexChar (v % 16)]

/-- Modelled from the spec: `to_string (uint256)`, the 64 hexadecimal digits
of a 256-bit hash. -/
def to_string (h : uint256) : List Char := hexDigits 64 h

/-- Decimal digits of `n` in front of `acc`; `fuel` bounds the digit count. -/
def decimalAux : Nat → Nat → List Char → List Char
  | 0, _, acc => acc
  | fuel + 1, n, acc =>
    if n < 10 then Char.ofNat (48 + n) :: acc
    else decimalAux fuel (n / 10) (Char.ofNat (48 + n % 10) :: acc)

/-- The decimal text of an unsigned number, as streamed by `boost::format`. -/
def decimal (n : Nat) : List Char := decimalAux (n + 1) n []

/-- The value of a hexadecimal digit of either case. -/
def hexVal (c : Char) : Option Nat :=
  if 48 ≤ c.toNat ∧ c.toNat ≤ 57 then some (c.toNat - 48)
  else if 65 ≤ c.toNat ∧ c.toNat ≤ 70 then some (c.toNat - 55)
  else if 97 ≤ c.toNat ∧ c.toNat ≤ 102 then some (c.toNat - 87)
  else none

/-- The number written by the leading hexadecimal digits of a text. -/
def hexPrefix : List Char → Nat → Nat
  | [], acc => acc
  | c :: cs, acc =>
    match hexVal c with
    | some d => hexPrefix cs (acc * 16 + d)
    | none => acc

/-- Modelled from the spec: `from_hex_text<uint256>` (not under src/), the
256-bit value of a hexadecimal text. -/
def from_hex_text (s : List Char) : uint256 := hexPrefix s 0 % 2 ^ 256

/-- The number written by a text of decimal digits, `none` on any other
character. -/
def parseDec : List Char → Nat → Option Nat
  | [], acc => some acc
  | c :: cs, acc =>
    if 48 ≤ c.toNat ∧ c.toNat ≤ 57 then parseDec cs (acc * 10 + (c.toNat - 48)) else none

/-- Model of `boost::lexical_cast<uint32_t>`: an optional plus sign and at least one
decimal digit, the value within 32 bits; `none` is `bad_lexical_cast`. -/
def lexical_cast_u32 (s : List Char) : Option Nat :=
  let body := match s with
    | '+' :: t => t
    | _ => s
  if body = [] then none
  else
    match parseDec body 0 with
    | some v => if v < 2 ^ 32 then some v else none
    | none => none

/-- Model of `boost::algorithm::split` on one separator character, empty fields kept. -/
def split (sep : Char) : List Char → List (List Char)
  | [] => [[]]
  | c :: cs =>
    if c = sep then [] :: split sep cs
    else
      match split sep cs with
      | [] => [[c]]
      | f :: fs => (c :: f) :: fs

/-- The buffer read as a NUL-terminated string. -/
def cstr (buff : List Char) : List Char := buff.takeWhile (fun c => c != Char.ofNat 0)

/-- Embedding of `LedgerConsensusZk::s_zkPath`, `"/" SYSTEM_NAMESPACE "/consensus"`. -/
def s_zkPath : List Char := "/Cf/consensus".toList

/-- The round key `<s_zkPath>/<seq + 1>` built by `haveConsensus`. -/
def roundPath (r : Round) : List Char :=
  s_zkPath ++ ['/'] ++ decimal (u32 (r.mPreviousLedger.seq + 1))

/-- The node value `<txHash>-<prevLedgerHash>-<closeTime>` built by
`haveConsensus` from a position. -/
def roundValue (r : Round) (pos : LedgerProposal) : List Char :=
  to_string pos.mCurrentHash ++ ['-'] ++ to_string r.mPrevLedgerHash ++ ['-'] ++
    decimal pos.mCloseTime

/-- Embedding of `LedgerConsensusZk::haveConsensus`.  `none`: the null position is
dereferenced or `bad_lexical_cast` escapes. -/
def haveConsensus (F : ZkFaults) (zk : ZooKeeper) (r : Round) :
    Option (Bool × Round × ZooKeeper) :=
  match r.mOurPosition with
  | none => none
  | some pos =>
    let path := roundPath r
    let value := roundValue r pos
    match zoo_create F.create zk path value with
    | (ZkRet.ZNODEEXISTS, zk1) =>
      let buffSize : Nat := 1024
      match zoo_get F.get zk1 path buffSize with
      | (ret, buff, size, version) =>
        if ret ≠ ZkRet.ZOK ∨ size = (buffSize : Int) ∨ size = -1 then some (false, r, zk1)
        else
          let vLines := split '-' (cstr buff)
          if vLines.length < 3 then
            match zoo_set F.set zk1 path value version with
            | (ZkRet.ZOK, zk2) => some (true, { r with mConsensusFail := false }, zk2)
            | (_, zk2) => some (false, r, zk2)
          else
            let txHash := from_hex_text (vLines.getD 0 [])
            let prevHash := from_hex_text (vLines.getD 1 [])
            match lexical_cast_u32 (vLines.getD 2 []) with
            | none => none
            | some closeTime =>
              if r.mPrevLedgerHash ≠ prevHash then
                some (false, { r with mConsensusFail := true }, zk1)
              else if pos.mCurrentHash ≠ txHash ∧ (mfind r.mAcquired txHash).isNone then
                some (false, r, zk1)
              else
                let changes : Bool :=
                  decide (pos.mCurrentHash ≠ txHash) || decide (pos.mCloseTime ≠ closeTime)
                if changes then
                  match pos.changePosition txHash closeTime with
                  | none => some (false, r, zk1)
                  | some pos1 =>
                    some (true, { r with mOurPosition := some pos1, mConsensusFail := false }, zk1)
                else some (true, { r with mConsensusFail := false }, zk1)
    | (ZkRet.ZOK, zk1) => some (true, { r with mConsensusFail := false }, zk1)
    | (_, zk1) => some (false, r, zk1)

/-- Embedding of `LedgerConsensusZk::updateOurPositions`. -/
def updateOurPositions (r : Round) : Round :=
  { r with mHaveCloseTimeConsensus := true }

/-- Embedding of `LedgerConsensusZk::beginAccept` up to the hand-over to `accept`: the
consensus set that `accept` receives, `none` when `abort ()` is called (or the
null position is dereferenced). -/
def beginAccept (r : Round) : Option SHAMap :=
  match r.mOurPosition with
  | none => none
  | some pos =>
    match mfind r.mAcquired pos.mCurrentHash with
    | some (some consensusSet) => some consensusSet
    | _ => none

/-- Embedding of `LedgerConsensusZk::stateEstablish` with `accept` dispatched to the job
queue (`beginAccept (false)`). -/
def stateEstablish (T : LedgerTiming) (F : ZkFaults) (zk : ZooKeeper) (r : Round) :
    Option (Round × ZooKeeper) :=
  if r.mCurrentMSeconds < T.LEDGER_MIN_CONSENSUS then some (r, zk)
  else
    let r1 := updateOurPositions r
    match haveConsensus F zk r1 with
    | none => none
    | some (false, r2, zk2) => some (r2, zk2)
    | some (true, r2, zk2) =>
      if !r2.mHaveCloseTimeConsensus then some (r2, zk2)
      else
        let r3 : Round := { r2 with state_ := State.finished }
        match beginAccept r3 with
        | none => none
        | some _ => some (r3, zk2)

/-! ## Closing the open ledger -/

/-- The open-ledger view handed to `takeInitialPosition`: the hash of its
parent and the ids of its transactions. -/
structure OpenView where
  parentHash : uint256
  txs : List uint256
deriving DecidableEq, Repr

/-- What the collaborators answer while the ledger is closed: the network
close time, the current open ledger, the stand-alone flag of the
configuration, the pseudo-transactions that fee and amendment voting add on a
flag ledger, and the root hash of the initial tx-set. -/
structure CloseInputs where
  now : Nat
  initialLedger : OpenView
  RUN_STANDALONE : Bool
  votes : List uint256
  initialSetHash : uint256

/-- Embedding of `LedgerConsensusZk::statusChange`. -/
def statusChange (r : Round) (event : NodeEvent) (ledger : Ledger) : Round :=
  { r with sent := r.sent ++
      [Message.statusChange (if !r.mHaveCorrectLCL then NodeEvent.neLOST_SYNC else event)
        ledger.seq ledger.hash] }

/-- The initial tx-set built by `takeInitialPosition` (lines 1368-1397): the
transactions of the open ledger and, after a flag ledger, the voting
pseudo-transactions. -/
def initialTxSet (C : CloseInputs) (r : Round) : SHAMap :=
  { hash := C.initialSetHash,
    items := C.initialLedger.txs ++
      (if (C.RUN_STANDALONE || (r.mProposing && r.mHaveCorrectLCL)) &&
          (r.mPreviousLedger.seq % 256 == 0) then C.votes else []) }

/-- The loop of `takeInitialPosition` over the peer positions (lines
1409-1426); `found` holds the position hashes already treated.  `none` when the
failed marker of an acquired entry is dereferenced. -/
def takeInitialDisputes (E : Env) (initialSet : SHAMap) :
    List (NodeID × LedgerProposal) → List uint256 → Round → Option Round
  | [], _, r => some r
  | it :: rest, found, r =>
    let set := it.2.mCurrentHash
    if set ∈ found then takeInitialDisputes E initialSet rest found r
    else
      match mfind r.mAcquired set with
      | some (some s) =>
        match createDisputes E { r with mCompares := sinsert r.mCompares s.hash }
            (some initialSet) (some s) with
        | none => none
        | some r1 => takeInitialDisputes E initialSet rest (set :: found) r1
      | some none => none
      | none => takeInitialDisputes E initialSet rest (set :: found) r

/-- Embedding of `LedgerConsensusZk::takeInitialPosition`. -/
def takeInitialPosition (E : Env) (C : CloseInputs) (r : Round) : Option Round :=
  let initialSet := initialTxSet C r
  let txSet := initialSet.hash
  match mapCompleteInternal E r txSet (some initialSet) false with
  | none => none
  | some r1 =>
    let pos : LedgerProposal :=
      { mPeerID := r1.mValPublic, mPreviousLedger := C.initialLedger.parentHash,
        mCurrentHash := txSet, mCloseTime := r1.mCloseTime,
        mProposeSeq := LedgerProposal.seqJoin }
    let r2 : Round :=
      { r1 with
        mOurPosition := some pos,
        mDisputes := r1.mDisputes.map
          (fun it => (it.1, it.2.setOurVote (decide (it.1 ∈ C.initialLedger.txs)))) }
    match takeInitialDisputes E initialSet r2.mPeerPositions [] r2 with
    | none => none
    | some r3 => some (if r3.mProposing then propose r3 pos else r3)

/-- Embedding of `LedgerConsensusZk::closeLedger`.  `checkOurValidation` and
`applyHeldTransactions` act on the host only. -/
def closeLedger (E : Env) (C : CloseInputs) (r : Round) : Option Round :=
  let r1 : Round := { r with state_ := State.establish, mCloseTime := C.now }
  takeInitialPosition E C (statusChange r1 NodeEvent.neCLOSING_LEDGER r1.mPreviousLedger)

/-- The conversion `static_cast<int>` of an unsigned value. -/
def toInt32 (n : Nat) : Int :=
  if n % 2 ^ 32 < 2 ^ 31 then ((n % 2 ^ 32 : Nat) : Int) else ((n % 2 ^ 32 : Nat) : Int) - 2 ^ 32

/-- What the collaborators answer in `statePreClose`: whether the open ledger
holds transactions, the trusted validations of the prior ledger, the close
time last seen and the network close time. -/
structure PreCloseInputs where
  anyTransactions : Bool
  proposersValidated : Int
  lastCloseTime : Nat
  now : Nat

/-- The milliseconds since the prior ledger closed, as `statePreClose`
computes them (lines 618-635). -/
def sinceClose (P : PreCloseInputs) (r : Round) : Int :=
  let previousCloseCorrect : Bool :=
    r.mHaveCorrectLCL && r.mPreviousLedger.closeAgree &&
      (r.mPreviousLedger.closeTime != u32 (r.mPreviousLedger.parentCloseTime + 1))
  let closeTime := if previousCloseCorrect then r.mPreviousLedger.closeTime else P.lastCloseTime
  if P.now ≥ closeTime then toInt32 (u32 (1000 * u32 (P.now - closeTime)))
  else - toInt32 (u32 (1000 * u32 (closeTime - P.now)))

/-- The close decision of `statePreClose` (lines 637-643). -/
def preCloseDecision (T : LedgerTiming) (P : PreCloseInputs) (r : Round) : Bool :=
  T.shouldCloseLedger P.anyTransactions r.mPreviousProposers (r.mPeerPositions.length : Int)
    P.proposersValidated r.mPreviousMSeconds (sinceClose P r) r.mCurrentMSeconds
    ((max T.LEDGER_IDLE_INTERVAL (2 * r.mPreviousLedger.closeTimeResolution) : Nat) : Int)

/-- Embedding of `LedgerConsensusZk::statePreClose`; the code after its `return` is dead. -/
def statePreClose (T : LedgerTiming) (E : Env) (P : PreCloseInputs) (C : CloseInputs)
    (r : Round) : Option Round :=
  if preCloseDecision T P r then closeLedger E C r else some r

/-- What the collaborators answer during one `timerEntry`. -/
structure Tick where
  E : Env
  vals : List (uint256 × Int)
  elapsed : Int
  P : PreCloseInputs
  C : CloseInputs
  F : ZkFaults

/-- The view check at the head of `timerEntry` (lines 565-566). -/
def timerCheckLCL (T : LedgerTiming) (tk : Tick) (r : Round) : Round :=
  if r.state_ ≠ State.finished ∧ r.state_ ≠ State.accepted then checkLCL T tk.E tk.vals r
  else r

/-- The dispatch of `timerEntry` on the round state (lines 572-595).  `accept`
is dispatched to the job queue by `stateEstablish`, so the fall-through into
`stateFinished` returns; `stateAccepted` only notifies the host. -/
def timerDispatch (T : LedgerTiming) (tk : Tick) (zk : ZooKeeper) (r : Round) :
    Option (Round × ZooKeeper) :=
  match r.state_ with
  | State.open_ => (statePreClose T tk.E tk.P tk.C r).map (fun r3 => (r3, zk))
  | State.establish => stateEstablish T tk.F zk r
  | State.finished => some (r, zk)
  | State.accepted => some (r, zk)

/-- The clock update of `timerEntry` (lines 568-570). -/
def timerClock (tk : Tick) (r : Round) : Round :=
  { r with mCurrentMSeconds := tk.elapsed,
           mClosePercent := Int.tdiv (tk.elapsed * 100) r.mPreviousMSeconds }

/-- Embedding of `LedgerConsensusZk::timerEntry`.  `none` also when the division by
`mPreviousMSeconds` is a division by zero. -/
def timerEntry (T : LedgerTiming) (tk : Tick) (zk : ZooKeeper) (r : Round) :
    Option (Round × ZooKeeper) :=
  let r1 := timerCheckLCL T tk r
  if r1.mPreviousMSeconds = 0 then none
  else timerDispatch T tk zk (timerClock tk r1)

/-! ## Acceptance -/

/-- What the collaborators answer during `accept`: the replay record, the hash
of the ledger that was built, the compatibility check of the ledger master,
the timestamp of the validation, the load fee when it is above the base, the
transactions of the set that application leaves for a retry, and the
disputed transactions whose bytes deserialize. -/
structure AcceptInputs where
  replay : Option LedgerReplay
  newLCLHash : uint256
  isCompatible : Bool
  signTime : Nat
  loadFee : Option Nat
  retried : uint256 → Bool
  parses : uint256 → Bool

/-- What `accept` produces: the new closed ledger, the transactions applied to
it, the validation sent (if any), the retriable set handed to the open
ledger with its `anyDisputes` flag, and the clock offset handed to
`adjustCloseTime` (if any). -/
structure AcceptResult where
  newLCL : Ledger
  applied : List uint256
  validation : Option STValidation
  retriableTxs : List uint256
  anyDisputes : Bool
  closeOffset : Option Int
deriving DecidableEq, Repr

/-- The wrap-around of `int` arithmetic: the value of an integer reduced to
the signed 32-bit range. -/
def wrapInt32 (x : Int) : Int := (x + 2 ^ 31) % 2 ^ 32 - 2 ^ 31

/-- The close offset of `accept` (lines 1152-1171): `closeTotal` in unsigned
64-bit arithmetic, `closeCount` and the offset in `int` arithmetic; `none`
when `closeCount` is 0 and the division divides by zero. -/
def closeOffset (mCloseTime : Nat) (mCloseTimes : List (Nat × Int)) : Option Int :=
  let acc : Nat × Int :=
    mCloseTimes.foldl
      (fun acc it =>
        ((acc.1 + (it.1 * (it.2 % 2 ^ 64).toNat) % 2 ^ 64) % 2 ^ 64, wrapInt32 (acc.2 + it.2)))
      (mCloseTime, 1)
  if acc.2 = 0 then none
  else
    let closeTotal := (acc.1 + (Int.tdiv acc.2 2 % 2 ^ 64).toNat) % 2 ^ 64
    let closeTotal := closeTotal / (acc.2 % 2 ^ 64).toNat
    some (wrapInt32 (toInt32 closeTotal - toInt32 mCloseTime))

/-- The validation that `accept` builds (lines 1037-1050) for the new ledger. -/
def buildValidation (A : AcceptInputs) (r : Round) (newLCL : Ledger) : STValidation :=
  { ledgerHash := newLCL.hash,
    signTime := A.signTime,
    signer := r.mValPublic,
    full := r.mProposing,
    ledgerSequence := newLCL.seq,
    loadFee := A.loadFee,
    feeVote := u32 (newLCL.seq + 1) % 256 == 0,
    amendmentVote := u32 (newLCL.seq + 1) % 256 == 0 }

/-- Modelled from the spec: the `Ledger` constructor and `setAccepted` (not
under src/), a new ledger parented on the prior closed ledger `prev`. -/
def newLedger (prev : Ledger) (hash : uint256) (closeTime closeResolution : Nat)
    (closeTimeCorrect : Bool) : Ledger :=
  { hash := hash,
    parentHash := prev.hash,
    seq := u32 (prev.seq + 1),
    closeTime := closeTime,
    parentCloseTime := prev.closeTime,
    closeTimeResolution := closeResolution,
    closeAgree := closeTimeCorrect }

/-- Embedding of `LedgerConsensusZk::accept` for the consensus set `set`; `none` when
the null position is dereferenced or the clock adjustment divides by zero. -/
def accept (T : LedgerTiming) (A : AcceptInputs) (r : Round) (set : SHAMap) :
    Option (Round × AcceptResult) :=
  match acceptCloseTime T r A.replay with
  | none => none
  | some (closeTime, closeTimeCorrect) =>
    let newLCL := newLedger r.mPreviousLedger A.newLCLHash closeTime r.mCloseResolution
      closeTimeCorrect
    let applied : List uint256 :=
      match A.replay with
      | some rp => rp.txns_
      | none => set.items
    let retriable0 : List uint256 :=
      match A.replay with
      | some _ => []
      | none => set.items.filter A.retried
    let r1 := statusChange r NodeEvent.neACCEPTED_LEDGER newLCL
    let r2 : Round :=
      if r1.mValidating && !A.isCompatible then { r1 with mValidating := false } else r1
    let validation : Option STValidation :=
      if r2.mValidating && !r2.mConsensusFail then some (buildValidation A r2 newLCL) else none
    let r3 : Round :=
      match validation with
      | some v => { r2 with sent := r2.sent ++ [Message.validation v] }
      | none => r2
    let votedNo : List uint256 :=
      (r3.mDisputes.filter (fun it => !it.2.mOurVote && A.parses it.1)).map (fun it => it.1)
    let r4 : Round := { r3 with mNewLedgerHash := newLCL.hash, state_ := State.accepted }
    let offset : Option (Option Int) :=
      if r4.mValidating then (closeOffset r4.mCloseTime r4.mCloseTimes).map some else some none
    match offset with
    | none => none
    | some off =>
      some (r4,
        { newLCL := newLCL,
          applied := applied,
          validation := validation,
          retriableTxs := retriable0 ++ votedNo,
          anyDisputes := !votedNo.isEmpty,
          closeOffset := off })

/-- The rank of a round state in the order open, establish, finished,
accepted. -/
def State.rank : State → Nat
  | State.open_ => 0
  | State.establish => 1
  | State.finished => 2
  | State.accepted => 3

/-- A well-formed arbiter record: read the way `haveConsensus` reads it, the
data `d` has at least three fields, the first two decode to `txHash` and
`prevHash` and the third casts to `closeTime`. -/
def WellFormedRecord (d : List Char) (txHash prevHash : uint256) (closeTime : Nat) : Prop :=
  3 ≤ (split '-' (cstr d)).length ∧
  from_hex_text ((split '-' (cstr d)).getD 0 []) = txHash ∧
  from_hex_text ((split '-' (cstr d)).getD 1 []) = prevHash ∧
  lexical_cast_u32 ((split '-' (cstr d)).getD 2 []) = some closeTime

instance (d : List Char) (txHash prevHash : uint256) (closeTime : Nat) :
    Decidable (WellFormedRecord d txHash prevHash closeTime) := by
  unfold WellFormedRecord
  infer_instance

/-- The entry of AcquiredSets for the tx-set hash of our position: `none` when
there is no position, `some none` when the hash is not a key, `some (some none)`
when it is mapped to the failed marker. -/
def positionSet (r : Round) : Option (Option (Option SHAMap)) :=
  r.mOurPosition.map (fun pos => mfind r.mAcquired pos.mCurrentHash)

/-- The members that tx-set acquisition and dispute creation never write: the
round with AcquiredSets, Disputes, the compare set and the traces of sent
messages and given sets blanked. -/
def acquireCore (r : Round) : Round :=
  { r with mAcquired := [], mDisputes := [], mCompares := [], sent := [], givenSets := [] }

/-- The members that proposal ingestion never writes: the round with
PeerPositions, DeadNodes, CloseTimes, Disputes and AcquiredSets blanked. -/
def peerCore (r : Round) : Round :=
  { r with mPeerPositions := [], mDeadNodes := [], mCloseTimes := [], mDisputes := [],
           mAcquired := [] }

/-- The members that `haveConsensus` never writes: the round with our position
and the consensus-fail flag blanked. -/
def consensusCore (r : Round) : Round :=
  { r with mOurPosition := none, mConsensusFail := false }

/-- The round `r` with other peer positions, close-time votes and close-time
agreement flag. -/
def withPeerTimes (r : Round) (pp : List (NodeID × LedgerProposal)) (ct : List (Nat × Int))
    (b : Bool) : Round :=
  { r with mPeerPositions := pp, mCloseTimes := ct, mHaveCloseTimeConsensus := b }

/-- The proposal `p` is among the stored proposals and extends the ledger `h`. -/
def StoredFor (E : Env) (h : uint256) (p : LedgerProposal) : Prop :=
  (∃ it ∈ E.storedProposals, p ∈ it.2) ∧ p.mPreviousLedger = h

/-- The round is on the prior ledger `h`, has no dispute, and its peer
positions, dead nodes and close-time votes all come from stored proposals
that extend `h`: a position is a stored proposal of its peer, a dead node has
a stored bow-out, a voted close time is that of a stored INITIAL proposal. -/
def ReplayedOnly (E : Env) (h : uint256) (r : Round) : Prop :=
  r.mPrevLedgerHash = h ∧ r.mDisputes = [] ∧
  (∀ k v, mfind r.mPeerPositions k = some v → StoredFor E h v ∧ v.mPeerID = k) ∧
  (∀ k, k ∈ r.mDeadNodes → ∃ p, StoredFor E h p ∧ p.mPeerID = k ∧ p.isBowOut = true) ∧
  (∀ t n, mfind r.mCloseTimes t = some n →
    ∃ p, StoredFor E h p ∧ p.isInitial = true ∧ p.mCloseTime = t)

/-- Whether Disputes holds a DisputedTx for the transaction `t`. -/
def disputed (r : Round) (t : uint256) : Bool := (mfind r.mDisputes t).isSome

/-- Our vote on a new dispute can be computed: the entry of AcquiredSets for
our position, if there is one, is not the failed marker. -/
def VoteReady (r : Round) : Prop := ∀ tx : uint256, (ourVoteOn r tx).isSome = true

/-- The transactions in exactly one of two tx-sets, those of the first set
first. -/
def diffKeys (a b : SHAMap) : List uint256 :=
  a.items.filter (fun t => !b.hasItem t) ++ b.items.filter (fun t => !a.hasItem t)

/-- The sum over CloseTimeVotes of close time times number of votes. -/
def voteTotal (votes : List (Nat × Int)) : Nat :=
  (votes.map (fun it => it.1 * it.2.toNat)).sum

/-- The number of votes in CloseTimeVotes. -/
def voteCount (votes : List (Nat × Int)) : Nat :=
  (votes.map (fun it => it.2.toNat)).sum

/-- The close offset in the words of the specification: the mean of our close
time `T` and the voted close times, weighted by their votes and rounded to
the nearest second, minus `T`. -/
def closeOffsetSpec (T : Nat) (votes : List (Nat × Int)) : Int :=
  (((T + voteTotal votes + (1 + voteCount votes) / 2) / (1 + voteCount votes) : Nat) : Int) -
    (T : Int)

/-! ## Runs of the round -/

/-- The calls that the host delivers to a round between its construction and
the close of the ledger, each with what the collaborators answer. -/
inductive Event where
  | peerPosition (E : Env) (newPosition : LedgerProposal)
  | playbackProposals (E : Env)
  | checkLCL (E : Env) (vals : List (uint256 × Int))
  | handleLCL (E : Env) (lclHash : uint256)
  | mapComplete (E : Env) (hash : uint256) (map : Option SHAMap) (acquired : Bool)

/-- One call; `none` when it crashes. -/
def step (T : LedgerTiming) (r : Round) : Event → Option Round
  | Event.peerPosition E p => some (peerPosition E r p).2
  | Event.playbackProposals E => some (playbackProposals E r)
  | Event.checkLCL E vals => some (checkLCL T E vals r)
  | Event.handleLCL E h => some (handleLCL T E r h)
  | Event.mapComplete E h m a => mapComplete E r h m a

/-- A sequence of calls. -/
def run (T : LedgerTiming) (r : Round) : List Event → Option Round
  | [] => some r
  | e :: es =>
    match step T r e with
    | none => none
    | some r1 => run T r1 es

/-- Whether a call switches the round to another prior ledger (a view
change), which abandons the positions collected so far. -/
def switchesLCL (r : Round) : Event → Bool
  | Event.checkLCL _ vals => decide ((checkLCLSelect r.mPrevLedgerHash vals).1 ≠ r.mPrevLedgerHash)
  | Event.handleLCL _ h => decide (h ≠ r.mPrevLedgerHash)
  | _ => false

/-- No call of the sequence, delivered in order from `r`, switches the prior
ledger. -/
def sameView (T : LedgerTiming) : Round → List Event → Bool
  | _, [] => true
  | r, e :: es =>
    !switchesLCL r e &&
      (match step T r e with
       | none => true
       | some r1 => sameView T r1 es)

/-- No peer is at the same time a key of PeerPositions and a member of
DeadNodes. -/
def PeersDisjoint (r : Round) : Prop :=
  ∀ k : NodeID, k ∈ r.mDeadNodes → mfind r.mPeerPositions k = none

/-- The members as the constructor's initialiser list leaves them, before the
constructor body runs `handleLCL` and `playbackProposals`. -/
def construct (previousProposers previousConvergeTime : Int) (prevLCLHash : uint256)
    (previousLedger : Ledger) (closeTime : Nat) (T : LedgerTiming) (valPublic : NodeID)
    (validating proposing : Bool) : Round :=
  { state_ := State.open_
    mCloseTime := closeTime
    mPrevLedgerHash := prevLCLHash
    mAcquiringLedger := 0
    mPreviousLedger := previousLedger
    mOurPosition := none
    mProposing := proposing
    mValidating := validating
    mHaveCorrectLCL := decide (previousLedger.hash = prevLCLHash)
    mConsensusFail := false
    mCurrentMSeconds := 0
    mClosePercent := 0
    mCloseResolution := T.getNextLedgerTimeResolution previousLedger.closeTimeResolution
      previousLedger.closeAgree (previousLedger.seq + 1)
    mHaveCloseTimeConsensus := false
    mPreviousProposers := previousProposers
    mPreviousMSeconds := previousConvergeTime
    mPeerPositions := []
    mAcquired := []
    mDisputes := []
    mCompares := []
    mCloseTimes := []
    mDeadNodes := []
    mNewLedgerHash := 0
    mValPublic := valPublic
    sent := []
    acquireJobs := []
    givenSets := [] }

/-- The timing helpers of the reference implementation: `roundCloseTime` rounds
to the nearest multiple of the resolution, the resolution is kept, and the
ledger closes when transactions have waited two seconds or the idle interval
has passed. -/
def exTiming : LedgerTiming where
  roundCloseTime := fun closeTime closeResolution =>
    if closeTime = 0 then 0
    else (closeTime + closeResolution / 2) -
      (closeTime + closeResolution / 2) % closeResolution
  getNextLedgerTimeResolution := fun previousResolution _ _ => previousResolution
  LEDGER_MIN_CONSENSUS := 2000
  LEDGER_IDLE_INTERVAL := 15
  sLCF_NoConsensusTime := 1
  shouldCloseLedger := fun anyTransactions _ _ _ _ currentMSeconds openMSeconds idleInterval =>
    (anyTransactions && decide (2000 ≤ openMSeconds)) ||
      decide (idleInterval * 1000 ≤ currentMSeconds)

/-- A prior ledger: hash 1000, sequence 41, closed at 90 with resolution 10. -/
def exLedger : Ledger where
  hash := 1000
  parentHash := 999
  seq := 41
  closeTime := 90
  parentCloseTime := 80
  closeTimeResolution := 10
  closeAgree := true

/-- Collaborators that hold nothing. -/
def exEnv : Env where
  getSet := fun _ => none
  storedProposals := []
  ledgers := []
  setFlags := fun _ => false

/-- Our position: tx-set 170, close time 104. -/
def exPos : LedgerProposal where
  mPeerID := 7
  mPreviousLedger := 1000
  mCurrentHash := 170
  mCloseTime := 104
  mProposeSeq := 0

/-- A round in `establish` on `exLedger` whose position is `exPos`, with the
tx-set 170 acquired. -/
def exRound : Round :=
  { construct 5 3000 1000 exLedger 104 exTiming 7 true true with
    state_ := State.establish
    mCurrentMSeconds := 2500
    mOurPosition := some exPos
    mAcquired := [(170, some { hash := 170, items := [1] })] }

/-- The position of peer 3: tx-set 187, sequence number 5. -/
def exPeerPos : LedgerProposal where
  mPeerID := 3
  mPreviousLedger := 1000
  mCurrentHash := 187
  mCloseTime := 104
  mProposeSeq := 5

/-- The bow-out of peer 3. -/
def exBowOut : LedgerProposal :=
  { exPeerPos with mProposeSeq := LedgerProposal.seqLeave }

/-- The round `exRound` with the position of peer 3 stored, one close-time vote
and a dispute on transaction 2 on which peer 3 votes yes. -/
def exPeerRound : Round :=
  { exRound with
    mPeerPositions := [(3, exPeerPos)]
    mCloseTimes := [(104, 1)]
    mDisputes := [(2, { mTransactionID := 2, mOurVote := false, mVotes := [(3, true)] })] }

/-- A freshly constructed round on `exLedger`. -/
def exFresh : Round := construct 5 3000 1000 exLedger 104 exTiming 7 true true

/-- Deliveries to `exFresh`: a position of peer 3, a tx-set, the bow-out of
peer 3, a position of peer 4 and a replay of the stored proposals. -/
def exEvents : List Event :=
  [Event.peerPosition exEnv exPeerPos,
   Event.mapComplete exEnv 187 (some { hash := 187, items := [1, 2] }) true,
   Event.peerPosition exEnv exBowOut,
   Event.peerPosition exEnv { exPeerPos with mPeerID := 4 },
   Event.playbackProposals exEnv]

/-- The state in which the run `exEvents` from `exFresh` ends. -/
def exFinal : Round := (run exTiming exFresh exEvents).getD exFresh

/-- An INITIAL proposal of peer 3 that extends ledger 555, not the prior
ledger 1000 of the round. -/
def exForeign : LedgerProposal where
  mPeerID := 3
  mPreviousLedger := 555
  mCurrentHash := 187
  mCloseTime := 104
  mProposeSeq := 0

/-- The collaborators `E` with the stored proposals restricted to those that
extend the ledger `h`. -/
def Env.restrictTo (E : Env) (h : uint256) : Env :=
  { E with storedProposals :=
      E.storedProposals.map (fun it => (it.1, it.2.filter (fun p => p.isPrevLedger h))) }

/-- A ZooKeeper service that answers every call. -/
def noFaults : ZkFaults where
  create := none
  get := none
  set := none

/-- The arbiter tree with a record for ledger 42 published by a node on the
same prior ledger 1000: tx-set 187, close time 110. -/
def exZkOther : ZooKeeper :=
  [(roundPath exRound,
    { data := some (to_string 187 ++ ['-'] ++ to_string 1000 ++ ['-'] ++ decimal 110),
      version := 0 })]

/-- The round `exRound` with the tx-set 187 acquired as well. -/
def exRound187 : Round :=
  { exRound with
    mAcquired := [(170, some { hash := 170, items := [1] }),
                  (187, some { hash := 187, items := [1, 2] })] }

/-- The arbiter tree with a record for ledger 42 published by a node whose
prior ledger is 999, not 1000. -/
def exZkStale : ZooKeeper :=
  [(roundPath exRound,
    { data := some (to_string 170 ++ ['-'] ++ to_string 999 ++ ['-'] ++ decimal 104),
      version := 0 })]

/-- The round `exRound` in which the acquisition of the tx-set 187 has failed:
AcquiredSets holds the failed marker for 187. -/
def exRoundFailed187 : Round :=
  { exRound with
    mAcquired := [(170, some { hash := 170, items := [1] }), (187, none)] }

/-- A tick 2.5 seconds into the round: one transaction (id 1) waits in the open
ledger, whose tx-set hashes to 170; the network close time is 104; nothing is
stored, held or validated, and ZooKeeper answers. -/
def exTick : Tick where
  E := exEnv
  vals := []
  elapsed := 2500
  P := { anyTransactions := true, proposersValidated := 0, lastCloseTime := 90, now := 100 }
  C := { now := 104, initialLedger := { parentHash := 1000, txs := [1] },
         RUN_STANDALONE := false, votes := [], initialSetHash := 170 }
  F := noFaults

/-- The round `exFresh` after the tick `exTick`. -/
def exClosed : Round := ((timerEntry exTiming exTick [] exFresh).map Prod.fst).getD exFresh

/-- Collaborators that hold one stored proposal: the INITIAL position of peer 3
on the prior ledger 2000. -/
def exStored2000 : Env :=
  { exEnv with
    storedProposals := [(3, [{ exPeerPos with mPreviousLedger := 2000, mProposeSeq := 0 }])] }

/-- Collaborators whose ledger store holds the ledger 3000 only. -/
def exStore3000 : Env :=
  { exEnv with ledgers := [{ exLedger with hash := 3000, parentHash := 1000, seq := 42 }] }

/-- The fresh round `exFresh` after `handleLCL (2000)`, `handleLCL (3000)` and
again `handleLCL (2000)`, with the ledger store `exStore3000`. -/
def exBackTo2000 : Round :=
  handleLCL exTiming exStore3000
    (handleLCL exTiming exStore3000 (handleLCL exTiming exStore3000 exFresh 2000) 3000) 2000

/-- A round constructed on the held ledger 1000 while the prior ledger of the
network is 2000, after the `handleLCL (2000)` of the constructor: open, with
`have_correct_lcl` false. -/
def exWrong : Round :=
  handleLCL exTiming exEnv (construct 5 3000 2000 exLedger 104 exTiming 7 true true) 2000

/-- The round `exWrong` after the tick `exTick`. -/
def exWrongClosed : Round :=
  ((timerEntry exTiming exTick [] exWrong).map Prod.fst).getD exWrong

/-- The round `exWrongClosed` after a second tick `exTick`. -/
def exWrongFinished : Round :=
  ((timerEntry exTiming exTick [] exWrongClosed).map Prod.fst).getD exWrong

/-- Collaborators of `accept` on a quiet host: no replay, the built ledger
hashes to 4000 and is compatible, every transaction applies and every
disputed transaction deserializes. -/
def exAccept : AcceptInputs where
  replay := none
  newLCLHash := 4000
  isCompatible := true
  signTime := 105
  loadFee := none
  retried := fun _ => false
  parses := fun _ => true

/-- The round `exRound`, validating, on a prior ledger with sequence `seq`. -/
def exRoundSeq (seq : Nat) : Round :=
  { exRound with mPreviousLedger := { exLedger with seq := seq } }

/-- What `accept` makes of `exRound` and its consensus set. -/
def exAccepted : Round × AcceptResult :=
  (accept exTiming exAccept exRound { hash := 170, items := [1] }).getD
    (exRound, { newLCL := exLedger, applied := [], validation := none, retriableTxs := [],
                anyDisputes := false, closeOffset := none })

/-- What `accept` makes of the round on the prior ledger 254. -/
def exAccepted254 : Round × AcceptResult :=
  (accept exTiming exAccept (exRoundSeq 254) { hash := 170, items := [1] }).getD exAccepted

/-- The validation of an `accept` result (a blank validation if none). -/
def validationOf (x : Round × AcceptResult) : STValidation :=
  x.2.validation.getD
    { ledgerHash := 0, signTime := 0, signer := 0, full := false, ledgerSequence := 0,
      loadFee := none, feeVote := false, amendmentVote := false }

/-- A tx-set of 16385 transactions, the ids 0 to 16384, with root hash 187. -/
def exBigSet : SHAMap := { hash := 187, items := List.range 16385 }

/-- The round `exRound` with an empty tx-set as our position 170 and the
position of peer 3 (tx-set 187) stored, before the set 187 arrives. -/
def exEmptyRound : Round :=
  { exRound with
    mAcquired := [(170, some { hash := 170, items := [] })]
    mPeerPositions := [(3, exPeerPos)] }

/-- An open round on `exLedger` before our position is taken: the position of
peer 3 (tx-set 187) is stored and the tx-set 187, transactions 1 and 2, is
acquired. -/
def exOpenRound : Round :=
  { exFresh with
    mPeerPositions := [(3, exPeerPos)]
    mAcquired := [(187, some { hash := 187, items := [1, 2] })] }

/-- The round `exRound` with two close-time votes for 104 and one for 110. -/
def exVotesRound : Round :=
  { exRound with mCloseTimes := [(104, 2), (110, 1)] }

/-- The round `exRound` (our set 170 holds transaction 1) with the position of
peer 3 stored, after `mapComplete` delivered peer 3's set 187 (transactions 1
and 2): transaction 2 is disputed and our vote on it is NO. -/
def exDisputed : Round :=
  (mapComplete exEnv { exRound with mPeerPositions := [(3, exPeerPos)] } 187
    (some { hash := 187, items := [1, 2] }) true).getD exRound

/-- The round `exDisputed` after `stateEstablish` read the published record
(187, 1000, 110) and adopted it. -/
def exAdopted : Round :=
  ((stateEstablish exTiming noFaults exZkOther exDisputed).map Prod.fst).getD exRound

/-- The fresh round after peer 3 proposed the tx-set 187 and the acquisition of
187 failed (`mapComplete` with an invalid map), if those two calls return. -/
def exFailedPeerSet : Option Round :=
  run exTiming exFresh
    [Event.peerPosition exEnv exPeerPos, Event.mapComplete exEnv 187 none true]

/-- The arbiter tree with a malformed record for ledger 42: the text `bad`,
at version 4. -/
def exZkBad : ZooKeeper :=
  [(roundPath exRound, { data := some ['b', 'a', 'd'], version := 4 })]

/-- The arbiter tree with the record that `exRound` itself would publish for
ledger 42. -/
def exZkOwn : ZooKeeper :=
  [(roundPath exRound, { data := some (roundValue exRound exPos), version := 0 })]

/-- The round `exRound` closed at 700000000 with two close-time votes for
4294967295. -/
def exLateRound : Round :=
  { exRound with mCloseTime := 700000000, mCloseTimes := [(4294967295, 2)] }

/-- Collaborators whose tx-set store holds the tx-set 187, transactions 1 and
2. -/
def exHolds187 : Env :=
  { exEnv with
    getSet := fun h => if h = 187 then some { hash := 187, items := [1, 2] } else none }

/-- The fresh round after `mapComplete` delivered the tx-set 187 (transactions
1 and 2), the tick `exTick` closed the ledger and took our position (tx-set
170, transaction 1), and peer 3 then proposed the tx-set 187; `none` if a call
does not return. -/
def exLatePeer : Option Round :=
  (mapComplete exEnv exFresh 187 (some { hash := 187, items := [1, 2] }) true).bind
    (fun r => ((timerEntry exTiming exTick [] r).map Prod.fst).map
      (fun r => (peerPosition exEnv r exPeerPos).2))

/-- The round `exRound` (our set 170 holds transaction 1) after `handleLCL`
switched it to the prior ledger 2000 and bowed our position out, peer 3
proposed the tx-set 187 on ledger 2000, and `mapComplete` delivered that set;
`none` if the delivery does not return. -/
def exNotParticipating : Option Round :=
  mapComplete exEnv
    (peerPosition exEnv (handleLCL exTiming exEnv exRound 2000)
      { exPeerPos with mPreviousLedger := 2000 }).2
    187 (some { hash := 187, items := [1, 2] }) true

/-! # Theorems -/

/-! ## Container lemmas -/

theorem mfind_mset {K V : Type} [DecidableEq K] (m : List (K × V)) (k k' : K) (v : V) :
    mfind (mset m k v) k' = if k = k' then some v else mfind m k' := by
  induction m with
  | nil => simp [mset, mfind]
  | cons e m ih =>
    obtain ⟨a, b⟩ := e
    by_cases h1 : a = k
    · subst h1
      by_cases h2 : a = k' <;> simp [mset, mfind, h2]
    · by_cases h3 : a = k'
      · subst h3
        have h2 : ¬ k = a := fun h => h1 h.symm
        simp [mset, mfind, h1, h2]
      · simp [mset, mfind, h1, h3, ih]

theorem mfind_merase {K V : Type} [DecidableEq K] (m : List (K × V)) (k k' : K) :
    mfind (merase m k) k' = if k = k' then none else mfind m k' := by
  induction m with
  | nil => simp [merase, mfind]
  | cons e m ih =>
    obtain ⟨a, b⟩ := e
    by_cases h1 : a = k
    · subst h1
      by_cases h2 : a = k'
      · subst h2
        simpa [merase] using ih
      · simp [merase, mfind, h2, ih]
    · by_cases h3 : a = k'
      · subst h3
        have h2 : ¬ k = a := fun h => h1 h.symm
        simp [merase, mfind, h1, h2]
      · simp [merase, mfind, h1, h3, ih]

theorem mem_sinsert {K : Type} [DecidableEq K] (s : List K) (k x : K) :
    x ∈ sinsert s k ↔ x ∈ s ∨ x = k := by
  unfold sinsert
  by_cases h : k ∈ s
  · simp only [h, if_true]
    constructor
    · intro hx; exact Or.inl hx
    · rintro (hx | hx)
      · exact hx
      · subst hx; exact h
  · simp [h]

/-! ## Close-time finalization -/

/-- C1: in `accept` without a replay, with `ct` the close time of our position
and `prev_close` the close time of the prior ledger, the final close time and
correct-flag are `(prev_close + 1, false)` if `ct = 0` and
`(max (roundCloseTime (ct, close_resolution), prev_close + 1), true)` for every
`ct ≠ 0`; `prev_close + 1` is the 32-bit sum, which is the plain sum whenever
it fits 32 bits. -/
theorem accept_close_time_finalization (T : LedgerTiming) (r : Round) (pos : LedgerProposal)
    (hpos : r.mOurPosition = some pos) :
    (pos.mCloseTime = 0 →
      acceptCloseTime T r none = some (u32 (r.mPreviousLedger.closeTime + 1), false)) ∧
    (pos.mCloseTime ≠ 0 →
      acceptCloseTime T r none =
        some (max (T.roundCloseTime pos.mCloseTime r.mCloseResolution)
                  (u32 (r.mPreviousLedger.closeTime + 1)), true)) ∧
    (r.mPreviousLedger.closeTime + 1 < 2 ^ 32 →
      u32 (r.mPreviousLedger.closeTime + 1) = r.mPreviousLedger.closeTime + 1) := by
  refine ⟨?_, ?_, ?_⟩
  · intro h0
    simp [acceptCloseTime, hpos, h0]
  · intro h0
    simp [acceptCloseTime, hpos, h0, effectiveCloseTime]
  · intro hlt
    exact Nat.mod_eq_of_lt hlt

/-- Witness of C1: close time 104 at resolution 10 on a ledger closed at 90
finalizes to `(100, true)`, and `90 + 1` does not wrap. -/
theorem accept_close_time_finalization_witness :
    exRound.mOurPosition = some exPos ∧
    acceptCloseTime exTiming exRound none = some (100, true) ∧
    u32 (exRound.mPreviousLedger.closeTime + 1) = 91 :=
  ⟨rfl,
   (accept_close_time_finalization exTiming exRound exPos rfl).2.1 (by decide),
   (accept_close_time_finalization exTiming exRound exPos rfl).2.2 (by decide)⟩

/-! ## Peer proposal ingestion -/

theorem getTransactionTree_frame (E : Env) (r : Round) (h : uint256) :
    (getTransactionTree E r h).2.mPeerPositions = r.mPeerPositions ∧
    (getTransactionTree E r h).2.mDeadNodes = r.mDeadNodes ∧
    (getTransactionTree E r h).2.mCloseTimes = r.mCloseTimes ∧
    (getTransactionTree E r h).2.mDisputes = r.mDisputes ∧
    (getTransactionTree E r h).2.mPrevLedgerHash = r.mPrevLedgerHash := by
  unfold getTransactionTree
  split
  · exact ⟨rfl, rfl, rfl, rfl, rfl⟩
  · split <;> exact ⟨rfl, rfl, rfl, rfl, rfl⟩

theorem peerPosition_dead (E : Env) (r : Round) (p : LedgerProposal)
    (h : p.mPeerID ∈ r.mDeadNodes) : peerPosition E r p = (false, r) := by
  simp [peerPosition, h]

theorem peerPosition_stale (E : Env) (r : Round) (p : LedgerProposal)
    (h : staleProposal r p = true) : peerPosition E r p = (false, r) := by
  unfold peerPosition
  by_cases hd : p.mPeerID ∈ r.mDeadNodes <;> simp [hd, h]

theorem peerPosition_bowOut (E : Env) (r : Round) (p : LedgerProposal)
    (hd : p.mPeerID ∉ r.mDeadNodes) (hs : staleProposal r p = false)
    (hb : p.isBowOut = true) :
    peerPosition E r p =
      (true, { r with
                mDisputes := r.mDisputes.map (fun it => (it.1, it.2.unVote p.mPeerID)),
                mPeerPositions := merase r.mPeerPositions p.mPeerID,
                mDeadNodes := sinsert r.mDeadNodes p.mPeerID }) := by
  simp [peerPosition, hd, hs, hb]

theorem peerPosition_store_eq (E : Env) (r : Round) (p : LedgerProposal)
    (hd : p.mPeerID ∉ r.mDeadNodes) (hs : staleProposal r p = false)
    (hb : p.isBowOut = false) : peerPosition E r p = peerPositionStore E r p := by
  simp [peerPosition, hd, hs, hb]

theorem peerPositionStore_spec (E : Env) (r : Round) (p : LedgerProposal) :
    (peerPositionStore E r p).1 = true ∧
    (peerPositionStore E r p).2.mPeerPositions = mset r.mPeerPositions p.mPeerID p ∧
    (peerPositionStore E r p).2.mDeadNodes = r.mDeadNodes ∧
    (peerPositionStore E r p).2.mPrevLedgerHash = r.mPrevLedgerHash ∧
    (peerPositionStore E r p).2.mCloseTimes = (countCloseTime r p).mCloseTimes := by
  unfold peerPositionStore
  simp only
  generalize hg : getTransactionTree E _ p.mCurrentHash = res
  have hf := getTransactionTree_frame E
    { countCloseTime r p with
      mPeerPositions := mset (countCloseTime r p).mPeerPositions p.mPeerID p } p.mCurrentHash
  rw [hg] at hf
  obtain ⟨o, r3⟩ := res
  obtain ⟨h1, h2, h3, _, h5⟩ := hf
  simp only at h1 h2 h3 h5
  have e1 : (countCloseTime r p).mPeerPositions = r.mPeerPositions := by
    unfold countCloseTime; split <;> rfl
  have e2 : (countCloseTime r p).mDeadNodes = r.mDeadNodes := by
    unfold countCloseTime; split <;> rfl
  have e3 : (countCloseTime r p).mPrevLedgerHash = r.mPrevLedgerHash := by
    unfold countCloseTime; split <;> rfl
  cases o with
  | none => exact ⟨rfl, h1.trans (by rw [e1]), h2.trans e2, h5.trans e3, h3⟩
  | some set => exact ⟨rfl, h1.trans (by rw [e1]), h2.trans e2, h5.trans e3, h3⟩

theorem peerPosition_store (E : Env) (r : Round) (p : LedgerProposal)
    (hd : p.mPeerID ∉ r.mDeadNodes) (hs : staleProposal r p = false)
    (hb : p.isBowOut = false) :
    (peerPosition E r p).1 = true ∧
    (peerPosition E r p).2.mPeerPositions = mset r.mPeerPositions p.mPeerID p ∧
    (peerPosition E r p).2.mDeadNodes = r.mDeadNodes ∧
    (peerPosition E r p).2.mPrevLedgerHash = r.mPrevLedgerHash ∧
    (peerPosition E r p).2.mCloseTimes =
      (if p.isInitial then
        mset r.mCloseTimes p.mCloseTime (((mfind r.mCloseTimes p.mCloseTime).getD 0) + 1)
       else r.mCloseTimes) := by
  rw [peerPosition_store_eq E r p hd hs hb]
  obtain ⟨h1, h2, h3, h4, h5⟩ := peerPositionStore_spec E r p
  refine ⟨h1, h2, h3, h4, h5.trans ?_⟩
  unfold countCloseTime
  split <;> rfl

/-- C3: a bow-out from a live peer `P` whose sequence number is above the
stored one (or `P` has no stored position) is accepted: `peerPosition` returns
true, and afterwards `P` has no vote in any DisputedTx, is not a key of
PeerPositions, is a member of DeadNodes, and CloseTimeVotes is unchanged. -/
theorem bow_out_handling (E : Env) (r : Round) (p : LedgerProposal)
    (hb : p.isBowOut = true)
    (hdead : p.mPeerID ∉ r.mDeadNodes)
    (hseq : ∀ s, mfind r.mPeerPositions p.mPeerID = some s →
      s.mProposeSeq < p.mProposeSeq) :
    (peerPosition E r p).1 = true ∧
    (∀ d ∈ (peerPosition E r p).2.mDisputes, mfind d.2.mVotes p.mPeerID = none) ∧
    mfind (peerPosition E r p).2.mPeerPositions p.mPeerID = none ∧
    p.mPeerID ∈ (peerPosition E r p).2.mDeadNodes ∧
    (peerPosition E r p).2.mCloseTimes = r.mCloseTimes := by
  have hs : staleProposal r p = false := by
    unfold staleProposal
    cases hf : mfind r.mPeerPositions p.mPeerID with
    | none => rfl
    | some s =>
      have := hseq s hf
      simp only [decide_eq_false_iff_not, not_le]
      exact this
  rw [peerPosition_bowOut E r p hdead hs hb]
  refine ⟨rfl, ?_, ?_, ?_, rfl⟩
  · intro d hd
    simp only [List.mem_map] at hd
    obtain ⟨d0, _, rfl⟩ := hd
    simp [DisputedTx.unVote, mfind_merase]
  · simp [mfind_merase]
  · exact (mem_sinsert _ _ _).2 (Or.inr rfl)

/-- Witness of C3: peer 3 (stored sequence number 5, voting on the dispute of
transaction 2) bows out. -/
theorem bow_out_handling_witness :
    (peerPosition exEnv exPeerRound exBowOut).1 = true ∧
    (∀ d ∈ (peerPosition exEnv exPeerRound exBowOut).2.mDisputes, mfind d.2.mVotes 3 = none) ∧
    mfind (peerPosition exEnv exPeerRound exBowOut).2.mPeerPositions 3 = none ∧
    3 ∈ (peerPosition exEnv exPeerRound exBowOut).2.mDeadNodes ∧
    (peerPosition exEnv exPeerRound exBowOut).2.mCloseTimes = exPeerRound.mCloseTimes :=
  bow_out_handling exEnv exPeerRound exBowOut (by decide) (by decide) (by decide)

/-! ## What the calls leave alone -/

theorem addDisputedTransaction_frame (E : Env) (r r1 : Round) (tx : uint256)
    (h : addDisputedTransaction E r tx = some r1) :
    r1.mPeerPositions = r.mPeerPositions ∧ r1.mDeadNodes = r.mDeadNodes ∧
    r1.mPrevLedgerHash = r.mPrevLedgerHash := by
  unfold addDisputedTransaction at h
  by_cases hd : (mfind r.mDisputes tx).isSome = true
  · rw [if_pos hd] at h
    cases h; exact ⟨rfl, rfl, rfl⟩
  · rw [if_neg hd] at h
    cases hv : ourVoteOn r tx with
    | none => rw [hv] at h; cases h
    | some v =>
      rw [hv] at h
      cases h
      unfold relayDisputed
      split <;> exact ⟨rfl, rfl, rfl⟩

theorem foldlM_frame {α : Type} (P : Round → Round → Prop)
    (hrefl : ∀ r, P r r) (htrans : ∀ a b c, P a b → P b c → P a c)
    (f : Round → α → Option Round) (hf : ∀ r x r1, f r x = some r1 → P r r1)
    (l : List α) : ∀ r r1, l.foldlM f r = some r1 → P r r1 := by
  induction l with
  | nil =>
    intro r r1 h
    simp only [List.foldlM_nil] at h
    cases h
    exact hrefl r
  | cons x xs ih =>
    intro r r1 h
    simp only [List.foldlM_cons] at h
    cases hx : f r x with
    | none => rw [hx] at h; cases h
    | some r2 =>
      rw [hx] at h
      exact htrans _ _ _ (hf r x r2 hx) (ih r2 r1 h)

theorem createDisputes_frame (E : Env) (r r1 : Round) (m1 m2 : Option SHAMap)
    (h : createDisputes E r m1 m2 = some r1) :
    r1.mPeerPositions = r.mPeerPositions ∧ r1.mDeadNodes = r.mDeadNodes ∧
    r1.mPrevLedgerHash = r.mPrevLedgerHash := by
  unfold createDisputes at h
  split at h
  · split at h
    · cases h; exact ⟨rfl, rfl, rfl⟩
    · refine foldlM_frame
        (fun a b => b.mPeerPositions = a.mPeerPositions ∧ b.mDeadNodes = a.mDeadNodes ∧
          b.mPrevLedgerHash = a.mPrevLedgerHash)
        (fun _ => ⟨rfl, rfl, rfl⟩)
        (fun a b c hab hbc => ⟨hbc.1.trans hab.1, hbc.2.1.trans hab.2.1,
          hbc.2.2.trans hab.2.2⟩)
        _ ?_ _ r r1 h
      intro a x b hx
      split at hx
      · exact addDisputedTransaction_frame E a b x.1 hx
      · split at hx
        · exact addDisputedTransaction_frame E a b x.1 hx
        · cases hx; exact ⟨rfl, rfl, rfl⟩
  · cases h

theorem mapCompleteDisputes_frame (E : Env) (r r1 : Round) (hash : uint256) (m : SHAMap)
    (h : mapCompleteDisputes E r hash m = some r1) :
    r1.mPeerPositions = r.mPeerPositions ∧ r1.mDeadNodes = r.mDeadNodes ∧
    r1.mPrevLedgerHash = r.mPrevLedgerHash := by
  unfold mapCompleteDisputes at h
  cases hp : r.mOurPosition with
  | none => rw [hp] at h; cases h; exact ⟨rfl, rfl, rfl⟩
  | some pos =>
    rw [hp] at h
    simp only at h
    split at h
    · cases ha : mfind r.mAcquired pos.mCurrentHash with
      | none => rw [ha] at h; cases h; exact ⟨rfl, rfl, rfl⟩
      | some ours =>
        rw [ha] at h
        simp only at h
        have hc := createDisputes_frame E _ _ _ _ h
        exact hc
    · cases h; exact ⟨rfl, rfl, rfl⟩

theorem mapCompleteAdjust_frame (r : Round) (hash : uint256) (m : SHAMap) :
    (mapCompleteAdjust r hash m).mPeerPositions = r.mPeerPositions ∧
    (mapCompleteAdjust r hash m).mDeadNodes = r.mDeadNodes ∧
    (mapCompleteAdjust r hash m).mPrevLedgerHash = r.mPrevLedgerHash := by
  unfold mapCompleteAdjust
  simp only
  split <;> exact ⟨rfl, rfl, rfl⟩

theorem mapCompleteInternal_frame (E : Env) (r r1 : Round) (hash : uint256)
    (map : Option SHAMap) (acquired : Bool)
    (h : mapCompleteInternal E r hash map acquired = some r1) :
    r1.mPeerPositions = r.mPeerPositions ∧ r1.mDeadNodes = r.mDeadNodes ∧
    r1.mPrevLedgerHash = r.mPrevLedgerHash := by
  unfold mapCompleteInternal at h
  cases map with
  | none => cases h; exact ⟨rfl, rfl, rfl⟩
  | some m =>
    simp only at h
    split at h
    · cases h; exact ⟨rfl, rfl, rfl⟩
    · split at h
      · cases h
      · rename_i r4 hr4
        cases h
        obtain ⟨a, b, c⟩ := mapCompleteDisputes_frame E _ _ _ _ hr4
        obtain ⟨a1, b1, c1⟩ := mapCompleteAdjust_frame r4 hash m
        simp only [sendHaveTxSet] at a b c
        refine ⟨a1.trans (a.trans ?_), b1.trans (b.trans ?_), c1.trans (c.trans ?_)⟩ <;>
          split <;> split <;> rfl

theorem peerPosition_dead_mono (E : Env) (r : Round) (p : LedgerProposal) (k : NodeID)
    (hk : k ∈ r.mDeadNodes) : k ∈ (peerPosition E r p).2.mDeadNodes := by
  by_cases hd : p.mPeerID ∈ r.mDeadNodes
  · rw [peerPosition_dead E r p hd]; exact hk
  · cases hs : staleProposal r p with
    | true => rw [peerPosition_stale E r p hs]; exact hk
    | false =>
      cases hb : p.isBowOut with
      | true =>
        rw [peerPosition_bowOut E r p hd hs hb]
        exact (mem_sinsert _ _ _).2 (Or.inl hk)
      | false =>
        rw [(peerPosition_store E r p hd hs hb).2.2.1]; exact hk

theorem peerPosition_disjoint (E : Env) (r : Round) (p : LedgerProposal)
    (h : PeersDisjoint r) : PeersDisjoint (peerPosition E r p).2 := by
  by_cases hd : p.mPeerID ∈ r.mDeadNodes
  · rw [peerPosition_dead E r p hd]; exact h
  · cases hs : staleProposal r p with
    | true => rw [peerPosition_stale E r p hs]; exact h
    | false =>
      cases hb : p.isBowOut with
      | true =>
        rw [peerPosition_bowOut E r p hd hs hb]
        intro k hk
        simp only at hk ⊢
        rw [mfind_merase]
        by_cases hp : p.mPeerID = k
        · rw [if_pos hp]
        · rw [if_neg hp]
          rcases (mem_sinsert _ _ _).1 hk with hk | hk
          · exact h k hk
          · exact absurd hk.symm hp
      | false =>
        obtain ⟨_, h2, h3, _, _⟩ := peerPosition_store E r p hd hs hb
        intro k hk
        rw [h3] at hk
        rw [h2, mfind_mset]
        by_cases hp : p.mPeerID = k
        · exact absurd (hp ▸ hk) hd
        · rw [if_neg hp]; exact h k hk

theorem peerPosition_prevLedgerHash (E : Env) (r : Round) (p : LedgerProposal) :
    (peerPosition E r p).2.mPrevLedgerHash = r.mPrevLedgerHash := by
  by_cases hd : p.mPeerID ∈ r.mDeadNodes
  · rw [peerPosition_dead E r p hd]
  · cases hs : staleProposal r p with
    | true => rw [peerPosition_stale E r p hs]
    | false =>
      cases hb : p.isBowOut with
      | true => rw [peerPosition_bowOut E r p hd hs hb]
      | false => exact (peerPosition_store E r p hd hs hb).2.2.2.1

theorem playbackProposals_preserves (P : Round → Prop)
    (hP : ∀ E r p, P r → P (peerPosition E r p).2) (E : Env) (r : Round) (h : P r) :
    P (playbackProposals E r) := by
  unfold playbackProposals
  generalize E.storedProposals = stored
  induction stored generalizing r with
  | nil => exact h
  | cons it rest ih =>
    rw [List.foldl_cons]
    apply ih
    generalize it.2 = l
    induction l generalizing r with
    | nil => exact h
    | cons q qs ih2 =>
      rw [List.foldl_cons]
      apply ih2
      split
      · exact hP E r q h
      · exact h

theorem handleLCLLedger_frame (T : LedgerTiming) (E : Env) (r : Round) (lclHash : uint256) :
    (handleLCLLedger T E r lclHash).mPeerPositions = r.mPeerPositions ∧
    (handleLCLLedger T E r lclHash).mDeadNodes = r.mDeadNodes := by
  unfold handleLCLLedger
  split
  · exact ⟨rfl, rfl⟩
  · split
    · split <;> exact ⟨rfl, rfl⟩
    · exact ⟨rfl, rfl⟩

theorem handleLCL_disjoint (T : LedgerTiming) (E : Env) (r : Round) (lclHash : uint256)
    (h : PeersDisjoint r) : PeersDisjoint (handleLCL T E r lclHash) := by
  have hsw : PeersDisjoint (handleLCLSwitch E r lclHash) := by
    unfold handleLCLSwitch
    split
    · apply playbackProposals_preserves PeersDisjoint peerPosition_disjoint
      intro k hk
      simp at hk
    · exact h
  obtain ⟨a, b⟩ := handleLCLLedger_frame T E (handleLCLSwitch E r lclHash) lclHash
  intro k hk
  unfold handleLCL at hk ⊢
  rw [b] at hk
  rw [a]
  exact hsw k hk

theorem handleLCL_same_dead (T : LedgerTiming) (E : Env) (r : Round) (lclHash : uint256)
    (hsame : lclHash = r.mPrevLedgerHash) :
    (handleLCL T E r lclHash).mDeadNodes = r.mDeadNodes := by
  unfold handleLCL
  rw [(handleLCLLedger_frame T E _ lclHash).2]
  unfold handleLCLSwitch
  rw [if_neg (by simp [hsame])]

theorem step_dead_mono (T : LedgerTiming) (r r1 : Round) (e : Event) (k : NodeID)
    (hk : k ∈ r.mDeadNodes) (hsw : switchesLCL r e = false) (hst : step T r e = some r1) :
    k ∈ r1.mDeadNodes := by
  cases e with
  | peerPosition E p =>
    simp only [step, Option.some.injEq] at hst
    subst hst
    exact peerPosition_dead_mono E r p k hk
  | playbackProposals E =>
    simp only [step, Option.some.injEq] at hst
    subst hst
    exact playbackProposals_preserves (fun x => k ∈ x.mDeadNodes)
      (fun E r p h => peerPosition_dead_mono E r p k h) E r hk
  | checkLCL E vals =>
    simp only [step, Option.some.injEq] at hst
    subst hst
    simp only [switchesLCL, decide_eq_false_iff_not, not_not] at hsw
    unfold checkLCL
    simp only [hsw, ne_eq, not_true_eq_false, if_false]
    split
    · rw [handleLCL_same_dead T E r _ rfl]; exact hk
    · exact hk
  | handleLCL E h =>
    simp only [step, Option.some.injEq] at hst
    subst hst
    simp only [switchesLCL, decide_eq_false_iff_not, not_not] at hsw
    rw [handleLCL_same_dead T E r h hsw]; exact hk
  | mapComplete E h m a =>
    simp only [step, mapComplete] at hst
    rw [(mapCompleteInternal_frame E r r1 h m a hst).2.1]; exact hk

theorem run_dead_mono (T : LedgerTiming) (evs : List Event) :
    ∀ (r r1 : Round) (k : NodeID), k ∈ r.mDeadNodes → sameView T r evs = true →
      run T r evs = some r1 → k ∈ r1.mDeadNodes := by
  induction evs with
  | nil =>
    intro r r1 k hk _ hrun
    simp only [run, Option.some.injEq] at hrun
    subst hrun
    exact hk
  | cons e es ih =>
    intro r r1 k hk hview hrun
    simp only [run] at hrun
    simp only [sameView, Bool.and_eq_true, Bool.not_eq_true'] at hview
    cases hst : step T r e with
    | none => rw [hst] at hrun; cases hrun
    | some r2 =>
      rw [hst] at hrun
      have hv2 : sameView T r2 es = true := by
        have := hview.2
        rw [hst] at this
        exact this
      exact ih r2 r1 k (step_dead_mono T r r2 e k hk hview.1 hst) hv2 hrun

theorem step_disjoint (T : LedgerTiming) (r r1 : Round) (e : Event)
    (h : PeersDisjoint r) (hst : step T r e = some r1) : PeersDisjoint r1 := by
  cases e with
  | peerPosition E p =>
    simp only [step, Option.some.injEq] at hst
    subst hst
    exact peerPosition_disjoint E r p h
  | playbackProposals E =>
    simp only [step, Option.some.injEq] at hst
    subst hst
    exact playbackProposals_preserves PeersDisjoint peerPosition_disjoint E r h
  | checkLCL E vals =>
    simp only [step, Option.some.injEq] at hst
    subst hst
    unfold checkLCL
    simp only
    split
    · exact handleLCL_disjoint T E r _ h
    · split
      · exact handleLCL_disjoint T E r _ h
      · exact h
  | handleLCL E lcl =>
    simp only [step, Option.some.injEq] at hst
    subst hst
    exact handleLCL_disjoint T E r lcl h
  | mapComplete E hash m a =>
    simp only [step, mapComplete] at hst
    obtain ⟨a1, b1, _⟩ := mapCompleteInternal_frame E r r1 hash m a hst
    intro k hk
    rw [b1] at hk
    rw [a1]
    exact h k hk

theorem run_disjoint (T : LedgerTiming) (evs : List Event) :
    ∀ (r r1 : Round), PeersDisjoint r → run T r evs = some r1 → PeersDisjoint r1 := by
  induction evs with
  | nil =>
    intro r r1 h hrun
    simp only [run, Option.some.injEq] at hrun
    subst hrun
    exact h
  | cons e es ih =>
    intro r r1 h hrun
    simp only [run] at hrun
    cases hst : step T r e with
    | none => rw [hst] at hrun; cases hrun
    | some r2 =>
      rw [hst] at hrun
      exact ih r2 r1 (step_disjoint T r r2 e h hst) hrun

/-- C5: in every state reached from a freshly constructed round by any sequence
of peerPosition, playbackProposals, checkLCL / handleLCL and mapComplete calls,
no peer id is at the same time a key of PeerPositions and a member of
DeadNodes. -/
theorem peers_disjoint_invariant (T : LedgerTiming)
    (previousProposers previousConvergeTime : Int) (prevLCLHash : uint256)
    (previousLedger : Ledger) (closeTime : Nat) (valPublic : NodeID)
    (validating proposing : Bool) (evs : List Event) (r : Round)
    (hrun : run T (construct previousProposers previousConvergeTime prevLCLHash
      previousLedger closeTime T valPublic validating proposing) evs = some r) :
    ∀ k : NodeID, ¬ ((mfind r.mPeerPositions k).isSome = true ∧ k ∈ r.mDeadNodes) := by
  have h0 : PeersDisjoint (construct previousProposers previousConvergeTime prevLCLHash
      previousLedger closeTime T valPublic validating proposing) := by
    intro k hk
    simp [construct] at hk
  have h := run_disjoint T evs _ r h0 hrun
  intro k hk
  rw [h k hk.2] at hk
  simp at hk

/-- Witness of C5: the run `exEvents` from the fresh round `exFresh` ends with
peer 4 in PeerPositions and peer 3 in DeadNodes, and the two are disjoint. -/
theorem peers_disjoint_invariant_witness :
    run exTiming exFresh exEvents = some exFinal ∧
    exFinal.mPeerPositions.map Prod.fst = [4] ∧ exFinal.mDeadNodes = [3] ∧
    ∀ k : NodeID,
      ¬ ((mfind exFinal.mPeerPositions k).isSome = true ∧ k ∈ exFinal.mDeadNodes) :=
  ⟨by decide, by decide, by decide,
   peers_disjoint_invariant exTiming 5 3000 1000 exLedger 104 7 true true exEvents exFinal
     (by decide)⟩

/-! ## The prior ledger of a proposal -/

/-- Counterexample to C6: `peerPosition` on a round whose prior ledger is 1000
accepts an INITIAL proposal that extends ledger 555: it returns true, stores
the proposal in PeerPositions and counts its close time. -/
theorem peerPosition_accepts_foreign_prev_ledger :
    exForeign.mPreviousLedger ≠ exFresh.mPrevLedgerHash ∧
    (peerPosition exEnv exFresh exForeign).1 = true ∧
    mfind (peerPosition exEnv exFresh exForeign).2.mPeerPositions 3 = some exForeign ∧
    mfind exFresh.mCloseTimes 104 = none ∧
    mfind (peerPosition exEnv exFresh exForeign).2.mCloseTimes 104 = some 1 := by
  decide

theorem peerPosition_env (E E1 : Env) (h : E.getSet = E1.getSet) (r : Round)
    (p : LedgerProposal) : peerPosition E r p = peerPosition E1 r p := by
  simp only [peerPosition, peerPositionStore, getTransactionTree, h]

theorem playback_inner_filter (E E1 : Env) (hE : E.getSet = E1.getSet) (h : uint256)
    (l : List LedgerProposal) :
    ∀ r : Round, r.mPrevLedgerHash = h →
      l.foldl (fun r proposal =>
        if proposal.isPrevLedger r.mPrevLedgerHash then (peerPosition E r proposal).2 else r) r
      = (l.filter (fun p => p.isPrevLedger h)).foldl (fun r proposal =>
        if proposal.isPrevLedger r.mPrevLedgerHash then (peerPosition E1 r proposal).2 else r) r
      ∧ (l.foldl (fun r proposal =>
        if proposal.isPrevLedger r.mPrevLedgerHash then (peerPosition E r proposal).2 else r)
          r).mPrevLedgerHash = h := by
  induction l with
  | nil =>
    intro r hr
    exact ⟨rfl, hr⟩
  | cons q qs ih =>
    intro r hr
    rw [List.foldl_cons]
    cases hq : q.isPrevLedger h with
    | true =>
      have hstep : (peerPosition E r q).2.mPrevLedgerHash = h := by
        rw [peerPosition_prevLedgerHash]; exact hr
      obtain ⟨i1, i2⟩ := ih (peerPosition E r q).2 hstep
      simp only [hr, hq, if_true, List.filter_cons, List.foldl_cons]
      rw [← peerPosition_env E E1 hE]
      exact ⟨i1, i2⟩
    | false =>
      obtain ⟨i1, i2⟩ := ih r hr
      simp only [hr, hq, List.filter_cons, Bool.false_eq_true, if_false]
      exact ⟨i1, i2⟩

theorem playback_outer_filter (E E1 : Env) (hE : E.getSet = E1.getSet) (h : uint256)
    (stored : List (NodeID × List LedgerProposal)) :
    ∀ r : Round, r.mPrevLedgerHash = h →
      stored.foldl (fun r it => it.2.foldl (fun r proposal =>
        if proposal.isPrevLedger r.mPrevLedgerHash then (peerPosition E r proposal).2 else r)
          r) r
      = (stored.map (fun it => (it.1, it.2.filter (fun p => p.isPrevLedger h)))).foldl
        (fun r it => it.2.foldl (fun r proposal =>
          if proposal.isPrevLedger r.mPrevLedgerHash then (peerPosition E1 r proposal).2
          else r) r) r := by
  induction stored with
  | nil =>
    intro r _
    rfl
  | cons it rest ih =>
    intro r hr
    obtain ⟨i1, i2⟩ := playback_inner_filter E E1 hE h it.2 r hr
    rw [List.map_cons, List.foldl_cons, List.foldl_cons]
    simp only
    rw [← i1]
    exact ih _ i2

/-- C6 as amended: the prior-ledger test is made by `playbackProposals`, not
by `peerPosition`: replaying the stored proposals is the same as replaying
only those whose `prev_ledger` equals `mPrevLedgerHash`, so a stored proposal
for another prior ledger is neither stored in PeerPositions, nor counted in
CloseTimeVotes, nor does it change a dispute vote; and when no stored
proposal extends `mPrevLedgerHash` the replay changes nothing. -/
theorem playback_skips_foreign_prev_ledger (E : Env) (r : Round) :
    playbackProposals E r = playbackProposals (E.restrictTo r.mPrevLedgerHash) r ∧
    ((∀ it ∈ E.storedProposals, ∀ p ∈ it.2, p.mPreviousLedger ≠ r.mPrevLedgerHash) →
      playbackProposals E r = r) := by
  have h1 : playbackProposals E r = playbackProposals (E.restrictTo r.mPrevLedgerHash) r := by
    unfold playbackProposals
    exact playback_outer_filter E (E.restrictTo r.mPrevLedgerHash) rfl r.mPrevLedgerHash
      E.storedProposals r rfl
  refine ⟨h1, ?_⟩
  intro hall
  rw [h1]
  unfold playbackProposals Env.restrictTo
  simp only
  generalize hs : E.storedProposals = stored at hall
  clear hs h1
  induction stored with
  | nil => rfl
  | cons it rest ih =>
    have hnil : it.2.filter (fun p => p.isPrevLedger r.mPrevLedgerHash) = [] := by
      rw [List.filter_eq_nil_iff]
      intro p hp
      have := hall it (List.mem_cons_self _ _) p hp
      simpa [LedgerProposal.isPrevLedger] using this
    rw [List.map_cons, List.foldl_cons]
    simp only [hnil, List.foldl_nil]
    exact ih (fun it1 h1 => hall it1 (List.mem_cons_of_mem _ h1))

/-- Witness of C6 as amended: with only the foreign proposal `exForeign`
stored, the replay leaves the fresh round as it is. -/
theorem playback_skips_foreign_prev_ledger_witness :
    playbackProposals { exEnv with storedProposals := [(3, [exForeign])] } exFresh = exFresh :=
  (playback_skips_foreign_prev_ledger
    { exEnv with storedProposals := [(3, [exForeign])] } exFresh).2 (by decide)

/-! ## The external arbiter -/

/-- C7: first writer.  If no record exists under the round key
`<s_zkPath>/<prev_ledger_seq + 1>` (and the create call reaches the service),
`haveConsensus` stores the value built from our position (tx-set hash,
prev-ledger hash, close time), returns true, sets `consensus_fail` to false
and leaves our position unchanged. -/
theorem first_writer_agreed (F : ZkFaults) (zk : ZooKeeper) (r : Round) (pos : LedgerProposal)
    (hpos : r.mOurPosition = some pos)
    (hfree : mfind zk (roundPath r) = none)
    (hup : F.create = none) :
    haveConsensus F zk r =
      some (true, { r with mConsensusFail := false },
        mset zk (s_zkPath ++ ['/'] ++ decimal (u32 (r.mPreviousLedger.seq + 1)))
          { data := some (to_string pos.mCurrentHash ++ ['-'] ++ to_string r.mPrevLedgerHash ++
              ['-'] ++ decimal pos.mCloseTime),
            version := 0 }) ∧
    ({ r with mConsensusFail := false } : Round).mOurPosition = some pos := by
  refine ⟨?_, hpos⟩
  unfold haveConsensus
  rw [hpos]
  simp only [zoo_create, hup, hfree]
  rfl

/-- Witness of C7: `exRound` publishes its position to an empty arbiter tree. -/
theorem first_writer_agreed_witness :
    (haveConsensus noFaults [] exRound).map (fun res => (res.1, res.2.1.mConsensusFail,
      res.2.1.mOurPosition, res.2.2.map Prod.fst)) =
      some (true, false, some exPos, ["/Cf/consensus/42".toList]) := by
  rw [(first_writer_agreed noFaults [] exRound exPos rfl rfl rfl).1]
  decide

theorem changePosition_fields (p p1 : LedgerProposal) (h : uint256) (ct : Nat)
    (hc : p.changePosition h ct = some p1) : p1.mCurrentHash = h ∧ p1.mCloseTime = ct := by
  unfold LedgerProposal.changePosition at hc
  split at hc
  · cases hc
  · cases hc; exact ⟨rfl, rfl⟩

/-- C8: second writer.  If a well-formed record (txHash, prevHash, closeTime)
already exists under the round key and prevHash equals the round's LCL hash,
then whatever the backend does `haveConsensus` leaves the stored record (the
whole arbiter tree) as it is; whenever it returns true our position's tx-set
hash is txHash and its close time is closeTime; and when txHash differs from
our hash and is not a key of AcquiredSets it returns false and our position is
unchanged. -/
theorem second_writer_adopts (F : ZkFaults) (zk : ZooKeeper) (r : Round) (pos : LedgerProposal)
    (node : ZkNode) (d : List Char) (txHash prevHash : uint256) (closeTime : Nat)
    (hpos : r.mOurPosition = some pos)
    (hnode : mfind zk (roundPath r) = some node)
    (hdata : node.data = some d)
    (hrec : WellFormedRecord d txHash prevHash closeTime)
    (hprev : prevHash = r.mPrevLedgerHash) :
    ∃ (b : Bool) (r1 : Round),
      haveConsensus F zk r = some (b, r1, zk) ∧
      (b = true → ∃ pos1, r1.mOurPosition = some pos1 ∧
        pos1.mCurrentHash = txHash ∧ pos1.mCloseTime = closeTime) ∧
      (pos.mCurrentHash ≠ txHash → mfind r.mAcquired txHash = none →
        b = false ∧ r1.mOurPosition = some pos) := by
  obtain ⟨h3, hf0, hf1, hf2⟩ := hrec
  have hrej : ∃ (b : Bool) (r1 : Round),
      (some (false, r, zk) : Option (Bool × Round × ZooKeeper)) = some (b, r1, zk) ∧
      (b = true → ∃ pos1, r1.mOurPosition = some pos1 ∧
        pos1.mCurrentHash = txHash ∧ pos1.mCloseTime = closeTime) ∧
      (pos.mCurrentHash ≠ txHash → mfind r.mAcquired txHash = none →
        b = false ∧ r1.mOurPosition = some pos) :=
    ⟨false, r, rfl, fun h => absurd h (by decide), fun _ _ => ⟨rfl, hpos⟩⟩
  unfold haveConsensus
  simp only [hpos, zoo_create]
  cases hc : F.create with
  | some c => exact hrej
  | none =>
    simp only [hnode, zoo_get]
    cases hg : F.get with
    | some c => exact hrej
    | none =>
      simp only [hdata]
      by_cases hlen : d.length < 1024
      · have htake : List.take 1024 d = d := List.take_of_length_le (Nat.le_of_lt hlen)
        have hsz : ¬ ((d.length : Int) = ((1024 : Nat) : Int)) := by
          intro h
          have := Int.ofNat_inj.1 h
          omega
        have hsz2 : ¬ ((d.length : Int) = -1) := by
          intro h
          have : (0 : Int) ≤ (d.length : Int) := Int.ofNat_nonneg _
          omega
        simp only [htake, hsz, hsz2, ne_eq, not_true_eq_false, or_self, if_false,
          Nat.not_lt.2 h3, hf0, hf1, hf2, hprev]
        by_cases hh : pos.mCurrentHash = txHash
        · by_cases hct : pos.mCloseTime = closeTime
          · refine ⟨true, { r with mConsensusFail := false }, ?_, ?_, ?_⟩
            · simp [hh, hct, hpos]
            · intro _
              exact ⟨pos, hpos, hh, hct⟩
            · intro hne
              exact absurd hh hne
          · cases hcp : pos.changePosition txHash closeTime with
            | none =>
              refine ⟨false, r, ?_, ?_, ?_⟩
              · simp [hh, hct, hcp]
              · intro hb; cases hb
              · intro hne
                exact absurd hh hne
            | some pos1 =>
              refine ⟨true, { r with mOurPosition := some pos1, mConsensusFail := false },
                ?_, ?_, ?_⟩
              · simp [hh, hct, hcp]
              · intro _
                exact ⟨pos1, rfl, changePosition_fields pos pos1 _ _ hcp⟩
              · intro hne
                exact absurd hh hne
        · cases hacq : mfind r.mAcquired txHash with
          | none =>
            refine ⟨false, r, ?_, ?_, ?_⟩
            · simp [hh, hacq]
            · intro hb; cases hb
            · intro _ _
              exact ⟨rfl, hpos⟩
          | some set =>
            cases hcp : pos.changePosition txHash closeTime with
            | none =>
              refine ⟨false, r, ?_, ?_, ?_⟩
              · simp [hh, hacq, hcp]
              · intro hb; cases hb
              · intro _ hnone
                cases hnone
            | some pos1 =>
              refine ⟨true, { r with mOurPosition := some pos1, mConsensusFail := false },
                ?_, ?_, ?_⟩
              · simp [hh, hacq, hcp]
              · intro _
                exact ⟨pos1, rfl, changePosition_fields pos pos1 _ _ hcp⟩
              · intro _ hnone
                cases hnone
      · have hsz : ((List.take 1024 d).length : Int) = ((1024 : Nat) : Int) := by
          rw [List.length_take]
          congr 1
          omega
        simp only [hsz, ne_eq, not_true_eq_false, true_or, or_true, if_true]
        exact hrej

/-- Witness of C8: the record (187, 1000, 110) is published; `exRound187`,
whose position is (170, 104) and which holds the set 187, adopts it and leaves
the arbiter tree as it is. -/
theorem second_writer_adopts_witness :
    (haveConsensus noFaults exZkOther exRound187).map
      (fun res => (res.1, res.2.1.mOurPosition.map (fun p => (p.mCurrentHash, p.mCloseTime)),
        decide (res.2.2 = exZkOther))) = some (true, some (187, 110), true) ∧
    ∃ (b : Bool) (r1 : Round),
      haveConsensus noFaults exZkOther exRound187 = some (b, r1, exZkOther) ∧
      (b = true → ∃ pos1, r1.mOurPosition = some pos1 ∧
        pos1.mCurrentHash = 187 ∧ pos1.mCloseTime = 110) ∧
      (exPos.mCurrentHash ≠ 187 → mfind exRound187.mAcquired 187 = none →
        b = false ∧ r1.mOurPosition = some exPos) :=
  ⟨by decide,
   second_writer_adopts noFaults exZkOther exRound187 exPos
     { data := some (to_string 187 ++ ['-'] ++ to_string 1000 ++ ['-'] ++ decimal 110),
       version := 0 }
     (to_string 187 ++ ['-'] ++ to_string 1000 ++ ['-'] ++ decimal 110) 187 1000 110
     rfl (by decide) rfl (by decide) (by decide)⟩

/-- Counterexample to C9: `exRound` (proposing, position not bowed out) finds a
record published for the prior ledger 999 while its own is 1000.
`haveConsensus` returns false with `consensus_fail` set, and after
`stateEstablish` the round is still in establish, still proposing, and its
position is the one it had, which is not the bow-out position. -/
theorem stale_record_no_bow_out :
    haveConsensus noFaults exZkStale exRound =
      some (false, { exRound with mConsensusFail := true }, exZkStale) ∧
    (stateEstablish exTiming noFaults exZkStale exRound).map (fun res => res.1.state_) =
      some State.establish ∧
    (stateEstablish exTiming noFaults exZkStale exRound).map (fun res => res.1.mProposing) =
      some true ∧
    (stateEstablish exTiming noFaults exZkStale exRound).map (fun res => res.1.mOurPosition) =
      some (some exPos) ∧
    exPos.isBowOut = false := by
  refine ⟨?_, ?_, ?_, ?_, ?_⟩ <;> decide

/-- C9 as amended: if the stored record's prev-ledger hash differs from the
round's LCL hash (and the arbiter answers), `haveConsensus` returns false,
sets `consensus_fail` to true and changes nothing else: the record's tx-set
hash and close time are not adopted, our position and `mProposing` stay as
they are and the arbiter tree is untouched; `stateEstablish` leaves the round
in its state, and the same check on the next tick gives the same answer. -/
theorem stale_record_consensus_fail (T : LedgerTiming) (F : ZkFaults) (zk : ZooKeeper)
    (r : Round) (pos : LedgerProposal) (node : ZkNode) (d : List Char)
    (txHash prevHash : uint256) (closeTime : Nat)
    (hpos : r.mOurPosition = some pos)
    (hc : F.create = none) (hg : F.get = none)
    (hnode : mfind zk (roundPath r) = some node)
    (hdata : node.data = some d) (hlen : d.length < 1024)
    (hrec : WellFormedRecord d txHash prevHash closeTime)
    (hprev : prevHash ≠ r.mPrevLedgerHash) :
    haveConsensus F zk r = some (false, { r with mConsensusFail := true }, zk) ∧
    (T.LEDGER_MIN_CONSENSUS ≤ r.mCurrentMSeconds →
      stateEstablish T F zk r =
        some ({ r with mHaveCloseTimeConsensus := true, mConsensusFail := true }, zk)) ∧
    haveConsensus F zk { r with mConsensusFail := true } =
      some (false, { r with mConsensusFail := true }, zk) := by
  have key : ∀ r0 : Round, r0.mOurPosition = some pos →
      r0.mPreviousLedger = r.mPreviousLedger → r0.mPrevLedgerHash = r.mPrevLedgerHash →
      haveConsensus F zk r0 = some (false, { r0 with mConsensusFail := true }, zk) := by
    intro r0 hp0 hl0 hh0
    obtain ⟨h3, hf0, hf1, hf2⟩ := hrec
    have hpath : roundPath r0 = roundPath r := by
      unfold roundPath
      rw [hl0]
    have htake : List.take 1024 d = d := List.take_of_length_le (Nat.le_of_lt hlen)
    have hsz : ¬ ((d.length : Int) = ((1024 : Nat) : Int)) := by
      intro h
      have := Int.ofNat_inj.1 h
      omega
    have hsz2 : ¬ ((d.length : Int) = -1) := by
      intro h
      have : (0 : Int) ≤ (d.length : Int) := Int.ofNat_nonneg _
      omega
    have hne : ¬ r.mPrevLedgerHash = prevHash := fun h => hprev h.symm
    unfold haveConsensus
    simp only [hp0, zoo_create, hc, hpath, hnode, zoo_get, hg, hdata, htake, hsz, hsz2,
      ne_eq, not_true_eq_false, or_self, if_false, Nat.not_lt.2 h3, hf0, hf1, hf2, hh0, hne,
      not_false_eq_true, if_true]
  refine ⟨key r hpos rfl rfl, ?_, ?_⟩
  · intro hms
    unfold stateEstablish
    rw [if_neg (not_lt.2 hms)]
    simp only
    rw [key (updateOurPositions r) hpos rfl rfl]
    rfl
  · exact key { r with mConsensusFail := true } hpos rfl rfl

/-- Witness of C9 as amended, on `exRound` and the record published for the
prior ledger 999. -/
theorem stale_record_consensus_fail_witness :
    haveConsensus noFaults exZkStale exRound =
      some (false, { exRound with mConsensusFail := true }, exZkStale) :=
  (stale_record_consensus_fail exTiming noFaults exZkStale exRound exPos
    { data := some (to_string 170 ++ ['-'] ++ to_string 999 ++ ['-'] ++ decimal 104),
      version := 0 }
    (to_string 170 ++ ['-'] ++ to_string 999 ++ ['-'] ++ decimal 104) 170 999 104
    rfl rfl rfl (by decide) rfl (by decide) (by decide) (by decide)).1

/-- C10, the code at its failing inputs.  (a) `exRoundFailed187`, which is
`exRound` after `mapComplete` delivered an invalid map for 187, is in
establish with a valid set for its position 170 and the failed marker for 187;
the record (187, 1000, 110) is published.  `haveConsensus` adopts it and
returns true although the entry of 187 in AcquiredSets is the failed marker, so
`beginAccept` finds no consensus set and `stateEstablish` aborts.  (b)
`mapComplete` delivering an invalid map for the hash 170 of our own position
replaces the valid set by the failed marker. -/
theorem position_set_invariant_broken :
    mapComplete exEnv exRound 187 none true = some exRoundFailed187 ∧
    positionSet exRoundFailed187 = some (some (some { hash := 170, items := [1] })) ∧
    (haveConsensus noFaults exZkOther exRoundFailed187).map (fun res => res.1) = some true ∧
    (haveConsensus noFaults exZkOther exRoundFailed187).map (fun res => res.2.1.state_) =
      some State.establish ∧
    (haveConsensus noFaults exZkOther exRoundFailed187).map (fun res => positionSet res.2.1) =
      some (some (some none)) ∧
    (haveConsensus noFaults exZkOther exRoundFailed187).map (fun res => beginAccept res.2.1) =
      some none ∧
    stateEstablish exTiming noFaults exZkOther exRoundFailed187 = none ∧
    positionSet exRound = some (some (some { hash := 170, items := [1] })) ∧
    (mapComplete exEnv exRound 170 none true).map (fun r => r.state_) =
      some State.establish ∧
    (mapComplete exEnv exRound 170 none true).map positionSet = some (some (some none)) ∧
    (mapComplete exEnv exRound 170 none true).map beginAccept = some none := by
  refine ⟨?_, ?_, ?_, ?_, ?_, ?_, ?_, ?_, ?_, ?_, ?_⟩ <;> decide

/-! ## Members left alone by acquisition and by proposal ingestion -/

theorem addDisputedTransaction_core (E : Env) (r r1 : Round) (tx : uint256)
    (h : addDisputedTransaction E r tx = some r1) : acquireCore r1 = acquireCore r := by
  unfold addDisputedTransaction at h
  by_cases hd : (mfind r.mDisputes tx).isSome = true
  · rw [if_pos hd] at h
    cases h; rfl
  · rw [if_neg hd] at h
    cases hv : ourVoteOn r tx with
    | none => rw [hv] at h; cases h
    | some v =>
      rw [hv] at h
      cases h
      unfold relayDisputed
      split <;> rfl

theorem createDisputes_core (E : Env) (r r1 : Round) (m1 m2 : Option SHAMap)
    (h : createDisputes E r m1 m2 = some r1) : acquireCore r1 = acquireCore r := by
  unfold createDisputes at h
  split at h
  · split at h
    · cases h; rfl
    · refine foldlM_frame (fun a b => acquireCore b = acquireCore a)
        (fun _ => rfl) (fun a b c hab hbc => hbc.trans hab) _ ?_ _ r r1 h
      intro a x b hx
      split at hx
      · exact addDisputedTransaction_core E a b x.1 hx
      · split at hx
        · exact addDisputedTransaction_core E a b x.1 hx
        · cases hx; rfl
  · cases h

theorem mapCompleteDisputes_core (E : Env) (r r1 : Round) (hash : uint256) (m : SHAMap)
    (h : mapCompleteDisputes E r hash m = some r1) : acquireCore r1 = acquireCore r := by
  unfold mapCompleteDisputes at h
  cases hp : r.mOurPosition with
  | none => rw [hp] at h; cases h; rfl
  | some pos =>
    rw [hp] at h
    simp only at h
    split at h
    · cases ha : mfind r.mAcquired pos.mCurrentHash with
      | none => rw [ha] at h; cases h; rfl
      | some ours =>
        rw [ha] at h
        simp only at h
        have hc := createDisputes_core E _ _ _ _ h
        rw [hc]
        unfold acquireCore
        simp only [hp]
    · cases h; rfl

theorem mapCompleteAdjust_core (r : Round) (hash : uint256) (m : SHAMap) :
    acquireCore (mapCompleteAdjust r hash m) = acquireCore r := by
  unfold mapCompleteAdjust
  simp only
  split <;> rfl

theorem mapCompleteInternal_core (E : Env) (r r1 : Round) (hash : uint256)
    (map : Option SHAMap) (acquired : Bool)
    (h : mapCompleteInternal E r hash map acquired = some r1) :
    acquireCore r1 = acquireCore r := by
  unfold mapCompleteInternal at h
  cases map with
  | none => cases h; rfl
  | some m =>
    simp only at h
    split at h
    · cases h; rfl
    · split at h
      · cases h
      · rename_i r4 hr4
        cases h
        rw [mapCompleteAdjust_core, mapCompleteDisputes_core E _ _ _ _ hr4]
        unfold sendHaveTxSet
        split <;> split <;> rfl

theorem getTransactionTree_core (E : Env) (r : Round) (h : uint256) :
    peerCore (getTransactionTree E r h).2 = peerCore r := by
  unfold getTransactionTree
  split
  · rfl
  · split <;> rfl

theorem peerPosition_core (E : Env) (r : Round) (p : LedgerProposal) :
    peerCore (peerPosition E r p).2 = peerCore r := by
  by_cases hd : p.mPeerID ∈ r.mDeadNodes
  · rw [peerPosition_dead E r p hd]
  · cases hs : staleProposal r p with
    | true => rw [peerPosition_stale E r p hs]
    | false =>
      cases hb : p.isBowOut with
      | true => rw [peerPosition_bowOut E r p hd hs hb]; rfl
      | false =>
        rw [peerPosition_store_eq E r p hd hs hb]
        unfold peerPositionStore
        simp only
        generalize hg : getTransactionTree E _ p.mCurrentHash = res
        have hc := getTransactionTree_core E
          { countCloseTime r p with
            mPeerPositions := mset (countCloseTime r p).mPeerPositions p.mPeerID p }
          p.mCurrentHash
        rw [hg] at hc
        obtain ⟨o, r3⟩ := res
        have h3 : peerCore r3 = peerCore r := by
          rw [hc]
          unfold countCloseTime
          split <;> rfl
        cases o with
        | none => exact h3
        | some set => exact h3

theorem playbackProposals_core (E : Env) (r : Round) :
    peerCore (playbackProposals E r) = peerCore r :=
  playbackProposals_preserves (fun x => peerCore x = peerCore r)
    (fun E1 r1 p h => (peerPosition_core E1 r1 p).trans h) E r rfl

theorem haveConsensus_core (F : ZkFaults) (zk zk2 : ZooKeeper) (r r2 : Round) (b : Bool)
    (h : haveConsensus F zk r = some (b, r2, zk2)) : consensusCore r2 = consensusCore r := by
  unfold haveConsensus at h
  repeat' (first | split at h | (simp only [] at h; split at h))
  all_goals first
    | (cases h; rfl)
    | cases h

theorem haveConsensus_withPeerTimes (F : ZkFaults) (zk : ZooKeeper) (r : Round)
    (pp : List (NodeID × LedgerProposal)) (ct : List (Nat × Int)) (b : Bool) :
    haveConsensus F zk (withPeerTimes r pp ct b) =
      (haveConsensus F zk r).map (fun x => (x.1, withPeerTimes x.2.1 pp ct b, x.2.2)) := by
  have h1 : roundPath (withPeerTimes r pp ct b) = roundPath r := rfl
  have h2 : ∀ pos, roundValue (withPeerTimes r pp ct b) pos = roundValue r pos := fun _ => rfl
  have h3 : (withPeerTimes r pp ct b).mOurPosition = r.mOurPosition := rfl
  have h4 : (withPeerTimes r pp ct b).mAcquired = r.mAcquired := rfl
  have h5 : (withPeerTimes r pp ct b).mPrevLedgerHash = r.mPrevLedgerHash := rfl
  unfold haveConsensus
  rw [h1, h3, h4, h5]
  simp only [h2]
  repeat' split
  all_goals rfl

/-! ## The round state -/

theorem handleLCLSwitch_core (E : Env) (r : Round) (lclHash : uint256) :
    (handleLCLSwitch E r lclHash).state_ = r.state_ ∧
    (handleLCLSwitch E r lclHash).mPreviousLedger = r.mPreviousLedger ∧
    (handleLCLSwitch E r lclHash).mAcquiringLedger = r.mAcquiringLedger ∧
    (handleLCLSwitch E r lclHash).mHaveCorrectLCL = r.mHaveCorrectLCL := by
  unfold handleLCLSwitch
  split
  · have h := playbackProposals_core E
      { (match ({ r with mPrevLedgerHash := lclHash } : Round).mOurPosition with
          | some pos =>
            if (({ r with mPrevLedgerHash := lclHash } : Round).mHaveCorrectLCL &&
                ({ r with mPrevLedgerHash := lclHash } : Round).mProposing) = true then
              propose { ({ r with mPrevLedgerHash := lclHash } : Round) with
                mOurPosition := some pos.bowOut } pos.bowOut
            else { r with mPrevLedgerHash := lclHash }
          | none => { r with mPrevLedgerHash := lclHash }) with
        mProposing := false, mPeerPositions := [], mDisputes := [],
        mCloseTimes := [], mDeadNodes := [] }
    refine ⟨(congrArg Round.state_ h).trans ?_, (congrArg Round.mPreviousLedger h).trans ?_,
      (congrArg Round.mAcquiringLedger h).trans ?_,
      (congrArg Round.mHaveCorrectLCL h).trans ?_⟩ <;>
    · simp only [peerCore]
      split
      · split <;> rfl
      · rfl
  · exact ⟨rfl, rfl, rfl, rfl⟩

theorem handleLCLLedger_state (T : LedgerTiming) (E : Env) (r : Round) (lclHash : uint256) :
    (handleLCLLedger T E r lclHash).state_ = r.state_ ∧
    (handleLCLLedger T E r lclHash).mOurPosition = r.mOurPosition ∧
    (handleLCLLedger T E r lclHash).mProposing = r.mProposing ∧
    (handleLCLLedger T E r lclHash).mDisputes = r.mDisputes ∧
    (handleLCLLedger T E r lclHash).mCloseTimes = r.mCloseTimes := by
  unfold handleLCLLedger
  split
  · exact ⟨rfl, rfl, rfl, rfl, rfl⟩
  · split
    · split <;> exact ⟨rfl, rfl, rfl, rfl, rfl⟩
    · exact ⟨rfl, rfl, rfl, rfl, rfl⟩

theorem handleLCL_state (T : LedgerTiming) (E : Env) (r : Round) (lclHash : uint256) :
    (handleLCL T E r lclHash).state_ = r.state_ := by
  unfold handleLCL
  rw [(handleLCLLedger_state T E _ lclHash).1, (handleLCLSwitch_core E r lclHash).1]

theorem checkLCL_state (T : LedgerTiming) (E : Env) (vals : List (uint256 × Int))
    (r : Round) : (checkLCL T E vals r).state_ = r.state_ := by
  unfold checkLCL
  simp only
  split
  · exact handleLCL_state T E r _
  · split
    · exact handleLCL_state T E r _
    · rfl

theorem takeInitialDisputes_core (E : Env) (initialSet : SHAMap)
    (l : List (NodeID × LedgerProposal)) :
    ∀ (found : List uint256) (r r1 : Round),
      takeInitialDisputes E initialSet l found r = some r1 →
      acquireCore r1 = acquireCore r := by
  induction l with
  | nil =>
    intro found r r1 h
    simp only [takeInitialDisputes, Option.some.injEq] at h
    rw [h]
  | cons it rest ih =>
    intro found r r1 h
    simp only [takeInitialDisputes] at h
    split at h
    · exact ih _ _ _ h
    · split at h
      · split at h
        · cases h
        · rename_i r2 hc
          rw [ih _ _ _ h, createDisputes_core E _ _ _ _ hc]
          rfl
      · cases h
      · exact ih _ _ _ h

theorem acquireCore_fields {a b : Round} (h : acquireCore a = acquireCore b) :
    a.state_ = b.state_ ∧ a.mHaveCorrectLCL = b.mHaveCorrectLCL ∧
    a.mPreviousLedger = b.mPreviousLedger ∧ a.mPrevLedgerHash = b.mPrevLedgerHash ∧
    a.mOurPosition = b.mOurPosition ∧ a.mPeerPositions = b.mPeerPositions ∧
    a.mProposing = b.mProposing ∧ a.mCloseTime = b.mCloseTime ∧
    a.mValPublic = b.mValPublic := by
  have h1 := congrArg Round.state_ h
  have h2 := congrArg Round.mHaveCorrectLCL h
  have h3 := congrArg Round.mPreviousLedger h
  have h4 := congrArg Round.mPrevLedgerHash h
  have h5 := congrArg Round.mOurPosition h
  have h6 := congrArg Round.mPeerPositions h
  have h7 := congrArg Round.mProposing h
  have h8 := congrArg Round.mCloseTime h
  have h9 := congrArg Round.mValPublic h
  exact ⟨h1, h2, h3, h4, h5, h6, h7, h8, h9⟩

theorem consensusCore_fields {a b : Round} (h : consensusCore a = consensusCore b) :
    a.state_ = b.state_ ∧ a.mHaveCorrectLCL = b.mHaveCorrectLCL ∧
    a.mPreviousLedger = b.mPreviousLedger ∧ a.mPrevLedgerHash = b.mPrevLedgerHash ∧
    a.mHaveCloseTimeConsensus = b.mHaveCloseTimeConsensus ∧ a.mAcquired = b.mAcquired ∧
    a.mProposing = b.mProposing := by
  have h1 := congrArg Round.state_ h
  have h2 := congrArg Round.mHaveCorrectLCL h
  have h3 := congrArg Round.mPreviousLedger h
  have h4 := congrArg Round.mPrevLedgerHash h
  have h5 := congrArg Round.mHaveCloseTimeConsensus h
  have h6 := congrArg Round.mAcquired h
  have h7 := congrArg Round.mProposing h
  exact ⟨h1, h2, h3, h4, h5, h6, h7⟩

theorem takeInitialPosition_state (E : Env) (C : CloseInputs) (r r1 : Round)
    (h : takeInitialPosition E C r = some r1) :
    r1.state_ = r.state_ ∧ r1.mHaveCorrectLCL = r.mHaveCorrectLCL ∧
    r1.mPreviousLedger = r.mPreviousLedger ∧ r1.mPrevLedgerHash = r.mPrevLedgerHash := by
  unfold takeInitialPosition at h
  simp only at h
  split at h
  · cases h
  · rename_i ra hm
    obtain ⟨a1, a2, a3, a4, _⟩ := acquireCore_fields (mapCompleteInternal_core E _ _ _ _ _ hm)
    split at h
    · cases h
    · rename_i rb hd
      obtain ⟨b1, b2, b3, b4, _⟩ :=
        acquireCore_fields (takeInitialDisputes_core E _ _ _ _ _ hd)
      simp only at b1 b2 b3 b4
      simp only [Option.some.injEq] at h
      subst h
      refine ⟨?_, ?_, ?_, ?_⟩
      · split <;> exact b1.trans a1
      · split <;> exact b2.trans a2
      · split <;> exact b3.trans a3
      · split <;> exact b4.trans a4

theorem closeLedger_state (E : Env) (C : CloseInputs) (r r1 : Round)
    (h : closeLedger E C r = some r1) :
    r1.state_ = State.establish ∧ r1.mHaveCorrectLCL = r.mHaveCorrectLCL ∧
    r1.mPreviousLedger = r.mPreviousLedger ∧ r1.mPrevLedgerHash = r.mPrevLedgerHash := by
  unfold closeLedger at h
  obtain ⟨h1, h2, h3, h4⟩ := takeInitialPosition_state E C _ r1 h
  exact ⟨h1, h2, h3, h4⟩

theorem stateEstablish_state (T : LedgerTiming) (F : ZkFaults) (zk zk1 : ZooKeeper)
    (r r1 : Round) (h : stateEstablish T F zk r = some (r1, zk1)) :
    (r1.state_ = r.state_ ∨ r1.state_ = State.finished) ∧
    r1.mHaveCorrectLCL = r.mHaveCorrectLCL ∧
    r1.mPreviousLedger = r.mPreviousLedger ∧ r1.mPrevLedgerHash = r.mPrevLedgerHash := by
  unfold stateEstablish at h
  split at h
  · cases h
    exact ⟨Or.inl rfl, rfl, rfl, rfl⟩
  · simp only at h
    split at h
    · cases h
    · rename_i r2 zk2 hc
      obtain ⟨c1, c2, c3, c4, _⟩ := consensusCore_fields (haveConsensus_core F zk zk2 _ r2 false hc)
      cases h
      exact ⟨Or.inl c1, c2, c3, c4⟩
    · rename_i r2 zk2 hc
      obtain ⟨c1, c2, c3, c4, _⟩ := consensusCore_fields (haveConsensus_core F zk zk2 _ r2 true hc)
      split at h
      · cases h
        exact ⟨Or.inl c1, c2, c3, c4⟩
      · split at h
        · cases h
        · cases h
          exact ⟨Or.inr rfl, c2, c3, c4⟩

theorem accept_state (T : LedgerTiming) (A : AcceptInputs) (r r1 : Round) (set : SHAMap)
    (res : AcceptResult) (h : accept T A r set = some (r1, res)) :
    r1.state_ = State.accepted := by
  unfold accept at h
  split at h
  · cases h
  · simp only at h
    split at h
    · cases h
    · simp only [Option.some.injEq, Prod.mk.injEq] at h
      rw [← h.1]

theorem rank_le_of_eq {a b : State} (h : b = a) : a.rank ≤ b.rank := by
  rw [h]

theorem timerCheckLCL_state (T : LedgerTiming) (tk : Tick) (r : Round) :
    (timerCheckLCL T tk r).state_ = r.state_ := by
  unfold timerCheckLCL
  split
  · exact checkLCL_state T tk.E tk.vals r
  · rfl

theorem timerDispatch_state (T : LedgerTiming) (tk : Tick) (zk zk1 : ZooKeeper) (r r1 : Round)
    (h : timerDispatch T tk zk r = some (r1, zk1)) :
    (r.state_ = State.open_ → r1.state_ = State.open_ ∨ r1.state_ = State.establish) ∧
    (r.state_ = State.establish → r1.state_ = State.establish ∨ r1.state_ = State.finished) ∧
    (r.state_ = State.finished → r1.state_ = State.finished) ∧
    (r.state_ = State.accepted → r1.state_ = State.accepted) := by
  unfold timerDispatch at h
  cases hs : r.state_ with
  | open_ =>
    rw [hs] at h
    simp only [statePreClose, Option.map_eq_some'] at h
    obtain ⟨r3, h3, h4⟩ := h
    simp only [Prod.mk.injEq] at h4
    obtain ⟨rfl, _⟩ := h4
    refine ⟨fun _ => ?_, (fun h => nomatch h), (fun h => nomatch h), (fun h => nomatch h)⟩
    split at h3
    · exact Or.inr (closeLedger_state _ _ _ _ h3).1
    · cases h3
      exact Or.inl hs
  | establish =>
    rw [hs] at h
    simp only at h
    refine ⟨(fun h => nomatch h), fun _ => ?_, (fun h => nomatch h), (fun h => nomatch h)⟩
    rcases (stateEstablish_state T tk.F zk zk1 r r1 h).1 with h1 | h1
    · exact Or.inl (h1.trans hs)
    · exact Or.inr h1
  | finished =>
    rw [hs] at h
    cases h
    exact ⟨(fun h => nomatch h), (fun h => nomatch h), fun _ => hs, (fun h => nomatch h)⟩
  | accepted =>
    rw [hs] at h
    cases h
    exact ⟨(fun h => nomatch h), (fun h => nomatch h), (fun h => nomatch h), fun _ => hs⟩

theorem timerEntry_state (T : LedgerTiming) (tk : Tick) (zk zk1 : ZooKeeper) (r r1 : Round)
    (h : timerEntry T tk zk r = some (r1, zk1)) :
    (r.state_ = State.open_ → r1.state_ = State.open_ ∨ r1.state_ = State.establish) ∧
    (r.state_ = State.establish → r1.state_ = State.establish ∨ r1.state_ = State.finished) ∧
    (r.state_ = State.finished → r1.state_ = State.finished) ∧
    (r.state_ = State.accepted → r1.state_ = State.accepted) := by
  unfold timerEntry at h
  simp only at h
  split at h
  · cases h
  · have hd := timerDispatch_state T tk zk zk1 _ r1 h
    have hc : (timerClock tk (timerCheckLCL T tk r)).state_ = r.state_ :=
      timerCheckLCL_state T tk r
    rw [hc] at hd
    exact hd

theorem peerCore_fields {a b : Round} (h : peerCore a = peerCore b) :
    a.state_ = b.state_ ∧ a.mHaveCorrectLCL = b.mHaveCorrectLCL ∧
    a.mPreviousLedger = b.mPreviousLedger ∧ a.mPrevLedgerHash = b.mPrevLedgerHash ∧
    a.mOurPosition = b.mOurPosition ∧ a.mProposing = b.mProposing ∧
    a.mAcquiringLedger = b.mAcquiringLedger ∧ a.sent = b.sent := by
  have h1 := congrArg Round.state_ h
  have h2 := congrArg Round.mHaveCorrectLCL h
  have h3 := congrArg Round.mPreviousLedger h
  have h4 := congrArg Round.mPrevLedgerHash h
  have h5 := congrArg Round.mOurPosition h
  have h6 := congrArg Round.mProposing h
  have h7 := congrArg Round.mAcquiringLedger h
  have h8 := congrArg Round.sent h
  exact ⟨h1, h2, h3, h4, h5, h6, h7, h8⟩

/-- C11: with the order open < establish < finished < accepted, every
timerEntry, peerPosition, mapComplete, checkLCL, handleLCL and accept call
that returns leaves the round state equal to or greater than its value before
the call, and timerEntry called in open ends in open or establish, never in
finished or accepted. -/
theorem state_moves_forward (T : LedgerTiming) (r : Round) :
    (∀ (tk : Tick) (zk zk1 : ZooKeeper) (r1 : Round),
      timerEntry T tk zk r = some (r1, zk1) →
        r.state_.rank ≤ r1.state_.rank ∧
        (r.state_ = State.open_ →
          r1.state_ ≠ State.finished ∧ r1.state_ ≠ State.accepted)) ∧
    (∀ (E : Env) (p : LedgerProposal), r.state_.rank ≤ (peerPosition E r p).2.state_.rank) ∧
    (∀ (E : Env) (hash : uint256) (map : Option SHAMap) (acquired : Bool) (r1 : Round),
      mapComplete E r hash map acquired = some r1 → r.state_.rank ≤ r1.state_.rank) ∧
    (∀ (E : Env) (vals : List (uint256 × Int)),
      r.state_.rank ≤ (checkLCL T E vals r).state_.rank) ∧
    (∀ (E : Env) (lclHash : uint256), r.state_.rank ≤ (handleLCL T E r lclHash).state_.rank) ∧
    (∀ (A : AcceptInputs) (set : SHAMap) (r1 : Round) (res : AcceptResult),
      accept T A r set = some (r1, res) → r.state_.rank ≤ r1.state_.rank) := by
  refine ⟨?_, ?_, ?_, ?_, ?_, ?_⟩
  · intro tk zk zk1 r1 h
    obtain ⟨h1, h2, h3, h4⟩ := timerEntry_state T tk zk zk1 r r1 h
    constructor
    · cases hs : r.state_ with
      | open_ => exact Nat.zero_le _
      | establish => rcases h2 hs with e | e <;> simp [e, State.rank]
      | finished => rw [h3 hs]
      | accepted => rw [h4 hs]
    · intro hs
      rcases h1 hs with e | e <;> simp [e]
  · intro E p
    exact rank_le_of_eq (peerCore_fields (peerPosition_core E r p)).1
  · intro E hash map acquired r1 h
    exact rank_le_of_eq (acquireCore_fields (mapCompleteInternal_core E r r1 hash map acquired h)).1
  · intro E vals
    exact rank_le_of_eq (checkLCL_state T E vals r)
  · intro E lclHash
    exact rank_le_of_eq (handleLCL_state T E r lclHash)
  · intro A set r1 res h
    rw [accept_state T A r r1 set res h]
    cases r.state_ <;> decide

/-- Witness of C11: the tick `exTick` takes the fresh round `exFresh` from open
to establish, which is forward and neither finished nor accepted. -/
theorem state_moves_forward_witness :
    timerEntry exTiming exTick [] exFresh = some (exClosed, []) ∧
    exFresh.state_ = State.open_ ∧ exClosed.state_ = State.establish ∧
    exFresh.state_.rank ≤ exClosed.state_.rank ∧
    (exFresh.state_ = State.open_ →
      exClosed.state_ ≠ State.finished ∧ exClosed.state_ ≠ State.accepted) :=
  ⟨by decide, by decide, by decide,
   (state_moves_forward exTiming exFresh).1 exTick [] [] exClosed (by decide)⟩

theorem stateEstablish_early (T : LedgerTiming) (F : ZkFaults) (zk : ZooKeeper) (r : Round)
    (h : r.mCurrentMSeconds < T.LEDGER_MIN_CONSENSUS) :
    stateEstablish T F zk r = some (r, zk) := by
  unfold stateEstablish
  rw [if_pos h]

theorem stateEstablish_late (T : LedgerTiming) (F : ZkFaults) (zk : ZooKeeper) (r : Round)
    (h : T.LEDGER_MIN_CONSENSUS ≤ r.mCurrentMSeconds) :
    stateEstablish T F zk r =
      match haveConsensus F zk (updateOurPositions r) with
      | none => none
      | some (false, r2, zk2) => some (r2, zk2)
      | some (true, r2, zk2) =>
        (beginAccept { r2 with state_ := State.finished }).map
          (fun _ => ({ r2 with state_ := State.finished }, zk2)) := by
  unfold stateEstablish
  rw [if_neg (not_lt.2 h)]
  simp only
  cases hc : haveConsensus F zk (updateOurPositions r) with
  | none => rfl
  | some res =>
    obtain ⟨b, r2, zk2⟩ := res
    cases b with
    | false => rfl
    | true =>
      have hct : r2.mHaveCloseTimeConsensus = true :=
        (consensusCore_fields (haveConsensus_core F zk zk2 _ r2 true hc)).2.2.2.2.1
      simp only [hct, Bool.not_true, Bool.false_eq_true, if_false]
      split <;> rename_i hb <;> simp [hb]

/-- C12: for a round in establish, before LEDGER_MIN_CONSENSUS `stateEstablish`
changes nothing and does not consult the arbiter (the result is the same for
every backend and arbiter tree); from LEDGER_MIN_CONSENSUS on it stays in
establish when `haveConsensus` returns false and sets finished and hands over
to `beginAccept` when it returns true, so a returned state is finished if and
only if the elapsed time is at least LEDGER_MIN_CONSENSUS and `haveConsensus`
returned true; `updateOurPositions` only sets the close-time agreement flag,
and the peers' positions, the close-time votes and the previous value of the
flag have no influence on the transition. -/
theorem establish_to_finished (T : LedgerTiming) (F : ZkFaults) (zk : ZooKeeper) (r : Round)
    (hst : r.state_ = State.establish) :
    (r.mCurrentMSeconds < T.LEDGER_MIN_CONSENSUS →
      ∀ (F1 : ZkFaults) (zk1 : ZooKeeper), stateEstablish T F1 zk1 r = some (r, zk1)) ∧
    (T.LEDGER_MIN_CONSENSUS ≤ r.mCurrentMSeconds →
      (haveConsensus F zk (updateOurPositions r) = none → stateEstablish T F zk r = none) ∧
      (∀ r2 zk2, haveConsensus F zk (updateOurPositions r) = some (false, r2, zk2) →
        stateEstablish T F zk r = some (r2, zk2) ∧ r2.state_ = State.establish) ∧
      (∀ r2 zk2, haveConsensus F zk (updateOurPositions r) = some (true, r2, zk2) →
        stateEstablish T F zk r =
          (beginAccept { r2 with state_ := State.finished }).map
            (fun _ => ({ r2 with state_ := State.finished }, zk2)))) ∧
    (∀ r1 zk1, stateEstablish T F zk r = some (r1, zk1) →
      (r1.state_ = State.finished ↔
        (T.LEDGER_MIN_CONSENSUS ≤ r.mCurrentMSeconds ∧
          ∃ r2 zk2, haveConsensus F zk (updateOurPositions r) = some (true, r2, zk2)))) ∧
    updateOurPositions r = { r with mHaveCloseTimeConsensus := true } ∧
    (∀ (pp : List (NodeID × LedgerProposal)) (ct : List (Nat × Int)) (b : Bool),
      (stateEstablish T F zk (withPeerTimes r pp ct b)).map (fun x => (x.1.state_, x.2)) =
        (stateEstablish T F zk r).map (fun x => (x.1.state_, x.2))) := by
  have hfalse : ∀ r2 zk2, haveConsensus F zk (updateOurPositions r) = some (false, r2, zk2) →
      r2.state_ = State.establish := by
    intro r2 zk2 hc
    exact (consensusCore_fields (haveConsensus_core F zk zk2 _ r2 false hc)).1.trans hst
  refine ⟨?_, ?_, ?_, rfl, ?_⟩
  · intro h F1 zk1
    exact stateEstablish_early T F1 zk1 r h
  · intro h
    refine ⟨?_, ?_, ?_⟩
    · intro hc
      rw [stateEstablish_late T F zk r h, hc]
    · intro r2 zk2 hc
      rw [stateEstablish_late T F zk r h, hc]
      exact ⟨rfl, hfalse r2 zk2 hc⟩
    · intro r2 zk2 hc
      rw [stateEstablish_late T F zk r h, hc]
  · intro r1 zk1 hres
    by_cases h : r.mCurrentMSeconds < T.LEDGER_MIN_CONSENSUS
    · rw [stateEstablish_early T F zk r h] at hres
      simp only [Option.some.injEq, Prod.mk.injEq] at hres
      rw [← hres.1, hst]
      constructor
      · intro hf; cases hf
      · intro hh; exact absurd h (not_lt.2 hh.1)
    · have hle := not_lt.1 h
      rw [stateEstablish_late T F zk r hle] at hres
      cases hc : haveConsensus F zk (updateOurPositions r) with
      | none => rw [hc] at hres; cases hres
      | some res =>
        obtain ⟨b, r2, zk2⟩ := res
        rw [hc] at hres
        cases b with
        | false =>
          simp only [Option.some.injEq, Prod.mk.injEq] at hres
          rw [← hres.1, hfalse r2 zk2 hc]
          constructor
          · intro hf; cases hf
          · rintro ⟨_, r3, zk3, h3⟩
            cases h3
        | true =>
          simp only [Option.map_eq_some'] at hres
          obtain ⟨_, _, h2⟩ := hres
          simp only [Prod.mk.injEq] at h2
          rw [← h2.1]
          exact ⟨fun _ => ⟨hle, r2, zk2, rfl⟩, fun _ => rfl⟩
  · intro pp ct b
    by_cases h : r.mCurrentMSeconds < T.LEDGER_MIN_CONSENSUS
    · have h1 : (withPeerTimes r pp ct b).mCurrentMSeconds < T.LEDGER_MIN_CONSENSUS := h
      rw [stateEstablish_early T F zk r h, stateEstablish_early T F zk _ h1]
      rfl
    · have hle := not_lt.1 h
      have h1 : T.LEDGER_MIN_CONSENSUS ≤ (withPeerTimes r pp ct b).mCurrentMSeconds := hle
      have hu : updateOurPositions (withPeerTimes r pp ct b) =
          withPeerTimes (updateOurPositions r) pp ct true := rfl
      rw [stateEstablish_late T F zk r hle, stateEstablish_late T F zk _ h1, hu,
        haveConsensus_withPeerTimes]
      cases hc : haveConsensus F zk (updateOurPositions r) with
      | none => rfl
      | some res =>
        obtain ⟨b1, r2, zk2⟩ := res
        cases b1 with
        | false =>
          simp only [Option.map_some']
          exact congrArg some (Prod.ext rfl rfl)
        | true =>
          simp only [Option.map_some']
          have hb : beginAccept { withPeerTimes r2 pp ct true with state_ := State.finished } =
              beginAccept { r2 with state_ := State.finished } := rfl
          rw [hb]
          cases beginAccept { r2 with state_ := State.finished } <;> rfl

/-- Witness of C12: `exRound` is in establish 2.5 seconds into the round; with
an empty arbiter tree `haveConsensus` returns true and `stateEstablish` ends
in finished. -/
theorem establish_to_finished_witness :
    exRound.state_ = State.establish ∧
    (stateEstablish exTiming noFaults [] exRound).map (fun x => x.1.state_) =
      some State.finished ∧
    stateEstablish exTiming noFaults exZkOther { exRound with mCurrentMSeconds := 1999 } =
      some ({ exRound with mCurrentMSeconds := 1999 }, exZkOther) :=
  ⟨rfl, by decide,
   (establish_to_finished exTiming noFaults []
      { exRound with mCurrentMSeconds := 1999 } rfl).1 (by decide) noFaults exZkOther⟩

/-! ## The switch of the prior ledger -/

theorem playbackProposals_induct (E : Env) (P : Round → Prop)
    (hP : ∀ (r : Round) (p : LedgerProposal), (∃ it ∈ E.storedProposals, p ∈ it.2) →
      p.isPrevLedger r.mPrevLedgerHash = true → P r → P (peerPosition E r p).2)
    (r : Round) (h : P r) : P (playbackProposals E r) := by
  unfold playbackProposals
  have key : ∀ (stored : List (NodeID × List LedgerProposal)),
      (∀ it ∈ stored, it ∈ E.storedProposals) → ∀ r : Round, P r →
      P (stored.foldl (fun r it => it.2.foldl (fun r proposal =>
        if proposal.isPrevLedger r.mPrevLedgerHash then (peerPosition E r proposal).2 else r)
          r) r) := by
    intro stored
    induction stored with
    | nil => intro _ r h; exact h
    | cons it rest ih =>
      intro hsub r h
      rw [List.foldl_cons]
      apply ih (fun x hx => hsub x (List.mem_cons_of_mem _ hx))
      have hit : it ∈ E.storedProposals := hsub it (List.mem_cons_self _ _)
      have inner : ∀ (l : List LedgerProposal), (∀ q ∈ l, q ∈ it.2) → ∀ r : Round, P r →
          P (l.foldl (fun r proposal =>
            if proposal.isPrevLedger r.mPrevLedgerHash then (peerPosition E r proposal).2
            else r) r) := by
        intro l
        induction l with
        | nil => intro _ r h; exact h
        | cons q qs ih2 =>
          intro hq r h
          rw [List.foldl_cons]
          apply ih2 (fun x hx => hq x (List.mem_cons_of_mem _ hx))
          split
          · rename_i hprev
            exact hP r q ⟨it, hit, hq q (List.mem_cons_self _ _)⟩ hprev h
          · exact h
      exact inner it.2 (fun q hq => hq) r h
  exact key E.storedProposals (fun it hit => hit) r h

theorem peerPositionStore_disputes_nil (E : Env) (r : Round) (p : LedgerProposal)
    (h : r.mDisputes = []) : (peerPositionStore E r p).2.mDisputes = [] := by
  unfold peerPositionStore
  simp only
  generalize hg : getTransactionTree E _ p.mCurrentHash = res
  have hf := (getTransactionTree_frame E
    { countCloseTime r p with
      mPeerPositions := mset (countCloseTime r p).mPeerPositions p.mPeerID p }
    p.mCurrentHash).2.2.2.1
  rw [hg] at hf
  obtain ⟨o, r3⟩ := res
  have e1 : (countCloseTime r p).mDisputes = r.mDisputes := by
    unfold countCloseTime; split <;> rfl
  have h3 : r3.mDisputes = [] := by
    simp only at hf
    rw [hf, e1, h]
  cases o with
  | none => exact h3
  | some set =>
    simp only [h3, List.map_nil]

theorem peerPosition_replayed (E : Env) (h : uint256) (r : Round) (p : LedgerProposal)
    (hp : StoredFor E h p) (hr : ReplayedOnly E h r) :
    ReplayedOnly E h (peerPosition E r p).2 := by
  obtain ⟨i1, i2, i3, i4, i5⟩ := hr
  by_cases hd : p.mPeerID ∈ r.mDeadNodes
  · rw [peerPosition_dead E r p hd]; exact ⟨i1, i2, i3, i4, i5⟩
  · cases hs : staleProposal r p with
    | true => rw [peerPosition_stale E r p hs]; exact ⟨i1, i2, i3, i4, i5⟩
    | false =>
      cases hb : p.isBowOut with
      | true =>
        rw [peerPosition_bowOut E r p hd hs hb]
        refine ⟨i1, ?_, ?_, ?_, i5⟩
        · simp only [i2, List.map_nil]
        · intro k v hf
          simp only at hf
          rw [mfind_merase] at hf
          by_cases hk : p.mPeerID = k
          · rw [if_pos hk] at hf; cases hf
          · rw [if_neg hk] at hf; exact i3 k v hf
        · intro k hk
          rcases (mem_sinsert _ _ _).1 hk with hk | hk
          · exact i4 k hk
          · exact ⟨p, hp, hk.symm, hb⟩
      | false =>
        rw [peerPosition_store_eq E r p hd hs hb]
        obtain ⟨_, s2, s3, s4, s5⟩ := peerPositionStore_spec E r p
        refine ⟨s4.trans i1, peerPositionStore_disputes_nil E r p i2, ?_, ?_, ?_⟩
        · intro k v hf
          rw [s2, mfind_mset] at hf
          by_cases hk : p.mPeerID = k
          · rw [if_pos hk] at hf
            cases hf
            exact ⟨hp, hk⟩
          · rw [if_neg hk] at hf; exact i3 k v hf
        · intro k hk
          rw [s3] at hk
          exact i4 k hk
        · intro t n hf
          rw [s5] at hf
          unfold countCloseTime at hf
          split at hf
          · rename_i hinit
            simp only at hf
            rw [mfind_mset] at hf
            by_cases ht : p.mCloseTime = t
            · exact ⟨p, hp, hinit, ht⟩
            · rw [if_neg ht] at hf; exact i5 t n hf
          · exact i5 t n hf

theorem handleLCLSwitch_eq (E : Env) (r : Round) (lclHash : uint256)
    (hne : r.mPrevLedgerHash ≠ lclHash) :
    ∃ rc : Round, handleLCLSwitch E r lclHash = playbackProposals E rc ∧
      rc.mPrevLedgerHash = lclHash ∧ rc.mPeerPositions = [] ∧ rc.mDisputes = [] ∧
      rc.mCloseTimes = [] ∧ rc.mDeadNodes = [] ∧ rc.mProposing = false ∧
      rc.state_ = r.state_ ∧
      rc.mOurPosition =
        (match r.mOurPosition with
         | some pos => if r.mHaveCorrectLCL && r.mProposing then some pos.bowOut else some pos
         | none => none) := by
  unfold handleLCLSwitch
  rw [if_pos hne]
  refine ⟨_, rfl, ?_, rfl, rfl, rfl, rfl, rfl, ?_, ?_⟩
  · simp only
    split
    · split <;> rfl
    · rfl
  · simp only
    split
    · split <;> rfl
    · rfl
  · simp only
    cases r.mOurPosition with
    | none => rfl
    | some pos =>
      simp only
      split <;> rfl

theorem handleLCLLedger_prev (T : LedgerTiming) (E : Env) (r : Round) (lclHash : uint256)
    (h : r.mPrevLedgerHash = lclHash) :
    (handleLCLLedger T E r lclHash).mPrevLedgerHash = lclHash := by
  unfold handleLCLLedger
  split
  · exact h
  · split
    · split <;> exact h
    · rfl

theorem mfind_head_of_ne_nil {K V : Type} [DecidableEq K] (m : List (K × V)) (h : m ≠ []) :
    ∃ k v, mfind m k = some v := by
  cases m with
  | nil => exact absurd rfl h
  | cons e rest => exact ⟨e.1, e.2, by simp [mfind]⟩

theorem handleLCL_replayed (T : LedgerTiming) (E : Env) (r : Round) (h : uint256)
    (hne : h ≠ r.mPrevLedgerHash) : ReplayedOnly E h (handleLCL T E r h) := by
  obtain ⟨rc, e0, e1, e2, e3, e4, e5, _, _, _⟩ :=
    handleLCLSwitch_eq E r h (fun x => hne x.symm)
  have hrc : ReplayedOnly E h rc := by
    refine ⟨e1, e3, ?_, ?_, ?_⟩
    · intro k v hf
      rw [e2] at hf
      cases hf
    · intro k hk
      rw [e5] at hk
      cases hk
    · intro t n hf
      rw [e4] at hf
      cases hf
  have hpb : ReplayedOnly E h (playbackProposals E rc) := by
    apply playbackProposals_induct E (ReplayedOnly E h) _ rc hrc
    intro r1 p hst hprev hr1
    apply peerPosition_replayed E h r1 p _ hr1
    refine ⟨hst, ?_⟩
    have := hr1.1
    simpa [LedgerProposal.isPrevLedger, this] using hprev
  unfold handleLCL
  rw [e0]
  obtain ⟨j1, j2, j3, j4, j5⟩ := hpb
  obtain ⟨f1, f2⟩ := handleLCLLedger_frame T E (playbackProposals E rc) h
  obtain ⟨_, _, _, g4, g5⟩ := handleLCLLedger_state T E (playbackProposals E rc) h
  refine ⟨handleLCLLedger_prev T E _ h j1, g4.trans j2, ?_, ?_, ?_⟩
  · intro k v hf
    rw [f1] at hf
    exact j3 k v hf
  · intro k hk
    rw [f2] at hk
    exact j4 k hk
  · intro t n hf
    rw [g5] at hf
    exact j5 t n hf

/-- Counterexample to C13: peer 3 has a stored INITIAL proposal for the ledger
2000.  After `handleLCL (2000)` on a round whose prior ledger is 1000,
PeerPositions holds that proposal and CloseTimes holds its vote: they are not
empty. -/
theorem lcl_switch_replays_stored :
    (2000 : uint256) ≠ exPeerRound.mPrevLedgerHash ∧
    (handleLCL exTiming exStored2000 exPeerRound 2000).mPeerPositions =
      [(3, { exPeerPos with mPreviousLedger := 2000, mProposeSeq := 0 })] ∧
    (handleLCL exTiming exStored2000 exPeerRound 2000).mCloseTimes = [(104, 1)] := by
  decide

/-- C13 as amended: after `handleLCL (h)` with `h` different from the current
`mPrevLedgerHash`, `mPrevLedgerHash = h`, Disputes is empty, and
PeerPositions, CloseTimes and DeadNodes hold only what the replay of the
stored proposals that extend `h` put there (`ReplayedOnly`); they are all
empty when no stored proposal extends `h`. -/
theorem lcl_switch_clears_then_replays (T : LedgerTiming) (E : Env) (r : Round) (h : uint256)
    (hne : h ≠ r.mPrevLedgerHash) :
    ReplayedOnly E h (handleLCL T E r h) ∧
    ((∀ it ∈ E.storedProposals, ∀ p ∈ it.2, p.mPreviousLedger ≠ h) →
      (handleLCL T E r h).mPeerPositions = [] ∧ (handleLCL T E r h).mDisputes = [] ∧
      (handleLCL T E r h).mCloseTimes = [] ∧ (handleLCL T E r h).mDeadNodes = []) := by
  have hrep := handleLCL_replayed T E r h hne
  refine ⟨hrep, ?_⟩
  intro hall
  obtain ⟨_, j2, j3, j4, j5⟩ := hrep
  have hno : ∀ p, ¬ StoredFor E h p := by
    rintro p ⟨⟨it, hit, hp⟩, hprev⟩
    exact hall it hit p hp hprev
  refine ⟨?_, j2, ?_, ?_⟩
  · by_contra hpp
    obtain ⟨k, v, hf⟩ := mfind_head_of_ne_nil _ hpp
    exact hno v (j3 k v hf).1
  · by_contra hct
    obtain ⟨t, n, hf⟩ := mfind_head_of_ne_nil _ hct
    obtain ⟨p, hp, _⟩ := j5 t n hf
    exact hno p hp
  · by_contra hdn
    obtain ⟨k, hk⟩ := List.exists_mem_of_ne_nil _ hdn
    obtain ⟨p, hp, _⟩ := j4 k hk
    exact hno p hp

/-- Witness of C13 as amended: with nothing stored, `handleLCL (2000)` leaves
the four containers of `exPeerRound` empty. -/
theorem lcl_switch_clears_then_replays_witness :
    (handleLCL exTiming exEnv exPeerRound 2000).mPrevLedgerHash = 2000 ∧
    (handleLCL exTiming exEnv exPeerRound 2000).mPeerPositions = [] ∧
    (handleLCL exTiming exEnv exPeerRound 2000).mDisputes = [] ∧
    (handleLCL exTiming exEnv exPeerRound 2000).mCloseTimes = [] ∧
    (handleLCL exTiming exEnv exPeerRound 2000).mDeadNodes = [] :=
  ⟨(lcl_switch_clears_then_replays exTiming exEnv exPeerRound 2000 (by decide)).1.1,
   (lcl_switch_clears_then_replays exTiming exEnv exPeerRound 2000 (by decide)).2
     (by decide)⟩

/-- Counterexample to C14: `exRound` is in establish with the position `exPos`,
proposing on the correct LCL 1000; the validations prefer ledger 2000.  After
`checkLCL` the round is still in establish and our position is not null: it
is the bow-out of `exPos`. -/
theorem view_shift_keeps_establish :
    exRound.state_ = State.establish ∧
    (checkLCLSelect exRound.mPrevLedgerHash [(2000, 3)]).1 = 2000 ∧
    (2000 : uint256) ≠ exRound.mPrevLedgerHash ∧
    (checkLCL exTiming exEnv [(2000, 3)] exRound).mPrevLedgerHash = 2000 ∧
    (checkLCL exTiming exEnv [(2000, 3)] exRound).state_ = State.establish ∧
    (checkLCL exTiming exEnv [(2000, 3)] exRound).mOurPosition = some exPos.bowOut := by
  decide

/-- C14 as amended: a view shift (`checkLCL` selecting, and `handleLCL`
switching to, a ledger hash `h` different from `mPrevLedgerHash`) leaves the
round state as it is, open or establish, and stops proposing; our position is
null afterwards only if it was null before: a position taken earlier is kept,
as its bow-out when the node had the correct LCL and was proposing. -/
theorem view_shift_keeps_state (T : LedgerTiming) (E : Env) (r : Round) (h : uint256)
    (hne : h ≠ r.mPrevLedgerHash) :
    (handleLCL T E r h).state_ = r.state_ ∧
    (handleLCL T E r h).mProposing = false ∧
    (handleLCL T E r h).mOurPosition =
      (match r.mOurPosition with
       | some pos => if r.mHaveCorrectLCL && r.mProposing then some pos.bowOut else some pos
       | none => none) ∧
    (∀ vals : List (uint256 × Int), (checkLCLSelect r.mPrevLedgerHash vals).1 = h →
      checkLCL T E vals r = handleLCL T E r h) := by
  obtain ⟨rc, e0, _, _, _, _, _, e6, e7, e8⟩ :=
    handleLCLSwitch_eq E r h (fun x => hne x.symm)
  obtain ⟨_, _, _, _, p5, p6, _⟩ := peerCore_fields (playbackProposals_core E rc)
  obtain ⟨_, g2, g3, _, _⟩ := handleLCLLedger_state T E (handleLCLSwitch E r h) h
  refine ⟨handleLCL_state T E r h, ?_, ?_, ?_⟩
  · unfold handleLCL
    rw [g3, e0, p6, e6]
  · unfold handleLCL
    rw [g2, e0, p5, e8]
  · intro vals hsel
    unfold checkLCL
    simp only [hsel, ne_eq, hne, not_false_eq_true, if_true]

/-- Witness of C14 as amended: the fresh round `exFresh` (open, no position)
switches to ledger 2000 and stays open without a position. -/
theorem view_shift_keeps_state_witness :
    (handleLCL exTiming exEnv exFresh 2000).state_ = State.open_ ∧
    (handleLCL exTiming exEnv exFresh 2000).mProposing = false ∧
    (handleLCL exTiming exEnv exFresh 2000).mOurPosition = none :=
  ⟨(view_shift_keeps_state exTiming exEnv exFresh 2000 (by decide)).1,
   (view_shift_keeps_state exTiming exEnv exFresh 2000 (by decide)).2.1,
   (view_shift_keeps_state exTiming exEnv exFresh 2000 (by decide)).2.2.1⟩

/-- C15, the code at its failing input: the fresh round `exFresh` on the held
ledger 1000 switches to 2000 (not in the ledger store), to 3000 (in the
store) and back to 2000.  After the first call `have_correct_lcl` is false and
2000 is being acquired; after the third call the store still lacks 2000 and
the held previous ledger is 3000, yet `have_correct_lcl` is true, and no
second acquisition was queued. -/
theorem reacquire_leaves_correct_lcl_set :
    (handleLCL exTiming exStore3000 exFresh 2000).mHaveCorrectLCL = false ∧
    (handleLCL exTiming exStore3000 exFresh 2000).mAcquiringLedger = 2000 ∧
    (handleLCL exTiming exStore3000
      (handleLCL exTiming exStore3000 exFresh 2000) 3000).mHaveCorrectLCL = true ∧
    getLedgerByHash exStore3000 2000 = none ∧
    exBackTo2000.mPrevLedgerHash = 2000 ∧
    exBackTo2000.mPreviousLedger.hash = 3000 ∧
    exBackTo2000.mAcquiringLedger = 2000 ∧
    exBackTo2000.acquireJobs = [2000] ∧
    exBackTo2000.mHaveCorrectLCL = true := by
  decide

/-! ## Advancing without the correct prior ledger -/

/-- Counterexample to C16: `exWrong` is open with `have_correct_lcl` false.
One tick closes the ledger (establish) and a second tick moves the round to
finished, both ending with `have_correct_lcl` false. -/
theorem advances_without_correct_lcl :
    exWrong.state_ = State.open_ ∧ exWrong.mHaveCorrectLCL = false ∧
    timerEntry exTiming exTick [] exWrong = some (exWrongClosed, []) ∧
    exWrongClosed.state_ = State.establish ∧ exWrongClosed.mHaveCorrectLCL = false ∧
    (timerEntry exTiming exTick [] exWrongClosed).map Prod.fst = some exWrongFinished ∧
    exWrongFinished.state_ = State.finished ∧ exWrongFinished.mHaveCorrectLCL = false := by
  refine ⟨?_, ?_, ?_, ?_, ?_, ?_, ?_, ?_⟩ <;> decide

theorem stateEstablish_finished_iff (T : LedgerTiming) (F : ZkFaults) (zk zk1 : ZooKeeper)
    (r r1 : Round) (hst : r.state_ = State.establish)
    (hres : stateEstablish T F zk r = some (r1, zk1)) :
    (r1.state_ = State.finished ↔
      (T.LEDGER_MIN_CONSENSUS ≤ r.mCurrentMSeconds ∧
        ∃ r2 zk2, haveConsensus F zk (updateOurPositions r) = some (true, r2, zk2))) := by
  by_cases h : r.mCurrentMSeconds < T.LEDGER_MIN_CONSENSUS
  · rw [stateEstablish_early T F zk r h] at hres
    simp only [Option.some.injEq, Prod.mk.injEq] at hres
    rw [← hres.1, hst]
    constructor
    · intro hf; cases hf
    · intro hh; exact absurd h (not_lt.2 hh.1)
  · have hle := not_lt.1 h
    rw [stateEstablish_late T F zk r hle] at hres
    cases hc : haveConsensus F zk (updateOurPositions r) with
    | none => rw [hc] at hres; cases hres
    | some res =>
      obtain ⟨b, r2, zk2⟩ := res
      rw [hc] at hres
      cases b with
      | false =>
        simp only [Option.some.injEq, Prod.mk.injEq] at hres
        have h2 : r2.state_ = State.establish :=
          (consensusCore_fields (haveConsensus_core F zk zk2 _ r2 false hc)).1.trans hst
        rw [← hres.1, h2]
        constructor
        · intro hf; cases hf
        · rintro ⟨_, r3, zk3, h3⟩
          cases h3
      | true =>
        simp only [Option.map_eq_some'] at hres
        obtain ⟨_, _, h2⟩ := hres
        simp only [Prod.mk.injEq] at h2
        rw [← h2.1]
        exact ⟨fun _ => ⟨hle, r2, zk2, rfl⟩, fun _ => rfl⟩

/-- C16 as amended: `timerEntry` never tests `have_correct_lcl` when it
advances the round.  With `r2` the round after the view check and the clock
update, a call in open ends in establish exactly when `shouldCloseLedger`
says so and in open otherwise; a call in establish ends in finished exactly
when the elapsed time is at least LEDGER_MIN_CONSENSUS and `haveConsensus`
returns true, and in establish otherwise; and `have_correct_lcl` at the end of
the call is the value the view check left. -/
theorem timer_advances_whatever_the_lcl (T : LedgerTiming) (tk : Tick) (zk zk1 : ZooKeeper)
    (r r1 : Round) (h : timerEntry T tk zk r = some (r1, zk1)) :
    (r.state_ = State.open_ →
      (preCloseDecision T tk.P (timerClock tk (timerCheckLCL T tk r)) = true →
        r1.state_ = State.establish) ∧
      (preCloseDecision T tk.P (timerClock tk (timerCheckLCL T tk r)) = false →
        r1.state_ = State.open_)) ∧
    (r.state_ = State.establish →
      (r1.state_ = State.finished ∨ r1.state_ = State.establish) ∧
      (r1.state_ = State.finished ↔
        (T.LEDGER_MIN_CONSENSUS ≤ tk.elapsed ∧
          ∃ r3 zk3, haveConsensus tk.F zk
            (updateOurPositions (timerClock tk (timerCheckLCL T tk r))) =
              some (true, r3, zk3)))) ∧
    r1.mHaveCorrectLCL = (timerCheckLCL T tk r).mHaveCorrectLCL := by
  unfold timerEntry at h
  simp only at h
  split at h
  · cases h
  · have hc : (timerClock tk (timerCheckLCL T tk r)).state_ = r.state_ :=
      timerCheckLCL_state T tk r
    unfold timerDispatch at h
    refine ⟨?_, ?_, ?_⟩
    · intro hs
      rw [hc, hs] at h
      simp only [statePreClose, Option.map_eq_some'] at h
      obtain ⟨r3, h3, h4⟩ := h
      simp only [Prod.mk.injEq] at h4
      obtain ⟨rfl, _⟩ := h4
      constructor
      · intro hd
        rw [if_pos hd] at h3
        exact (closeLedger_state _ _ _ _ h3).1
      · intro hd
        rw [if_neg (by simp [hd])] at h3
        cases h3
        exact hc.trans hs
    · intro hs
      rw [hc, hs] at h
      simp only at h
      constructor
      · rcases (stateEstablish_state T tk.F zk zk1 _ r1 h).1 with e | e
        · exact Or.inr (e.trans (hc.trans hs))
        · exact Or.inl e
      · exact stateEstablish_finished_iff T tk.F zk zk1 _ r1 (hc.trans hs) h
    · cases hs : r.state_ with
      | open_ =>
        rw [hc, hs] at h
        simp only [statePreClose, Option.map_eq_some'] at h
        obtain ⟨r3, h3, h4⟩ := h
        simp only [Prod.mk.injEq] at h4
        obtain ⟨rfl, _⟩ := h4
        split at h3
        · exact (closeLedger_state _ _ _ _ h3).2.1
        · cases h3; rfl
      | establish =>
        rw [hc, hs] at h
        exact (stateEstablish_state T tk.F zk zk1 _ r1 h).2.1
      | finished =>
        rw [hc, hs] at h
        cases h
        rfl
      | accepted =>
        rw [hc, hs] at h
        cases h
        rfl

/-- Witness of C16 as amended: the tick `exTick` on `exWrong` (open,
`have_correct_lcl` false): the close decision is true and the round ends in
establish with `have_correct_lcl` still false. -/
theorem timer_advances_whatever_the_lcl_witness :
    preCloseDecision exTiming exTick.P (timerClock exTick (timerCheckLCL exTiming exTick exWrong))
      = true ∧
    exWrongClosed.state_ = State.establish ∧
    exWrongClosed.mHaveCorrectLCL =
      (timerCheckLCL exTiming exTick exWrong).mHaveCorrectLCL :=
  ⟨by decide,
   ((timer_advances_whatever_the_lcl exTiming exTick [] [] exWrong exWrongClosed
      (by decide)).1 (by decide)).1 (by decide),
   (timer_advances_whatever_the_lcl exTiming exTick [] [] exWrong exWrongClosed
      (by decide)).2.2⟩

/-! ## Acceptance -/

theorem accept_eq (T : LedgerTiming) (A : AcceptInputs) (r r1 : Round) (set : SHAMap)
    (res : AcceptResult) (h : accept T A r set = some (r1, res)) :
    ∃ closeTime closeTimeCorrect,
      acceptCloseTime T r A.replay = some (closeTime, closeTimeCorrect) ∧
      res.newLCL = newLedger r.mPreviousLedger A.newLCLHash closeTime r.mCloseResolution
        closeTimeCorrect ∧
      res.validation =
        (if (r.mValidating && A.isCompatible) && !r.mConsensusFail then
          some (buildValidation A
            { r with mValidating := r.mValidating && A.isCompatible } res.newLCL)
         else none) ∧
      r1.sent = r.sent ++
        [Message.statusChange
          (if !r.mHaveCorrectLCL then NodeEvent.neLOST_SYNC else NodeEvent.neACCEPTED_LEDGER)
          res.newLCL.seq res.newLCL.hash] ++
        (match res.validation with
         | some v => [Message.validation v]
         | none => []) := by
  unfold accept at h
  split at h
  · cases h
  · rename_i closeTime closeTimeCorrect hct
    simp only at h
    split at h
    · cases h
    simp only [Option.some.injEq, Prod.mk.injEq] at h
    obtain ⟨h1, h2⟩ := h
    refine ⟨closeTime, closeTimeCorrect, hct, ?_, ?_, ?_⟩
    · rw [← h2]
    · rw [← h2]
      simp only [statusChange]
      cases hv : r.mValidating <;> cases hc : A.isCompatible <;> cases hf : r.mConsensusFail <;>
        simp [buildValidation]
    · rw [← h1, ← h2]
      simp only [statusChange]
      cases hv : r.mValidating <;> cases hc : A.isCompatible <;> cases hf : r.mConsensusFail <;>
        simp

/-- Counterexample to C18: `exWrongFinished` is validating with
`have_correct_lcl` false and `consensus_fail` false; `accept` builds and sends
a validation. -/
theorem validates_without_correct_lcl :
    exWrongFinished.mValidating = true ∧ exWrongFinished.mHaveCorrectLCL = false ∧
    exWrongFinished.mConsensusFail = false ∧
    (accept exTiming exAccept exWrongFinished { hash := 170, items := [1] }).map
      (fun x => x.2.validation.isSome) = some true ∧
    (accept exTiming exAccept exWrongFinished { hash := 170, items := [1] }).map
      (fun x => x.1.sent.length) = some (exWrongFinished.sent.length + 2) := by
  refine ⟨?_, ?_, ?_, ?_, ?_⟩ <;> decide

/-- C18 as amended: `accept` constructs, signs and broadcasts a validation for
the new ledger if and only if the node is validating (after the
compatibility check) and `consensus_fail` is false; `have_correct_lcl` is not
tested.  The validation sent is the one built for the new ledger, and without
one only the status change is sent. -/
theorem validation_iff_validating_and_not_failed (T : LedgerTiming) (A : AcceptInputs)
    (r r1 : Round) (set : SHAMap) (res : AcceptResult)
    (h : accept T A r set = some (r1, res)) :
    (res.validation.isSome = true ↔
      (r.mValidating = true ∧ A.isCompatible = true ∧ r.mConsensusFail = false)) ∧
    (∀ v, res.validation = some v →
      v.ledgerHash = res.newLCL.hash ∧ Message.validation v ∈ r1.sent) ∧
    (res.validation = none → ∀ v, Message.validation v ∈ r1.sent →
      Message.validation v ∈ r.sent) := by
  obtain ⟨ct, cc, _, _, hv, hs⟩ := accept_eq T A r r1 set res h
  refine ⟨?_, ?_, ?_⟩
  · rw [hv]
    cases r.mValidating <;> cases A.isCompatible <;> cases r.mConsensusFail <;> simp
  · intro v hv1
    constructor
    · rw [hv] at hv1
      split at hv1
      · cases hv1; rfl
      · cases hv1
    · rw [hs, hv1]
      simp
  · intro hnone v hmem
    rw [hs, hnone] at hmem
    simpa using hmem

/-- Witness of C18 as amended: `exRound` is validating and has not failed;
`accept` sends a validation of the ledger 4000. -/
theorem validation_iff_validating_and_not_failed_witness :
    accept exTiming exAccept exRound { hash := 170, items := [1] } = some exAccepted ∧
    exAccepted.2.validation.isSome = true ∧
    (exAccepted.2.validation.isSome = true ↔
      (exRound.mValidating = true ∧ exAccept.isCompatible = true ∧
        exRound.mConsensusFail = false)) :=
  ⟨by decide, by decide,
   (validation_iff_validating_and_not_failed exTiming exAccept exRound exAccepted.1
      { hash := 170, items := [1] } exAccepted.2 (by decide)).1⟩

/-- Counterexample to C19: after the prior ledger 255 `accept` validates the
new ledger 256, and `256 % 256 = 0`, yet the validation carries no vote
fields; after the prior ledger 254 the validation of the new ledger 255
carries both, although `255 % 256` is not 0. -/
theorem votes_on_ledger_before_flag :
    (accept exTiming exAccept (exRoundSeq 255) { hash := 170, items := [1] }).map
      (fun x => x.2.validation.map (fun v => (v.ledgerSequence, v.feeVote, v.amendmentVote))) =
      some (some (256, false, false)) ∧
    (accept exTiming exAccept (exRoundSeq 254) { hash := 170, items := [1] }).map
      (fun x => x.2.validation.map (fun v => (v.ledgerSequence, v.feeVote, v.amendmentVote))) =
      some (some (255, true, true)) ∧
    256 % 256 = 0 ∧ 255 % 256 ≠ 0 := by
  refine ⟨?_, ?_, ?_, ?_⟩ <;> decide

/-- C19 as amended: whenever `accept` emits a validation for a new closed
ledger with sequence number `seq`, the validation carries the fee-vote and
amendment-vote fields if and only if `(seq + 1) % 256 == 0`, that is when the
next ledger is a flag ledger. -/
theorem votes_iff_next_is_flag (T : LedgerTiming) (A : AcceptInputs) (r r1 : Round)
    (set : SHAMap) (res : AcceptResult) (v : STValidation)
    (h : accept T A r set = some (r1, res)) (hv : res.validation = some v) :
    v.ledgerSequence = res.newLCL.seq ∧
    (v.feeVote = true ↔ (res.newLCL.seq + 1) % 256 = 0) ∧
    (v.amendmentVote = true ↔ (res.newLCL.seq + 1) % 256 = 0) := by
  obtain ⟨ct, cc, _, _, hval, _⟩ := accept_eq T A r r1 set res h
  rw [hv] at hval
  have hmod : u32 (res.newLCL.seq + 1) % 256 = (res.newLCL.seq + 1) % 256 := by
    unfold u32
    exact Nat.mod_mod_of_dvd _ (by decide)
  split at hval
  · simp only [Option.some.injEq] at hval
    subst hval
    simp [buildValidation, hmod]
  · cases hval

/-- Witness of C19 as amended: after the prior ledger 254 the validation of
the new ledger 255 carries the vote fields, and `(255 + 1) % 256 = 0`. -/
theorem votes_iff_next_is_flag_witness :
    (exAccepted254.2.validation.map (fun v => v.feeVote)) = some true ∧
    (exAccepted254.2.newLCL.seq + 1) % 256 = 0 ∧
    ((validationOf exAccepted254).feeVote = true ↔
      (exAccepted254.2.newLCL.seq + 1) % 256 = 0) :=
  ⟨by decide, by decide,
   (votes_iff_next_is_flag exTiming exAccept (exRoundSeq 254) exAccepted254.1
      { hash := 170, items := [1] } exAccepted254.2 (validationOf exAccepted254)
      (by decide) (by decide)).2.1⟩

/-- Counterexample to C20: `exWrongFinished` is a state in which `accept` runs
(finished, with a consensus set) on the round's prior ledger 2000, but the new
closed ledger is built on the held ledger 1000 and has the parent hash 1000. -/
theorem parent_is_held_ledger :
    exWrongFinished.state_ = State.finished ∧
    beginAccept exWrongFinished = some { hash := 170, items := [1] } ∧
    exWrongFinished.mPrevLedgerHash = 2000 ∧
    (accept exTiming exAccept exWrongFinished { hash := 170, items := [1] }).map
      (fun x => x.2.newLCL.parentHash) = some 1000 := by
  refine ⟨?_, ?_, ?_, ?_⟩ <;> decide

/-- C20 as amended: the new closed ledger that `accept` builds is parented on
the held previous ledger `mPreviousLedger`: its parent hash is the hash of
that ledger and its sequence number is one more; the parent hash equals the
round's prev_ledger (`mPrevLedgerHash`) exactly when the held previous ledger
is that ledger. -/
theorem parent_hash_of_new_ledger (T : LedgerTiming) (A : AcceptInputs) (r r1 : Round)
    (set : SHAMap) (res : AcceptResult) (h : accept T A r set = some (r1, res)) :
    res.newLCL.parentHash = r.mPreviousLedger.hash ∧
    res.newLCL.seq = u32 (r.mPreviousLedger.seq + 1) ∧
    (res.newLCL.parentHash = r.mPrevLedgerHash ↔
      r.mPreviousLedger.hash = r.mPrevLedgerHash) := by
  obtain ⟨ct, cc, _, hl, _, _⟩ := accept_eq T A r r1 set res h
  rw [hl]
  exact ⟨rfl, rfl, Iff.rfl⟩

/-- Witness of C20 as amended: `exRound` holds its prior ledger 1000, and the
ledger that `accept` builds has the parent hash 1000 and the sequence 42. -/
theorem parent_hash_of_new_ledger_witness :
    accept exTiming exAccept exRound { hash := 170, items := [1] } = some exAccepted ∧
    exAccepted.2.newLCL.parentHash = 1000 ∧ exAccepted.2.newLCL.seq = 42 ∧
    (exAccepted.2.newLCL.parentHash = exRound.mPrevLedgerHash ↔
      exRound.mPreviousLedger.hash = exRound.mPrevLedgerHash) :=
  ⟨by decide,
   (parent_hash_of_new_ledger exTiming exAccept exRound exAccepted.1
      { hash := 170, items := [1] } exAccepted.2 (by decide)).1,
   (parent_hash_of_new_ledger exTiming exAccept exRound exAccepted.1
      { hash := 170, items := [1] } exAccepted.2 (by decide)).2.1,
   (parent_hash_of_new_ledger exTiming exAccept exRound exAccepted.1
      { hash := 170, items := [1] } exAccepted.2 (by decide)).2.2⟩

/-! ## Dispute coverage -/

theorem compare_keys (a b : SHAMap) (n : Nat) :
    (a.compare b n).map (fun e => e.1) = (diffKeys a b).take n := by
  simp [SHAMap.compare, diffKeys, List.map_take, Function.comp_def]

theorem compare_flags (a b : SHAMap) (n : Nat) (e : uint256 × Bool × Bool)
    (he : e ∈ a.compare b n) : e.2.1 = true ∨ e.2.2 = true := by
  unfold SHAMap.compare at he
  have h := List.mem_of_mem_take he
  rcases List.mem_append.1 h with h1 | h1
  · obtain ⟨t, _, rfl⟩ := List.mem_map.1 h1
    exact Or.inl rfl
  · obtain ⟨t, _, rfl⟩ := List.mem_map.1 h1
    exact Or.inr rfl

theorem mem_diffKeys (a b : SHAMap) (t : uint256) :
    t ∈ diffKeys a b ↔ (t ∈ a.items ∧ t ∉ b.items) ∨ (t ∈ b.items ∧ t ∉ a.items) := by
  simp [diffKeys, SHAMap.hasItem, List.mem_filter]

theorem mfind_map_isSome {K V : Type} [DecidableEq K] (m : List (K × V)) (f : K × V → V)
    (k : K) : (mfind (m.map (fun it => (it.1, f it))) k).isSome = (mfind m k).isSome := by
  induction m with
  | nil => rfl
  | cons e rest ih =>
    obtain ⟨a, b⟩ := e
    by_cases h : a = k <;> simp [mfind, h, ih]

theorem VoteReady_congr {r r1 : Round} (h1 : r1.mOurPosition = r.mOurPosition)
    (h2 : r1.mAcquired = r.mAcquired) (h : VoteReady r) : VoteReady r1 := by
  intro tx
  have := h tx
  unfold ourVoteOn at this ⊢
  rw [h1, h2]
  exact this

theorem addDisputedTransaction_keys (E : Env) (r : Round) (tx : uint256) (hv : VoteReady r) :
    ∃ r1, addDisputedTransaction E r tx = some r1 ∧
      r1.mAcquired = r.mAcquired ∧ r1.mOurPosition = r.mOurPosition ∧
      ∀ t, disputed r1 t = true ↔ (disputed r t = true ∨ t = tx) := by
  unfold addDisputedTransaction
  by_cases hd : (mfind r.mDisputes tx).isSome = true
  · rw [if_pos hd]
    refine ⟨r, rfl, rfl, rfl, ?_⟩
    intro t
    constructor
    · exact Or.inl
    · rintro (h | h)
      · exact h
      · rw [h]; exact hd
  · rw [if_neg hd]
    have hvt := hv tx
    cases hvo : ourVoteOn r tx with
    | none => rw [hvo] at hvt; cases hvt
    | some v =>
      simp only
      refine ⟨_, rfl, ?_, ?_, ?_⟩
      · unfold relayDisputed; split <;> rfl
      · unfold relayDisputed; split <;> rfl
      · intro t
        have hdis : (relayDisputed E
            { r with mDisputes := mset r.mDisputes tx (newDisputedTx r tx v) } tx).mDisputes =
            mset r.mDisputes tx (newDisputedTx r tx v) := by
          unfold relayDisputed; split <;> rfl
        unfold disputed
        rw [hdis, mfind_mset]
        by_cases ht : tx = t
        · simp [ht]
        · have ht2 : ¬ t = tx := fun h => ht h.symm
          simp [ht, ht2]

theorem foldl_disputes_keys (E : Env) (l : List (uint256 × Bool × Bool))
    (hflag : ∀ e ∈ l, e.2.1 = true ∨ e.2.2 = true) :
    ∀ r : Round, VoteReady r →
      ∃ r1, l.foldlM
          (fun r pos =>
            if pos.2.1 then addDisputedTransaction E r pos.1
            else if pos.2.2 then addDisputedTransaction E r pos.1
            else some r) r = some r1 ∧
        r1.mAcquired = r.mAcquired ∧ r1.mOurPosition = r.mOurPosition ∧
        ∀ t, disputed r1 t = true ↔ (disputed r t = true ∨ t ∈ l.map (fun e => e.1)) := by
  induction l with
  | nil =>
    intro r _
    exact ⟨r, rfl, rfl, rfl, fun t => by simp⟩
  | cons e rest ih =>
    intro r hv
    obtain ⟨r2, h2, a2, p2, k2⟩ := addDisputedTransaction_keys E r e.1 hv
    have hstep : (if e.2.1 = true then addDisputedTransaction E r e.1
        else if e.2.2 = true then addDisputedTransaction E r e.1 else some r) = some r2 := by
      rcases hflag e (List.mem_cons_self _ _) with hf | hf
      · rw [if_pos hf]; exact h2
      · by_cases h1 : e.2.1 = true
        · rw [if_pos h1]; exact h2
        · rw [if_neg h1, if_pos hf]; exact h2
    obtain ⟨r1, h1, a1, p1, k1⟩ :=
      ih (fun x hx => hflag x (List.mem_cons_of_mem _ hx)) r2 (VoteReady_congr p2 a2 hv)
    refine ⟨r1, ?_, a1.trans a2, p1.trans p2, ?_⟩
    · rw [List.foldlM_cons, hstep]
      exact h1
    · intro t
      rw [k1 t, k2 t, List.map_cons, List.mem_cons]
      constructor
      · rintro ((h | h) | h)
        · exact Or.inl h
        · exact Or.inr (Or.inl h)
        · exact Or.inr (Or.inr h)
      · rintro (h | h | h)
        · exact Or.inl (Or.inl h)
        · exact Or.inl (Or.inr h)
        · exact Or.inr h

theorem createDisputes_keys (E : Env) (r : Round) (a b : SHAMap) (hv : VoteReady r) :
    ∃ r1, createDisputes E r (some a) (some b) = some r1 ∧
      r1.mAcquired = r.mAcquired ∧ r1.mOurPosition = r.mOurPosition ∧
      (∀ t, disputed r t = true → disputed r1 t = true) ∧
      (a.hash ≠ b.hash →
        ∀ t, disputed r1 t = true ↔ (disputed r t = true ∨ t ∈ (diffKeys a b).take 16384)) := by
  unfold createDisputes
  simp only
  by_cases hh : a.hash = b.hash
  · rw [if_pos hh]
    exact ⟨r, rfl, rfl, rfl, fun t h => h, fun hne => absurd hh hne⟩
  · rw [if_neg hh]
    obtain ⟨r1, h1, a1, p1, k1⟩ :=
      foldl_disputes_keys E (a.compare b 16384) (compare_flags a b 16384) r hv
    rw [compare_keys] at k1
    exact ⟨r1, h1, a1, p1, fun t h => (k1 t).2 (Or.inl h), fun _ => k1⟩

theorem VoteReady_of_valid (r : Round) (pos : LedgerProposal) (ours : SHAMap)
    (hpos : r.mOurPosition = some pos)
    (hours : mfind r.mAcquired pos.mCurrentHash = some (some ours)) : VoteReady r := by
  intro tx
  unfold ourVoteOn
  rw [hpos]
  simp only [hours, Option.isSome_some]

theorem mapCompleteDisputes_keys (E : Env) (r : Round) (pos : LedgerProposal)
    (ours m : SHAMap) (hash : uint256)
    (hpos : r.mOurPosition = some pos) (hnb : pos.isBowOut = false)
    (hne : hash ≠ pos.mCurrentHash)
    (hours : mfind r.mAcquired pos.mCurrentHash = some (some ours)) :
    ∃ r1, mapCompleteDisputes E r hash m = some r1 ∧
      r1.mAcquired = r.mAcquired ∧ r1.mOurPosition = r.mOurPosition ∧
      (∀ t, disputed r t = true → disputed r1 t = true) ∧
      (ours.hash ≠ m.hash →
        ∀ t, disputed r1 t = true ↔
          (disputed r t = true ∨ t ∈ (diffKeys ours m).take 16384)) := by
  have hv : VoteReady { r with mCompares := sinsert r.mCompares hash } :=
    VoteReady_congr rfl rfl (VoteReady_of_valid r pos ours hpos hours)
  obtain ⟨r1, h1, a1, p1, k0, k1⟩ :=
    createDisputes_keys E { r with mCompares := sinsert r.mCompares hash } ours m hv
  refine ⟨r1, ?_, a1, p1, k0, k1⟩
  unfold mapCompleteDisputes
  rw [hpos]
  simp only [hnb, hours]
  have hne2 : (hash != pos.mCurrentHash) = true := by simpa using hne
  simp only [hne2, Bool.not_false, Bool.and_self, if_true]
  rw [← hpos]
  exact h1

theorem mapCompleteAdjust_keys (r : Round) (hash : uint256) (m : SHAMap) :
    (mapCompleteAdjust r hash m).mAcquired = mset r.mAcquired hash (some m) ∧
    (mapCompleteAdjust r hash m).mOurPosition = r.mOurPosition ∧
    ∀ t, disputed (mapCompleteAdjust r hash m) t = disputed r t := by
  unfold mapCompleteAdjust
  simp only
  split
  · refine ⟨rfl, rfl, ?_⟩
    intro t
    unfold disputed adjustCount
    simp only
    exact mfind_map_isSome r.mDisputes _ t
  · exact ⟨rfl, rfl, fun _ => rfl⟩

theorem mapCompleteInternal_covers (E : Env) (r : Round) (pos : LedgerProposal)
    (ours m : SHAMap) (hash : uint256) (acquired : Bool)
    (hpos : r.mOurPosition = some pos) (hnb : pos.isBowOut = false)
    (hne : hash ≠ pos.mCurrentHash)
    (hours : mfind r.mAcquired pos.mCurrentHash = some (some ours))
    (hnew : ∀ s, mfind r.mAcquired hash ≠ some (some s)) :
    ∃ r1, mapCompleteInternal E r hash (some m) acquired = some r1 ∧
      r1.mOurPosition = some pos ∧
      mfind r1.mAcquired pos.mCurrentHash = some (some ours) ∧
      mfind r1.mAcquired hash = some (some m) ∧
      r1.mPeerPositions = r.mPeerPositions ∧
      (∀ t, disputed r t = true → disputed r1 t = true) ∧
      (ours.hash ≠ m.hash →
        ∀ t, disputed r1 t = true ↔
          (disputed r t = true ∨ t ∈ (diffKeys ours m).take 16384)) := by
  have key : ∀ r0 : Round, r0.mOurPosition = some pos → r0.mDisputes = r.mDisputes →
      mfind r0.mAcquired pos.mCurrentHash = some (some ours) →
      ∃ r1, (match mapCompleteDisputes E r0 hash m with
          | none => none
          | some r4 => some (mapCompleteAdjust r4 hash m)) = some r1 ∧
        r1.mOurPosition = some pos ∧
        mfind r1.mAcquired pos.mCurrentHash = some (some ours) ∧
        mfind r1.mAcquired hash = some (some m) ∧
        (∀ t, disputed r t = true → disputed r1 t = true) ∧
        (ours.hash ≠ m.hash →
          ∀ t, disputed r1 t = true ↔
            (disputed r t = true ∨ t ∈ (diffKeys ours m).take 16384)) := by
    intro r0 hp0 hd0 ha0
    obtain ⟨r4, h4, a4, p4, k0, k1⟩ := mapCompleteDisputes_keys E r0 pos ours m hash hp0 hnb hne ha0
    obtain ⟨b1, b2, b3⟩ := mapCompleteAdjust_keys r4 hash m
    have hd : ∀ t, disputed r0 t = disputed r t := fun t => by unfold disputed; rw [hd0]
    refine ⟨mapCompleteAdjust r4 hash m, by rw [h4], b2.trans (p4.trans hp0), ?_, ?_, ?_, ?_⟩
    · rw [b1, mfind_mset, if_neg hne, a4]
      exact ha0
    · rw [b1, mfind_mset, if_pos rfl]
    · intro t ht
      rw [b3]
      exact k0 t (by rw [hd]; exact ht)
    · intro hh t
      rw [b3, k1 hh t, hd]
  have hpp : ∀ r1, mapCompleteInternal E r hash (some m) acquired = some r1 →
      r1.mPeerPositions = r.mPeerPositions := fun r1 h =>
    (acquireCore_fields (mapCompleteInternal_core E r r1 hash (some m) acquired h)).2.2.2.2.2.1
  have hmain : ∃ r1, mapCompleteInternal E r hash (some m) acquired = some r1 ∧
      r1.mOurPosition = some pos ∧
      mfind r1.mAcquired pos.mCurrentHash = some (some ours) ∧
      mfind r1.mAcquired hash = some (some m) ∧
      (∀ t, disputed r t = true → disputed r1 t = true) ∧
      (ours.hash ≠ m.hash →
        ∀ t, disputed r1 t = true ↔
          (disputed r t = true ∨ t ∈ (diffKeys ours m).take 16384)) := by
    unfold mapCompleteInternal
    simp only
    cases hf : mfind r.mAcquired hash with
    | none =>
      simp only [Option.isSome_none, Bool.false_eq_true, if_false]
      apply key
      · unfold sendHaveTxSet; simp only; split <;> exact hpos
      · unfold sendHaveTxSet; simp only; split <;> rfl
      · unfold sendHaveTxSet; simp only; split <;> exact hours
    | some o =>
      cases o with
      | some s0 => exact absurd hf (hnew s0)
      | none =>
        simp only [Option.isSome_some, if_true]
        have hera : mfind (merase r.mAcquired hash) pos.mCurrentHash = some (some ours) := by
          rw [mfind_merase, if_neg hne]; exact hours
        apply key
        · unfold sendHaveTxSet; simp only; split <;> exact hpos
        · unfold sendHaveTxSet; simp only; split <;> rfl
        · unfold sendHaveTxSet; simp only; split <;> exact hera
  obtain ⟨r1, h1, h2, h3, h4, h5, h6⟩ := hmain
  exact ⟨r1, h1, h2, h3, h4, hpp r1 h1, h5, h6⟩

theorem diffKeys_nil_left (h : uint256) (b : SHAMap) :
    diffKeys { hash := h, items := [] } b = b.items := by
  simp [diffKeys, SHAMap.hasItem]

/-- The cap of the comparison on a large set: our position is the empty
tx-set 170 and peer 3 proposes the tx-set 187 of 16385 transactions.  After
`mapComplete` delivers 187 both sets are validly acquired and transaction
16384 is in exactly one of them, but Disputes holds no DisputedTx for it. -/
theorem compare_cap_on_big_set :
    ∃ r1, mapComplete exEnv exEmptyRound 187 (some exBigSet) true = some r1 ∧
      positionSet r1 = some (some (some { hash := 170, items := [] })) ∧
      mfind r1.mPeerPositions 3 = some exPeerPos ∧ exPeerPos.mCurrentHash = 187 ∧
      mfind r1.mAcquired 187 = some (some exBigSet) ∧
      exBigSet.hasItem 16384 = true ∧
      ({ hash := 170, items := [] } : SHAMap).hasItem 16384 = false ∧
      disputed r1 16384 = false := by
  obtain ⟨r1, h1, h2, h3, h4, h5, _, h7⟩ :=
    mapCompleteInternal_covers exEnv exEmptyRound exPos { hash := 170, items := [] } exBigSet
      187 true rfl (by decide) (by decide) (by decide)
      (fun s hs => by
        have hnone : mfind exEmptyRound.mAcquired 187 = none := by decide
        rw [hnone] at hs
        cases hs)
  refine ⟨r1, h1, ?_, ?_, rfl, h4, ?_, rfl, ?_⟩
  · unfold positionSet
    rw [h2]
    simp only [Option.map_some']
    exact congrArg some h3
  · rw [h5]
    decide
  · simp [SHAMap.hasItem, exBigSet]
  · have hk := h7 (by decide) 16384
    rw [diffKeys_nil_left] at hk
    have hitems : exBigSet.items = List.range 16385 := by simp only [exBigSet]
    rw [hitems, List.take_range] at hk
    have hnot : ¬ (disputed exEmptyRound 16384 = true ∨
        16384 ∈ List.range (min 16384 16385)) := by
      rintro (h | h)
      · revert h; decide
      · rw [List.mem_range] at h
        omega
    cases hd : disputed r1 16384 with
    | false => rfl
    | true => exact absurd (hk.1 hd) hnot

theorem mfind_mem {K V : Type} [DecidableEq K] (m : List (K × V)) (k : K) (v : V)
    (h : mfind m k = some v) : (k, v) ∈ m := by
  induction m with
  | nil => cases h
  | cons e rest ih =>
    obtain ⟨a, b⟩ := e
    by_cases hk : a = k
    · simp only [mfind, hk, if_true, Option.some.injEq] at h
      rw [hk, h]
      exact List.mem_cons_self _ _
    · simp only [mfind, hk, if_false] at h
      exact List.mem_cons_of_mem _ (ih h)

theorem takeInitialDisputes_covers (E : Env) (S : SHAMap)
    (l : List (NodeID × LedgerProposal)) :
    ∀ (found : List uint256) (r : Round), VoteReady r →
      (∀ it ∈ l, mfind r.mAcquired it.2.mCurrentHash ≠ some none) →
      ∃ r1, takeInitialDisputes E S l found r = some r1 ∧
        r1.mAcquired = r.mAcquired ∧ r1.mOurPosition = r.mOurPosition ∧
        (∀ t, disputed r t = true → disputed r1 t = true) ∧
        (∀ it ∈ l, it.2.mCurrentHash ∉ found →
          ∀ s, mfind r.mAcquired it.2.mCurrentHash = some (some s) → S.hash ≠ s.hash →
            ∀ t ∈ (diffKeys S s).take 16384, disputed r1 t = true) := by
  induction l with
  | nil =>
    intro found r _ _
    exact ⟨r, rfl, rfl, rfl, fun _ h => h, fun it hit => nomatch hit⟩
  | cons it rest ih =>
    intro found r hv hf
    have hfrest : ∀ x ∈ rest, mfind r.mAcquired x.2.mCurrentHash ≠ some none :=
      fun x hx => hf x (List.mem_cons_of_mem _ hx)
    by_cases hin : it.2.mCurrentHash ∈ found
    · obtain ⟨r1, h1, a1, p1, k0, k1⟩ := ih found r hv hfrest
      refine ⟨r1, ?_, a1, p1, k0, ?_⟩
      · simp only [takeInitialDisputes, hin, if_true]
        exact h1
      · intro x hx hnf s hs hne t ht
        rcases List.mem_cons.1 hx with rfl | hx
        · exact absurd hin hnf
        · exact k1 x hx hnf s hs hne t ht
    · cases ha : mfind r.mAcquired it.2.mCurrentHash with
      | none =>
        obtain ⟨r1, h1, a1, p1, k0, k1⟩ := ih (it.2.mCurrentHash :: found) r hv hfrest
        refine ⟨r1, ?_, a1, p1, k0, ?_⟩
        · simp only [takeInitialDisputes, hin, if_false, ha]
          exact h1
        · intro x hx hnf s hs hne t ht
          have hdiff : x.2.mCurrentHash ≠ it.2.mCurrentHash := by
            intro hsame
            rw [hsame, ha] at hs
            cases hs
          rcases List.mem_cons.1 hx with rfl | hx
          · exact absurd rfl hdiff
          · exact k1 x hx (by simp [hdiff, hnf]) s hs hne t ht
      | some o =>
        cases o with
        | none => exact absurd ha (hf it (List.mem_cons_self _ _))
        | some s0 =>
          have hv2 : VoteReady { r with mCompares := sinsert r.mCompares s0.hash } :=
            VoteReady_congr rfl rfl hv
          obtain ⟨r2, h2, a2, p2, m2, c2⟩ := createDisputes_keys E _ S s0 hv2
          have hf2 : ∀ x ∈ rest, mfind r2.mAcquired x.2.mCurrentHash ≠ some none := by
            intro x hx
            rw [a2]
            exact hfrest x hx
          obtain ⟨r1, h1, a1, p1, k0, k1⟩ :=
            ih (it.2.mCurrentHash :: found) r2 (VoteReady_congr p2 a2 hv2) hf2
          refine ⟨r1, ?_, a1.trans a2, p1.trans p2, fun t ht => k0 t (m2 t ht), ?_⟩
          · simp only [takeInitialDisputes, hin, if_false, ha, h2]
            exact h1
          · intro x hx hnf s hs hne t ht
            have hcase : x.2.mCurrentHash = it.2.mCurrentHash → disputed r1 t = true := by
              intro hsame
              rw [hsame, ha] at hs
              cases hs
              exact k0 t ((c2 hne t).2 (Or.inr ht))
            rcases List.mem_cons.1 hx with rfl | hx
            · exact hcase rfl
            · by_cases hsame : x.2.mCurrentHash = it.2.mCurrentHash
              · exact hcase hsame
              · exact k1 x hx (by simp [hsame, hnf]) s (by rw [a2]; exact hs) hne t ht

theorem mem_take_diffKeys (a b : SHAMap) (hlen : (diffKeys a b).length ≤ 16384) (t : uint256)
    (h : a.hasItem t ≠ b.hasItem t) : t ∈ (diffKeys a b).take 16384 := by
  rw [List.take_of_length_le hlen, mem_diffKeys]
  unfold SHAMap.hasItem at h
  by_cases ha : t ∈ a.items
  · by_cases hb : t ∈ b.items
    · simp [ha, hb] at h
    · exact Or.inl ⟨ha, hb⟩
  · by_cases hb : t ∈ b.items
    · exact Or.inr ⟨hb, ha⟩
    · simp [ha, hb] at h

/-! ## Close-time votes and invalid tx-sets -/

/-- C21: `peerPosition` touches CloseTimeVotes only for a proposal that it
accepts, that is not a bow-out and that is INITIAL: then the count of the
proposal's close time (0 if there was none) grows by exactly 1 and the count
of every other close time is what it was; in every other case CloseTimeVotes
is unchanged. -/
theorem close_time_votes_frame (E : Env) (r : Round) (p : LedgerProposal) :
    ((peerPosition E r p).1 = true ∧ p.isBowOut = false ∧ p.isInitial = true →
      ∀ t, mfind (peerPosition E r p).2.mCloseTimes t =
        if t = p.mCloseTime then some ((mfind r.mCloseTimes t).getD 0 + 1)
        else mfind r.mCloseTimes t) ∧
    (¬ ((peerPosition E r p).1 = true ∧ p.isBowOut = false ∧ p.isInitial = true) →
      (peerPosition E r p).2.mCloseTimes = r.mCloseTimes) := by
  by_cases hd : p.mPeerID ∈ r.mDeadNodes
  · rw [peerPosition_dead E r p hd]
    exact ⟨fun h => Bool.noConfusion h.1, fun _ => rfl⟩
  · cases hs : staleProposal r p with
    | true =>
      rw [peerPosition_stale E r p hs]
      exact ⟨fun h => Bool.noConfusion h.1, fun _ => rfl⟩
    | false =>
      cases hb : p.isBowOut with
      | true =>
        rw [peerPosition_bowOut E r p hd hs hb]
        exact ⟨fun h => absurd h.2.1 (by decide), fun _ => rfl⟩
      | false =>
        obtain ⟨h1, _, _, _, h5⟩ := peerPosition_store E r p hd hs hb
        constructor
        · rintro ⟨_, _, hi⟩ t
          rw [h5, if_pos hi, mfind_mset]
          by_cases ht : t = p.mCloseTime
          · subst ht
            simp
          · have ht2 : ¬ p.mCloseTime = t := fun h => ht h.symm
            simp [ht, ht2]
        · intro hn
          have hi : ¬ p.isInitial = true := fun hi => hn ⟨h1, rfl, hi⟩
          rw [h5, if_neg hi]

/-- Witness of C21: the INITIAL proposal of peer 3 with close time 104 is
accepted by the fresh round and is the first vote for 104; the position
of peer 3 with sequence number 5 is accepted and leaves the votes alone. -/
theorem close_time_votes_frame_witness :
    mfind (peerPosition exEnv exFresh { exPeerPos with mProposeSeq := 0 }).2.mCloseTimes 104 =
      (if (104 : Nat) = 104 then some ((mfind exFresh.mCloseTimes 104).getD 0 + 1)
       else mfind exFresh.mCloseTimes 104) ∧
    (peerPosition exEnv exFresh exPeerPos).2.mCloseTimes = exFresh.mCloseTimes :=
  ⟨(close_time_votes_frame exEnv exFresh { exPeerPos with mProposeSeq := 0 }).1
      ⟨by decide, by decide, by decide⟩ 104,
   (close_time_votes_frame exEnv exFresh exPeerPos).2 (by decide)⟩

/-- C22: `mapComplete` with an invalid map for the hash `h` returns, and the
round it leaves is the round before with the failed marker stored for `h` in
AcquiredSets: every other entry of AcquiredSets, the disputes with all their
votes, our position and the messages sent are what they were. -/
theorem invalid_map_records_failed (E : Env) (r : Round) (h : uint256) (acquired : Bool) :
    mapComplete E r h none acquired = some { r with mAcquired := mset r.mAcquired h none } ∧
    (∀ k, mfind (mset r.mAcquired h none) k =
      if k = h then some none else mfind r.mAcquired k) ∧
    ({ r with mAcquired := mset r.mAcquired h none } : Round).mDisputes = r.mDisputes ∧
    ({ r with mAcquired := mset r.mAcquired h none } : Round).mOurPosition = r.mOurPosition ∧
    ({ r with mAcquired := mset r.mAcquired h none } : Round).sent = r.sent ∧
    ({ r with mAcquired := mset r.mAcquired h none } : Round).givenSets = r.givenSets := by
  refine ⟨rfl, ?_, rfl, rfl, rfl, rfl⟩
  intro k
  rw [mfind_mset]
  by_cases hk : k = h
  · rw [if_pos hk, if_pos hk.symm]
  · rw [if_neg hk, if_neg (fun e => hk e.symm)]

/-! ## The selection of the prior ledger -/

theorem select_fold_spec (prev : uint256) (l : List (uint256 × Int)) :
    ∀ acc : uint256 × Int,
      acc.2 ≤ (l.foldl
        (fun acc it =>
          if it.2 > acc.2 || (it.2 == acc.2 && it.1 == prev) then (it.1, it.2) else acc) acc).2 ∧
      (∀ it ∈ l, it.2 ≤ (l.foldl
        (fun acc it =>
          if it.2 > acc.2 || (it.2 == acc.2 && it.1 == prev) then (it.1, it.2) else acc) acc).2) ∧
      (l.foldl
        (fun acc it =>
          if it.2 > acc.2 || (it.2 == acc.2 && it.1 == prev) then (it.1, it.2) else acc) acc = acc ∨
       (l.foldl
        (fun acc it =>
          if it.2 > acc.2 || (it.2 == acc.2 && it.1 == prev) then (it.1, it.2) else acc) acc ∈ l ∧
        (acc.2 < (l.foldl
          (fun acc it =>
            if it.2 > acc.2 || (it.2 == acc.2 && it.1 == prev) then (it.1, it.2) else acc) acc).2 ∨
         (l.foldl
          (fun acc it =>
            if it.2 > acc.2 || (it.2 == acc.2 && it.1 == prev) then (it.1, it.2) else acc) acc).1 =
           prev))) := by
  induction l with
  | nil =>
    intro acc
    exact ⟨le_refl _, (fun it hit => nomatch hit), Or.inl rfl⟩
  | cons it rest ih =>
    intro acc
    rw [List.foldl_cons]
    by_cases ht : (it.2 > acc.2 || (it.2 == acc.2 && it.1 == prev)) = true
    · rw [if_pos ht]
      obtain ⟨h1, h2, h3⟩ := ih (it.1, it.2)
      have hle : acc.2 ≤ it.2 := by
        simp only [gt_iff_lt, Bool.or_eq_true, decide_eq_true_eq, Bool.and_eq_true,
          beq_iff_eq] at ht
        rcases ht with h | ⟨h, _⟩
        · exact le_of_lt h
        · exact le_of_eq h.symm
      have hwhy : acc.2 < it.2 ∨ it.1 = prev := by
        simp only [gt_iff_lt, Bool.or_eq_true, decide_eq_true_eq, Bool.and_eq_true,
          beq_iff_eq] at ht
        rcases ht with h | ⟨_, h⟩
        · exact Or.inl h
        · exact Or.inr h
      refine ⟨le_trans hle h1, ?_, ?_⟩
      · intro x hx
        rcases List.mem_cons.1 hx with rfl | hx
        · exact h1
        · exact h2 x hx
      · right
        rcases h3 with h3 | ⟨h3, h4⟩
        · rw [h3]
          exact ⟨List.mem_cons_self _ _, hwhy⟩
        · refine ⟨List.mem_cons_of_mem _ h3, ?_⟩
          rcases h4 with h4 | h4
          · exact Or.inl (lt_of_le_of_lt hle h4)
          · exact Or.inr h4
    · rw [if_neg ht]
      obtain ⟨h1, h2, h3⟩ := ih acc
      have hle : it.2 ≤ acc.2 := by
        simp only [gt_iff_lt, Bool.or_eq_true, decide_eq_true_eq, Bool.and_eq_true,
          beq_iff_eq, not_or, not_lt] at ht
        exact ht.1
      refine ⟨h1, ?_, ?_⟩
      · intro x hx
        rcases List.mem_cons.1 hx with rfl | hx
        · exact le_trans hle h1
        · exact h2 x hx
      · rcases h3 with h3 | ⟨h3, h4⟩
        · exact Or.inl h3
        · exact Or.inr ⟨List.mem_cons_of_mem _ h3, h4⟩

theorem select_fold_prev (prev : uint256) (c : Int) (l : List (uint256 × Int)) :
    ∀ acc : uint256 × Int, acc.2 ≤ c → (∀ it ∈ l, it.2 ≤ c) →
      ((prev, c) ∈ l ∨ acc = (prev, c)) →
      l.foldl
        (fun acc it =>
          if it.2 > acc.2 || (it.2 == acc.2 && it.1 == prev) then (it.1, it.2) else acc) acc =
        (prev, c) := by
  induction l with
  | nil =>
    intro acc _ _ h
    rcases h with h | h
    · cases h
    · exact h
  | cons it rest ih =>
    intro acc hacc hall h
    rw [List.foldl_cons]
    have hit : it.2 ≤ c := hall it (List.mem_cons_self _ _)
    have hrest : ∀ x ∈ rest, x.2 ≤ c := fun x hx => hall x (List.mem_cons_of_mem _ hx)
    by_cases ht : (it.2 > acc.2 || (it.2 == acc.2 && it.1 == prev)) = true
    · rw [if_pos ht]
      apply ih (it.1, it.2) hit hrest
      rcases h with h | h
      · rcases List.mem_cons.1 h with h | h
        · right
          rw [← h]
        · exact Or.inl h
      · right
        simp only [gt_iff_lt, Bool.or_eq_true, decide_eq_true_eq, Bool.and_eq_true,
          beq_iff_eq] at ht
        rw [h] at ht
        simp only at ht
        rcases ht with ht | ⟨h1, h2⟩
        · exact absurd ht (not_lt.2 hit)
        · rw [h1, h2]
    · rw [if_neg ht]
      apply ih acc hacc hrest
      rcases h with h | h
      · rcases List.mem_cons.1 h with h | h
        · exfalso
          apply ht
          rw [← h]
          simp only [gt_iff_lt, Bool.or_eq_true, decide_eq_true_eq, Bool.and_eq_true,
            beq_iff_eq, and_true]
          rcases lt_or_eq_of_le hacc with h1 | h1
          · exact Or.inl h1
          · exact Or.inr h1.symm
        · exact Or.inl h
      · exact Or.inr h

theorem checkLCLSelect_nonpos (prev : uint256) (l : List (uint256 × Int))
    (h : ∀ it ∈ l, it.2 ≤ 0) : checkLCLSelect prev l = (prev, 0) :=
  select_fold_prev prev 0 l (prev, 0) (le_refl _) h (Or.inr rfl)

theorem checkLCLSelect_prev_max (prev : uint256) (c : Int) (l : List (uint256 × Int))
    (hmem : (prev, c) ∈ l) (hmax : ∀ it ∈ l, it.2 ≤ c) :
    checkLCLSelect prev l = (prev, max c 0) := by
  by_cases hc : 0 ≤ c
  · rw [max_eq_left hc]
    exact select_fold_prev prev c l (prev, 0) hc hmax (Or.inl hmem)
  · have hc2 : c ≤ 0 := le_of_lt (not_le.1 hc)
    rw [max_eq_right hc2]
    exact checkLCLSelect_nonpos prev l (fun it hit => le_trans (hmax it hit) hc2)

theorem checkLCL_same (T : LedgerTiming) (E : Env) (vals : List (uint256 × Int)) (r : Round)
    (h : (checkLCLSelect r.mPrevLedgerHash vals).1 = r.mPrevLedgerHash) :
    checkLCL T E vals r =
      if r.mPreviousLedger.hash ≠ r.mPrevLedgerHash then
        handleLCLLedger T E r r.mPrevLedgerHash
      else r := by
  unfold checkLCL
  simp only [h, ne_eq, not_true_eq_false, if_false]
  split
  · unfold handleLCL handleLCLSwitch
    simp
  · rfl

theorem checkLCLSelect_spec (prev : uint256) (l : List (uint256 × Int)) :
    0 ≤ (checkLCLSelect prev l).2 ∧
    (∀ it ∈ l, it.2 ≤ (checkLCLSelect prev l).2) ∧
    (checkLCLSelect prev l = (prev, 0) ∨
      (checkLCLSelect prev l ∈ l ∧
        (0 < (checkLCLSelect prev l).2 ∨ (checkLCLSelect prev l).1 = prev))) :=
  select_fold_spec prev l (prev, 0)

theorem checkLCLSelect_perm_prev (prev : uint256) (l1 l2 : List (uint256 × Int))
    (hperm : l1.Perm l2) (h : (checkLCLSelect prev l1).1 = prev) :
    checkLCLSelect prev l2 = checkLCLSelect prev l1 := by
  obtain ⟨h0, hmax, hsel⟩ := checkLCLSelect_spec prev l1
  rcases hsel with hsel | ⟨hsel, _⟩
  · rw [hsel] at hmax
    rw [hsel]
    exact checkLCLSelect_nonpos prev l2 (fun it hit => hmax it (hperm.mem_iff.2 hit))
  · have heq : checkLCLSelect prev l1 = (prev, (checkLCLSelect prev l1).2) :=
      Prod.ext h rfl
    rw [heq] at hsel
    have h2 := checkLCLSelect_prev_max prev (checkLCLSelect prev l1).2 l2
      (hperm.mem_iff.1 hsel) (fun it hit => hmax it (hperm.mem_iff.2 hit))
    rw [max_eq_left h0] at h2
    rw [h2, ← heq]

/-- C24: the count that `checkLCL` ends its selection loop with is at least
the count of every entry of the validation map, and the selected ledger is an
entry of the map with that count, unless no entry has a positive count, when
the held `mPrevLedgerHash` is kept.  When the held `mPrevLedgerHash` has an
entry whose count is maximal, or no count is positive (also for an empty
map), the selected ledger is `mPrevLedgerHash`; and then `checkLCL` switches
nothing: the prior-ledger hash, the peer positions, the disputes, our position
and `mProposing` are what they were. -/
theorem selection_prefers_held_ledger (T : LedgerTiming) (E : Env) (r : Round)
    (vals : List (uint256 × Int)) :
    (∀ it ∈ vals, it.2 ≤ (checkLCLSelect r.mPrevLedgerHash vals).2) ∧
    (checkLCLSelect r.mPrevLedgerHash vals ∈ vals ∨
      ((∀ it ∈ vals, it.2 ≤ 0) ∧
        checkLCLSelect r.mPrevLedgerHash vals = (r.mPrevLedgerHash, 0))) ∧
    (∀ c, (r.mPrevLedgerHash, c) ∈ vals → (∀ it ∈ vals, it.2 ≤ c) →
      (checkLCLSelect r.mPrevLedgerHash vals).1 = r.mPrevLedgerHash) ∧
    ((∀ it ∈ vals, it.2 ≤ 0) →
      (checkLCLSelect r.mPrevLedgerHash vals).1 = r.mPrevLedgerHash) ∧
    ((checkLCLSelect r.mPrevLedgerHash vals).1 = r.mPrevLedgerHash →
      (checkLCL T E vals r).mPrevLedgerHash = r.mPrevLedgerHash ∧
      (checkLCL T E vals r).mPeerPositions = r.mPeerPositions ∧
      (checkLCL T E vals r).mDisputes = r.mDisputes ∧
      (checkLCL T E vals r).mOurPosition = r.mOurPosition ∧
      (checkLCL T E vals r).mProposing = r.mProposing) := by
  obtain ⟨_, hmax, hsel⟩ := checkLCLSelect_spec r.mPrevLedgerHash vals
  refine ⟨hmax, ?_, ?_, ?_, ?_⟩
  · rcases hsel with hsel | ⟨hsel, _⟩
    · right
      refine ⟨?_, hsel⟩
      intro it hit
      have := hmax it hit
      rw [hsel] at this
      exact this
    · exact Or.inl hsel
  · intro c hmem hc
    rw [checkLCLSelect_prev_max r.mPrevLedgerHash c vals hmem hc]
  · intro hz
    rw [checkLCLSelect_nonpos r.mPrevLedgerHash vals hz]
  · intro hs
    rw [checkLCL_same T E vals r hs]
    split
    · unfold handleLCLLedger
      split
      · exact ⟨rfl, rfl, rfl, rfl, rfl⟩
      · split
        · split <;> exact ⟨rfl, rfl, rfl, rfl, rfl⟩
        · exact ⟨rfl, rfl, rfl, rfl, rfl⟩
    · exact ⟨rfl, rfl, rfl, rfl, rfl⟩

/-- Witness of C24: the fresh round holds the prior ledger 1000; the map gives
three validations to ledger 2000 and three to ledger 1000.  The tie goes to
1000 and nothing is switched. -/
theorem selection_prefers_held_ledger_witness :
    (checkLCLSelect exFresh.mPrevLedgerHash [(2000, 3), (1000, 3)]).1 =
      exFresh.mPrevLedgerHash ∧
    ((checkLCL exTiming exEnv [(2000, 3), (1000, 3)] exFresh).mPrevLedgerHash =
        exFresh.mPrevLedgerHash ∧
      (checkLCL exTiming exEnv [(2000, 3), (1000, 3)] exFresh).mPeerPositions =
        exFresh.mPeerPositions ∧
      (checkLCL exTiming exEnv [(2000, 3), (1000, 3)] exFresh).mDisputes = exFresh.mDisputes ∧
      (checkLCL exTiming exEnv [(2000, 3), (1000, 3)] exFresh).mOurPosition =
        exFresh.mOurPosition ∧
      (checkLCL exTiming exEnv [(2000, 3), (1000, 3)] exFresh).mProposing =
        exFresh.mProposing) :=
  ⟨(selection_prefers_held_ledger exTiming exEnv exFresh [(2000, 3), (1000, 3)]).2.2.1 3
      (by decide) (by decide),
   (selection_prefers_held_ledger exTiming exEnv exFresh [(2000, 3), (1000, 3)]).2.2.2.2
      (by decide)⟩

/-- Counterexample to C29: the validation map gives three validations each to
the ledgers 2000 and 3000 and none to the held ledger 1000.  Iterated in one
order the loop selects 2000, in the other order 3000, and `checkLCL` switches
the fresh round to a different prior ledger. -/
theorem selection_depends_on_order :
    List.Perm [((2000 : uint256), (3 : Int)), (3000, 3)] [(3000, 3), (2000, 3)] ∧
    checkLCLSelect 1000 [(2000, 3), (3000, 3)] = (2000, 3) ∧
    checkLCLSelect 1000 [(3000, 3), (2000, 3)] = (3000, 3) ∧
    exFresh.mPrevLedgerHash = 1000 ∧
    (checkLCL exTiming exEnv [(2000, 3), (3000, 3)] exFresh).mPrevLedgerHash = 2000 ∧
    (checkLCL exTiming exEnv [(3000, 3), (2000, 3)] exFresh).mPrevLedgerHash = 3000 :=
  ⟨List.Perm.swap _ _ _, by decide, by decide, by decide, by decide, by decide⟩

theorem select_fold_stays (prev : uint256) (l : List (uint256 × Int)) :
    ∀ acc : uint256 × Int, (∀ it ∈ l, it.2 ≤ acc.2) → (prev, acc.2) ∉ l →
      l.foldl
        (fun acc it =>
          if it.2 > acc.2 || (it.2 == acc.2 && it.1 == prev) then (it.1, it.2) else acc) acc =
        acc := by
  induction l with
  | nil => intro acc _ _; rfl
  | cons it rest ih =>
    intro acc hall hno
    rw [List.foldl_cons]
    have hit : it.2 ≤ acc.2 := hall it (List.mem_cons_self _ _)
    have hnot : ¬ ((it.2 > acc.2 || (it.2 == acc.2 && it.1 == prev)) = true) := by
      simp only [gt_iff_lt, Bool.or_eq_true, decide_eq_true_eq, Bool.and_eq_true,
        beq_iff_eq, not_or, not_lt, not_and]
      refine ⟨hit, ?_⟩
      intro h2 h1
      apply hno
      have : it = (prev, acc.2) := Prod.ext h1 h2
      rw [← this]
      exact List.mem_cons_self _ _
    rw [if_neg hnot]
    exact ih acc (fun x hx => hall x (List.mem_cons_of_mem _ hx))
      (fun hx => hno (List.mem_cons_of_mem _ hx))

theorem select_fold_first (prev : uint256) (M : Int) (l : List (uint256 × Int)) :
    ∀ acc : uint256 × Int, acc.2 < M → (∀ it ∈ l, it.2 ≤ M) → (∃ it ∈ l, it.2 = M) →
      (prev, M) ∉ l →
      l.find? (fun it => decide (it.2 = M)) = some (l.foldl
        (fun acc it =>
          if it.2 > acc.2 || (it.2 == acc.2 && it.1 == prev) then (it.1, it.2) else acc)
        acc) := by
  induction l with
  | nil =>
    intro acc _ _ hex _
    obtain ⟨it, hit, _⟩ := hex
    cases hit
  | cons it rest ih =>
    intro acc hacc hall hex hno
    rw [List.foldl_cons]
    have hrest : ∀ x ∈ rest, x.2 ≤ M := fun x hx => hall x (List.mem_cons_of_mem _ hx)
    have hnorest : (prev, M) ∉ rest := fun hx => hno (List.mem_cons_of_mem _ hx)
    by_cases hm : it.2 = M
    · have htake : (it.2 > acc.2 || (it.2 == acc.2 && it.1 == prev)) = true := by
        simp only [gt_iff_lt, Bool.or_eq_true, decide_eq_true_eq, Bool.and_eq_true, beq_iff_eq]
        left
        rw [hm]
        exact hacc
      rw [if_pos htake]
      have hstay := select_fold_stays prev rest (it.1, it.2)
        (fun x hx => by rw [hm]; exact hrest x hx) (by rw [hm]; exact hnorest)
      rw [hstay]
      simp only [List.find?, hm, decide_True]
      rw [← hm]
    · have hlt : it.2 < M := lt_of_le_of_ne (hall it (List.mem_cons_self _ _)) hm
      have hex2 : ∃ x ∈ rest, x.2 = M := by
        obtain ⟨x, hx, hxm⟩ := hex
        rcases List.mem_cons.1 hx with rfl | hx
        · exact absurd hxm hm
        · exact ⟨x, hx, hxm⟩
      have hfind : (it :: rest).find? (fun it => decide (it.2 = M)) =
          rest.find? (fun it => decide (it.2 = M)) := by
        simp [List.find?, hm]
      rw [hfind]
      by_cases ht : (it.2 > acc.2 || (it.2 == acc.2 && it.1 == prev)) = true
      · rw [if_pos ht]
        exact ih (it.1, it.2) hlt hrest hex2 hnorest
      · rw [if_neg ht]
        exact ih acc hacc hrest hex2 hnorest

/-- C29 as amended: for two iteration orders of the same validation map the
selection loop of `checkLCL` ends with the same count, and it selects the held
`mPrevLedgerHash` in one order exactly when it does in the other, so the
decision whether to switch is the same; the selected ledger is the same
whenever at most one entry of the map attains the maximal count.  What the
loop selects: the held `mPrevLedgerHash` with count 0 when no count is
positive; the held `mPrevLedgerHash` when it has an entry with the maximal
count; and otherwise, the maximal count being positive, the first entry in
iteration order that attains the maximal count. -/
theorem selection_order_independent_up_to_ties (prev : uint256)
    (l1 l2 : List (uint256 × Int)) (hperm : l1.Perm l2) :
    (checkLCLSelect prev l1).2 = (checkLCLSelect prev l2).2 ∧
    ((checkLCLSelect prev l1).1 = prev ↔ (checkLCLSelect prev l2).1 = prev) ∧
    ((∀ a ∈ l1, ∀ b ∈ l1, (∀ it ∈ l1, it.2 ≤ a.2) → (∀ it ∈ l1, it.2 ≤ b.2) → a = b) →
      checkLCLSelect prev l1 = checkLCLSelect prev l2) ∧
    ((∀ it ∈ l1, it.2 ≤ 0) → checkLCLSelect prev l1 = (prev, 0)) ∧
    (∀ M, (prev, M) ∈ l1 → (∀ it ∈ l1, it.2 ≤ M) →
      checkLCLSelect prev l1 = (prev, max M 0)) ∧
    (∀ M, 0 < M → (∀ it ∈ l1, it.2 ≤ M) → (∃ it ∈ l1, it.2 = M) → (prev, M) ∉ l1 →
      l1.find? (fun it => decide (it.2 = M)) = some (checkLCLSelect prev l1)) := by
  obtain ⟨a0, amax, asel⟩ := checkLCLSelect_spec prev l1
  obtain ⟨b0, bmax, bsel⟩ := checkLCLSelect_spec prev l2
  have hcnt : (checkLCLSelect prev l1).2 = (checkLCLSelect prev l2).2 := by
    apply le_antisymm
    · rcases asel with h | ⟨h, _⟩
      · rw [h]; exact b0
      · exact bmax _ (hperm.mem_iff.1 h)
    · rcases bsel with h | ⟨h, _⟩
      · rw [h]; exact a0
      · exact amax _ (hperm.mem_iff.2 h)
  refine ⟨hcnt, ?_, ?_, ?_, ?_, ?_⟩
  · constructor
    · intro h
      rw [checkLCLSelect_perm_prev prev l1 l2 hperm h]
      exact h
    · intro h
      rw [checkLCLSelect_perm_prev prev l2 l1 hperm.symm h]
      exact h
  · intro huniq
    rcases asel with h | ⟨h, _⟩
    · exact (checkLCLSelect_perm_prev prev l1 l2 hperm (by rw [h])).symm
    · rcases bsel with h2 | ⟨h2, _⟩
      · exact checkLCLSelect_perm_prev prev l2 l1 hperm.symm (by rw [h2])
      · refine huniq _ h _ (hperm.mem_iff.2 h2) amax ?_
        intro it hit
        exact bmax it (hperm.mem_iff.1 hit)
  · exact checkLCLSelect_nonpos prev l1
  · exact fun M hmem hmax => checkLCLSelect_prev_max prev M l1 hmem hmax
  · intro M hM hmax hex hno
    exact select_fold_first prev M l1 (prev, 0) hM hmax hex hno

/-- Witness of C29 as amended: ledger 2000 alone has the maximal count 3, so
both orders select it; and of the two ledgers that tie on the maximal count 3
the first in iteration order, 2000, is selected. -/
theorem selection_order_independent_up_to_ties_witness :
    checkLCLSelect 1000 [(2000, 3), (3000, 2)] = checkLCLSelect 1000 [(3000, 2), (2000, 3)] ∧
    List.find? (fun it => decide (it.2 = 3)) [((2000 : uint256), (3 : Int)), (3000, 3)] =
      some (checkLCLSelect 1000 [(2000, 3), (3000, 3)]) :=
  ⟨(selection_order_independent_up_to_ties 1000 [(2000, 3), (3000, 2)] [(3000, 2), (2000, 3)]
      (List.Perm.swap _ _ _)).2.2.1 (by decide),
   (selection_order_independent_up_to_ties 1000 [(2000, 3), (3000, 3)] [(3000, 3), (2000, 3)]
      (List.Perm.swap _ _ _)).2.2.2.2.2 3 (by decide) (by decide) (by decide) (by decide)⟩

/-! ## The votes of a new dispute -/

theorem mfind_none_of_not_mem_keys {K V : Type} [DecidableEq K] (l : List (K × V)) (k : K)
    (h : k ∉ l.map Prod.fst) : mfind l k = none := by
  induction l with
  | nil => rfl
  | cons e rest ih =>
    obtain ⟨a, b⟩ := e
    simp only [List.map_cons, List.mem_cons, not_or] at h
    have hne : ¬ a = k := fun e => h.1 e.symm
    simp only [mfind, hne, if_false]
    exact ih h.2

theorem peerVotes_fold (acq : List (uint256 × Option SHAMap)) (tx : uint256)
    (l : List (NodeID × LedgerProposal)) (hnd : (l.map Prod.fst).Nodup) :
    ∀ d0 : DisputedTx,
      (l.foldl
        (fun t pit =>
          match mfind acq pit.2.mCurrentHash with
          | some (some s) => t.setVote pit.1 (s.hasItem tx)
          | _ => t) d0).mTransactionID = d0.mTransactionID ∧
      (l.foldl
        (fun t pit =>
          match mfind acq pit.2.mCurrentHash with
          | some (some s) => t.setVote pit.1 (s.hasItem tx)
          | _ => t) d0).mOurVote = d0.mOurVote ∧
      ∀ P, mfind (l.foldl
        (fun t pit =>
          match mfind acq pit.2.mCurrentHash with
          | some (some s) => t.setVote pit.1 (s.hasItem tx)
          | _ => t) d0).mVotes P =
        match mfind l P with
        | some p =>
          (match mfind acq p.mCurrentHash with
           | some (some s) => some (s.hasItem tx)
           | _ => mfind d0.mVotes P)
        | none => mfind d0.mVotes P := by
  induction l with
  | nil =>
    intro d0
    exact ⟨rfl, rfl, fun _ => rfl⟩
  | cons e rest ih =>
    intro d0
    obtain ⟨k, p⟩ := e
    simp only [List.map_cons, List.nodup_cons] at hnd
    rw [List.foldl_cons]
    cases ha : mfind acq p.mCurrentHash with
    | none =>
      simp only [ha]
      obtain ⟨h1, h2, h3⟩ := ih hnd.2 d0
      refine ⟨h1, h2, ?_⟩
      intro P
      rw [h3 P]
      by_cases hP : k = P
      · subst hP
        simp only [mfind, if_true, ha, mfind_none_of_not_mem_keys rest k hnd.1]
      · simp only [mfind, hP, if_false]
    | some o =>
      cases o with
      | none =>
        simp only [ha]
        obtain ⟨h1, h2, h3⟩ := ih hnd.2 d0
        refine ⟨h1, h2, ?_⟩
        intro P
        rw [h3 P]
        by_cases hP : k = P
        · subst hP
          simp only [mfind, if_true, ha, mfind_none_of_not_mem_keys rest k hnd.1]
        · simp only [mfind, hP, if_false]
      | some s =>
        simp only [ha]
        obtain ⟨h1, h2, h3⟩ := ih hnd.2 (d0.setVote k (s.hasItem tx))
        refine ⟨h1, h2, ?_⟩
        intro P
        rw [h3 P]
        by_cases hP : k = P
        · subst hP
          simp only [mfind, if_true, ha, mfind_none_of_not_mem_keys rest k hnd.1,
            DisputedTx.setVote, mfind_mset]
        · simp only [mfind, hP, if_false, DisputedTx.setVote, mfind_mset]

/-- C25: `addDisputedTransaction` on a round whose peer positions are a map
(one entry per peer) and in which the entry of AcquiredSets for our position,
if any, is not the failed marker.  For a transaction that is not yet disputed
the call returns and Disputes gains exactly one entry, for that transaction:
its our-vote is whether the transaction is in the acquired set of our
position (false when we have no position or no such set), and its votes are,
for each peer in PeerPositions whose position set is validly acquired,
whether the transaction is in that set, and no vote for any other peer.  For
a transaction that is already disputed the call leaves the round as it is. -/
theorem new_dispute_votes (E : Env) (r : Round) (tx : uint256)
    (hours : ∀ pos, r.mOurPosition = some pos →
      mfind r.mAcquired pos.mCurrentHash ≠ some none)
    (hkeys : (r.mPeerPositions.map Prod.fst).Nodup) :
    (mfind r.mDisputes tx = none →
      ∃ r1 d, addDisputedTransaction E r tx = some r1 ∧
        (∀ t, mfind r1.mDisputes t = if t = tx then some d else mfind r.mDisputes t) ∧
        d.mTransactionID = tx ∧
        d.mOurVote =
          (match r.mOurPosition with
           | some pos =>
             (match mfind r.mAcquired pos.mCurrentHash with
              | some (some s) => s.hasItem tx
              | _ => false)
           | none => false) ∧
        ∀ P, mfind d.mVotes P =
          match mfind r.mPeerPositions P with
          | some p =>
            (match mfind r.mAcquired p.mCurrentHash with
             | some (some s) => some (s.hasItem tx)
             | _ => none)
          | none => none) ∧
    ((mfind r.mDisputes tx).isSome = true → addDisputedTransaction E r tx = some r) := by
  constructor
  · intro hnew
    have hvote : ∃ v, ourVoteOn r tx = some v ∧
        v = (match r.mOurPosition with
           | some pos =>
             (match mfind r.mAcquired pos.mCurrentHash with
              | some (some s) => s.hasItem tx
              | _ => false)
           | none => false) := by
      unfold ourVoteOn
      cases hp : r.mOurPosition with
      | none => exact ⟨false, rfl, rfl⟩
      | some pos =>
        simp only
        cases ha : mfind r.mAcquired pos.mCurrentHash with
        | none => exact ⟨false, rfl, rfl⟩
        | some o =>
          cases o with
          | none => exact absurd ha (hours pos hp)
          | some s => exact ⟨s.hasItem tx, rfl, rfl⟩
    obtain ⟨v, hv, hveq⟩ := hvote
    obtain ⟨f1, f2, f3⟩ := peerVotes_fold r.mAcquired tx r.mPeerPositions hkeys
      { mTransactionID := tx, mOurVote := v, mVotes := [] }
    refine ⟨relayDisputed E
        { r with mDisputes := mset r.mDisputes tx (newDisputedTx r tx v) } tx,
      newDisputedTx r tx v, ?_, ?_, f1, f2.trans hveq, ?_⟩
    · unfold addDisputedTransaction
      rw [hnew, hv]
      rfl
    · intro t
      have hdis : (relayDisputed E
          { r with mDisputes := mset r.mDisputes tx (newDisputedTx r tx v) } tx).mDisputes =
          mset r.mDisputes tx (newDisputedTx r tx v) := by
        unfold relayDisputed; split <;> rfl
      rw [hdis, mfind_mset]
      by_cases ht : t = tx
      · rw [if_pos ht, if_pos ht.symm]
      · rw [if_neg ht, if_neg (fun e => ht e.symm)]
    · intro P
      have := f3 P
      unfold newDisputedTx
      rw [this]
      cases mfind r.mPeerPositions P with
      | none => rfl
      | some p =>
        simp only
        cases mfind r.mAcquired p.mCurrentHash with
        | none => rfl
        | some o => cases o <;> rfl
  · intro hd
    unfold addDisputedTransaction
    rw [if_pos hd]

/-- Witness of C25: in `exOpenRound` (no position yet, peer 3 proposes the
acquired set 187 that holds the transactions 1 and 2) the undisputed
transaction 2 gets a DisputedTx with our vote NO and the vote of peer 3. -/
theorem new_dispute_votes_witness :
    ∃ r1 d, addDisputedTransaction exEnv exOpenRound 2 = some r1 ∧
      (∀ t, mfind r1.mDisputes t = if t = 2 then some d else mfind exOpenRound.mDisputes t) ∧
      d.mTransactionID = 2 ∧
      d.mOurVote =
        (match exOpenRound.mOurPosition with
         | some pos =>
           (match mfind exOpenRound.mAcquired pos.mCurrentHash with
            | some (some s) => s.hasItem 2
            | _ => false)
         | none => false) ∧
      ∀ P, mfind d.mVotes P =
        match mfind exOpenRound.mPeerPositions P with
        | some p =>
          (match mfind exOpenRound.mAcquired p.mCurrentHash with
           | some (some s) => some (s.hasItem 2)
           | _ => none)
        | none => none :=
  (new_dispute_votes exEnv exOpenRound 2
    (fun pos hp =>
      Option.noConfusion (show (none : Option LedgerProposal) = some pos from hp))
    (by decide)).1 (by decide)

/-! ## The clock adjustment of `accept` -/

theorem voteTotal_cons (it : Nat × Int) (l : List (Nat × Int)) :
    voteTotal (it :: l) = it.1 * it.2.toNat + voteTotal l := by
  simp [voteTotal]

theorem voteCount_cons (it : Nat × Int) (l : List (Nat × Int)) :
    voteCount (it :: l) = it.2.toNat + voteCount l := by
  simp [voteCount]

theorem wrapInt32_id (x : Int) (h1 : -2 ^ 31 ≤ x) (h2 : x < 2 ^ 31) : wrapInt32 x = x := by
  unfold wrapInt32
  norm_num at h1 h2 ⊢
  omega

theorem wrapInt32_toInt32_sub (a b : Nat) (ha : a < 2 ^ 32) (hb : b < 2 ^ 32) :
    wrapInt32 (toInt32 a - toInt32 b) = wrapInt32 ((a : Int) - (b : Int)) := by
  unfold wrapInt32 toInt32
  rw [Nat.mod_eq_of_lt ha, Nat.mod_eq_of_lt hb]
  norm_num at ha hb ⊢
  split <;> split <;> omega

theorem closeOffset_fold (l : List (Nat × Int)) :
    ∀ (a : Nat) (c : Int), (∀ it ∈ l, 0 ≤ it.2) → 0 ≤ c →
      c + (voteCount l : Int) < 2 ^ 31 → a + voteTotal l < 2 ^ 64 →
      l.foldl
        (fun (acc : Nat × Int) (it : Nat × Int) =>
          ((acc.1 + (it.1 * (it.2 % 2 ^ 64).toNat) % 2 ^ 64) % 2 ^ 64, wrapInt32 (acc.2 + it.2)))
        (a, c) = (a + voteTotal l, c + (voteCount l : Int)) := by
  induction l with
  | nil =>
    intro a c _ _ _ _
    simp [voteTotal, voteCount]
  | cons it rest ih =>
    intro a c hb hc hcnt hlt
    rw [List.foldl_cons]
    have h0 : 0 ≤ it.2 := hb it (List.mem_cons_self _ _)
    rw [voteTotal_cons] at hlt
    rw [voteCount_cons] at hcnt
    have e4 : ((it.2.toNat : Nat) : Int) = it.2 := Int.toNat_of_nonneg h0
    push_cast at hcnt
    have h64 : it.2 < 2 ^ 64 := by
      have : (0 : Int) ≤ (voteCount rest : Int) := Int.ofNat_nonneg _
      norm_num at hcnt ⊢
      omega
    have e1 : it.2 % 2 ^ 64 = it.2 := Int.emod_eq_of_lt h0 h64
    have e2 : (it.1 * it.2.toNat) % 2 ^ 64 = it.1 * it.2.toNat :=
      Nat.mod_eq_of_lt (by omega)
    have e3 : (a + it.1 * it.2.toNat) % 2 ^ 64 = a + it.1 * it.2.toNat :=
      Nat.mod_eq_of_lt (by omega)
    have e5 : wrapInt32 (c + it.2) = c + it.2 := by
      have : (0 : Int) ≤ (voteCount rest : Int) := Int.ofNat_nonneg _
      apply wrapInt32_id
      · norm_num
        omega
      · norm_num at hcnt ⊢
        omega
    simp only [e1, e2, e3, e5]
    rw [ih (a + it.1 * it.2.toNat) (c + it.2)
      (fun x hx => hb x (List.mem_cons_of_mem _ hx)) (by omega) (by omega) (by omega)]
    rw [voteTotal_cons, voteCount_cons]
    refine Prod.ext ?_ ?_
    · simp only
      omega
    · simp only
      push_cast
      omega

theorem voteTotal_le (hi : Nat) (l : List (Nat × Int)) (h : ∀ it ∈ l, it.1 ≤ hi) :
    voteTotal l ≤ hi * voteCount l := by
  induction l with
  | nil => simp [voteTotal, voteCount]
  | cons it rest ih =>
    rw [voteTotal_cons, voteCount_cons, Nat.mul_add]
    exact Nat.add_le_add (Nat.mul_le_mul_right _ (h it (List.mem_cons_self _ _)))
      (ih (fun x hx => h x (List.mem_cons_of_mem _ hx)))

theorem voteTotal_ge (lo : Nat) (l : List (Nat × Int)) (h : ∀ it ∈ l, lo ≤ it.1) :
    lo * voteCount l ≤ voteTotal l := by
  induction l with
  | nil => simp [voteTotal, voteCount]
  | cons it rest ih =>
    rw [voteTotal_cons, voteCount_cons, Nat.mul_add]
    exact Nat.add_le_add (Nat.mul_le_mul_right _ (h it (List.mem_cons_self _ _)))
      (ih (fun x hx => h x (List.mem_cons_of_mem _ hx)))

theorem closeOffset_eq (T : Nat) (l : List (Nat × Int)) (lo hi : Nat)
    (hn : ∀ it ∈ l, 0 ≤ it.2) (hN : 1 + voteCount l < 2 ^ 31)
    (hlo : lo ≤ T) (hhi : T ≤ hi) (hb : ∀ it ∈ l, lo ≤ it.1 ∧ it.1 ≤ hi)
    (h32 : hi < 2 ^ 32) :
    closeOffset T l = some (wrapInt32 (closeOffsetSpec T l)) ∧
    (lo : Int) ≤ (T : Int) + closeOffsetSpec T l ∧
    (T : Int) + closeOffsetSpec T l ≤ (hi : Int) := by
  have hle := voteTotal_le hi l (fun it hit => (hb it hit).2)
  have hge := voteTotal_ge lo l (fun it hit => (hb it hit).1)
  have hprod : hi * voteCount l < 2 ^ 63 := by
    calc hi * voteCount l ≤ 2 ^ 32 * voteCount l := Nat.mul_le_mul_right _ (le_of_lt h32)
      _ < 2 ^ 32 * 2 ^ 31 := Nat.mul_lt_mul_of_pos_left (by omega) (by norm_num)
      _ = 2 ^ 63 := by norm_num
  have hcntI : (1 : Int) + (voteCount l : Int) < 2 ^ 31 := by
    have := Int.ofNat_lt.2 hN
    push_cast at this
    exact this
  have hfold := closeOffset_fold l T 1 hn (by norm_num) hcntI (by omega)
  have hq_hi : (T + voteTotal l + (1 + voteCount l) / 2) / (1 + voteCount l) ≤ hi := by
    apply Nat.le_of_lt_succ
    rw [Nat.div_lt_iff_lt_mul (by omega)]
    have : (hi + 1) * (1 + voteCount l) = hi + hi * voteCount l + (1 + voteCount l) := by ring
    rw [Nat.succ_eq_add_one, this]
    omega
  have hq_lo : lo ≤ (T + voteTotal l + (1 + voteCount l) / 2) / (1 + voteCount l) := by
    rw [Nat.le_div_iff_mul_le (by omega)]
    have : lo * (1 + voteCount l) = lo + lo * voteCount l := by ring
    rw [this]
    omega
  have hval : closeOffset T l = some (wrapInt32 (closeOffsetSpec T l)) := by
    unfold closeOffset closeOffsetSpec
    simp only [hfold]
    have hne : ¬ ((1 : Int) + (voteCount l : Int) = 0) := by
      have : (0 : Int) ≤ (voteCount l : Int) := Int.ofNat_nonneg _
      omega
    rw [if_neg hne]
    have t1 : Int.tdiv (1 + (voteCount l : Int)) 2 = (((1 + voteCount l) / 2 : Nat) : Int) := by
      rw [Int.tdiv_eq_ediv (by omega) (by norm_num)]
      push_cast
      rfl
    have t2 : (((1 + voteCount l) / 2 : Nat) : Int) % 2 ^ 64 =
        (((1 + voteCount l) / 2 : Nat) : Int) :=
      Int.emod_eq_of_lt (by omega) (by omega)
    have t3 : (1 + (voteCount l : Int)) % 2 ^ 64 = ((1 + voteCount l : Nat) : Int) := by
      rw [Int.emod_eq_of_lt (by omega) (by omega)]
      push_cast
      rfl
    have t4 : (T + voteTotal l + (1 + voteCount l) / 2) % 2 ^ 64 =
        T + voteTotal l + (1 + voteCount l) / 2 := Nat.mod_eq_of_lt (by omega)
    rw [t1, t2, t3, Int.toNat_ofNat, Int.toNat_ofNat, t4,
      wrapInt32_toInt32_sub _ T (by omega) (by omega)]
  refine ⟨hval, ?_, ?_⟩
  · unfold closeOffsetSpec
    have : ((lo : Nat) : Int) ≤
        (((T + voteTotal l + (1 + voteCount l) / 2) / (1 + voteCount l) : Nat) : Int) :=
      Int.ofNat_le.2 hq_lo
    omega
  · unfold closeOffsetSpec
    have : (((T + voteTotal l + (1 + voteCount l) / 2) / (1 + voteCount l) : Nat) : Int) ≤
        ((hi : Nat) : Int) := Int.ofNat_le.2 hq_hi
    omega

theorem accept_offset (T : LedgerTiming) (A : AcceptInputs) (r : Round) (set : SHAMap)
    (pos : LedgerProposal) (off : Int) (hpos : r.mOurPosition = some pos)
    (hoff : closeOffset r.mCloseTime r.mCloseTimes = some off) :
    ∃ r1 res, accept T A r set = some (r1, res) ∧
      res.closeOffset = (if r.mValidating && A.isCompatible then some off else none) := by
  have hct : ∃ ct, acceptCloseTime T r A.replay = some ct := by
    unfold acceptCloseTime
    rw [hpos]
    simp only
    cases A.replay with
    | some rp => exact ⟨_, rfl⟩
    | none =>
      simp only
      split <;> exact ⟨_, rfl⟩
  obtain ⟨⟨ct, cc⟩, hct⟩ := hct
  unfold accept
  rw [hct]
  simp only [statusChange]
  cases hv : r.mValidating <;> cases hc : A.isCompatible <;> cases hf : r.mConsensusFail <;>
    simp only [hoff, Bool.and_self, Bool.and_true, Bool.and_false, Bool.not_true,
      Bool.not_false, Bool.false_eq_true, if_false, if_true, Option.map_some'] <;>
    exact ⟨_, _, rfl, rfl⟩

/-- Counterexample to C26.  (a) `exLateRound` is validating, closed at
T = 700000000 and holds two votes for the close time 4294967295: the claim's
formula gives the offset 2396644863, `accept` hands -1898322433 to
`adjustCloseTime`, and T plus that offset is below T, the least of the times.
(b) With 2147483647 votes for the time 100 and T = 100 every voted time equals
T, but the vote count wraps and the offset is -100, not 0.  (c) A vote count
of -1 makes the divisor 0. -/
theorem close_offset_wraps :
    exLateRound.mCloseTime = 700000000 ∧ exLateRound.mCloseTimes = [(4294967295, 2)] ∧
    (exLateRound.mValidating && exAccept.isCompatible) = true ∧
    (accept exTiming exAccept exLateRound { hash := 170, items := [1] }).map
      (fun x => x.2.closeOffset) = some (some (-1898322433)) ∧
    closeOffsetSpec 700000000 [(4294967295, 2)] = 2396644863 ∧
    (700000000 : Int) + (-1898322433) < 700000000 ∧
    closeOffset 100 [(100, 2147483647)] = some (-100) ∧
    closeOffsetSpec 100 [(100, 2147483647)] = 0 ∧
    closeOffset 100 [(100, -1)] = none := by
  refine ⟨?_, ?_, ?_, ?_, ?_, ?_, ?_, ?_, ?_⟩ <;> decide

/-- C26 as amended: the node is validating (after the compatibility check),
no vote count is negative, there are fewer than 2^31 votes, and our close
time T and the voted close times are 32-bit values.  Let D be
floor((T + sum of t*n + floor(N/2)) / N) - T with N = 1 + sum of n.  Then
`accept` returns and the offset it hands to `adjustCloseTime` is D reduced to
the signed 32-bit range.  D is 0, and so is the offset, when CloseTimeVotes is
empty and when every voted time equals T; T + D lies between any two bounds
that enclose T and all the voted times; and the offset is D itself whenever D
fits the signed 32-bit range, as it does when T and all the voted times are
below 2^31. -/
theorem close_offset_wraps_rounded_mean (T : LedgerTiming) (A : AcceptInputs) (r : Round)
    (set : SHAMap) (pos : LedgerProposal)
    (hpos : r.mOurPosition = some pos)
    (hval : (r.mValidating && A.isCompatible) = true)
    (hT : r.mCloseTime < 2 ^ 32)
    (hvotes : ∀ it ∈ r.mCloseTimes, 0 ≤ it.2 ∧ it.1 < 2 ^ 32)
    (hN : 1 + voteCount r.mCloseTimes < 2 ^ 31) :
    (∃ r1 res, accept T A r set = some (r1, res) ∧
      res.closeOffset = some (wrapInt32 (closeOffsetSpec r.mCloseTime r.mCloseTimes))) ∧
    (r.mCloseTimes = [] →
      closeOffsetSpec r.mCloseTime r.mCloseTimes = 0 ∧
      wrapInt32 (closeOffsetSpec r.mCloseTime r.mCloseTimes) = 0) ∧
    ((∀ it ∈ r.mCloseTimes, it.1 = r.mCloseTime) →
      closeOffsetSpec r.mCloseTime r.mCloseTimes = 0 ∧
      wrapInt32 (closeOffsetSpec r.mCloseTime r.mCloseTimes) = 0) ∧
    (∀ lo hi : Nat, lo ≤ r.mCloseTime → r.mCloseTime ≤ hi →
      (∀ it ∈ r.mCloseTimes, lo ≤ it.1 ∧ it.1 ≤ hi) →
      (lo : Int) ≤ (r.mCloseTime : Int) + closeOffsetSpec r.mCloseTime r.mCloseTimes ∧
      (r.mCloseTime : Int) + closeOffsetSpec r.mCloseTime r.mCloseTimes ≤ (hi : Int)) ∧
    (-2 ^ 31 ≤ closeOffsetSpec r.mCloseTime r.mCloseTimes →
      closeOffsetSpec r.mCloseTime r.mCloseTimes < 2 ^ 31 →
      wrapInt32 (closeOffsetSpec r.mCloseTime r.mCloseTimes) =
        closeOffsetSpec r.mCloseTime r.mCloseTimes) ∧
    (r.mCloseTime < 2 ^ 31 → (∀ it ∈ r.mCloseTimes, it.1 < 2 ^ 31) →
      wrapInt32 (closeOffsetSpec r.mCloseTime r.mCloseTimes) =
        closeOffsetSpec r.mCloseTime r.mCloseTimes) := by
  have hn : ∀ it ∈ r.mCloseTimes, 0 ≤ it.2 := fun it hit => (hvotes it hit).1
  have hbounds : ∀ lo hi : Nat, lo ≤ r.mCloseTime → r.mCloseTime ≤ hi →
      (∀ it ∈ r.mCloseTimes, lo ≤ it.1 ∧ it.1 ≤ hi) →
      closeOffset r.mCloseTime r.mCloseTimes =
        some (wrapInt32 (closeOffsetSpec r.mCloseTime r.mCloseTimes)) ∧
      (lo : Int) ≤ (r.mCloseTime : Int) + closeOffsetSpec r.mCloseTime r.mCloseTimes ∧
      (r.mCloseTime : Int) + closeOffsetSpec r.mCloseTime r.mCloseTimes ≤ (hi : Int) := by
    intro lo hi hlo hhi hb
    have hb2 : ∀ it ∈ r.mCloseTimes, lo ≤ it.1 ∧ it.1 ≤ min hi (2 ^ 32 - 1) := by
      intro it hit
      have h1 := hb it hit
      have h2 := (hvotes it hit).2
      exact ⟨h1.1, le_min h1.2 (by omega)⟩
    obtain ⟨e, b1, b2⟩ := closeOffset_eq r.mCloseTime r.mCloseTimes lo (min hi (2 ^ 32 - 1)) hn hN
      hlo (le_min hhi (by omega)) hb2 (lt_of_le_of_lt (min_le_right _ _) (by norm_num))
    refine ⟨e, b1, le_trans b2 ?_⟩
    exact Int.ofNat_le.2 (min_le_left _ _)
  have hzero : (∀ it ∈ r.mCloseTimes, it.1 = r.mCloseTime) →
      closeOffsetSpec r.mCloseTime r.mCloseTimes = 0 ∧
      wrapInt32 (closeOffsetSpec r.mCloseTime r.mCloseTimes) = 0 := by
    intro hall
    obtain ⟨_, b1, b2⟩ := hbounds r.mCloseTime r.mCloseTime (le_refl _) (le_refl _)
      (fun it hit => ⟨le_of_eq (hall it hit).symm, le_of_eq (hall it hit)⟩)
    have hz : closeOffsetSpec r.mCloseTime r.mCloseTimes = 0 := by omega
    refine ⟨hz, ?_⟩
    rw [hz]
    decide
  have hfit : -2 ^ 31 ≤ closeOffsetSpec r.mCloseTime r.mCloseTimes →
      closeOffsetSpec r.mCloseTime r.mCloseTimes < 2 ^ 31 →
      wrapInt32 (closeOffsetSpec r.mCloseTime r.mCloseTimes) =
        closeOffsetSpec r.mCloseTime r.mCloseTimes :=
    fun h1 h2 => wrapInt32_id _ h1 h2
  refine ⟨?_, ?_, hzero, ?_, hfit, ?_⟩
  · obtain ⟨e, _, _⟩ := hbounds 0 (2 ^ 32 - 1) (Nat.zero_le _) (by omega)
      (fun it hit => ⟨Nat.zero_le _, by have := (hvotes it hit).2; omega⟩)
    obtain ⟨r1, res, h1, h2⟩ := accept_offset T A r set pos _ hpos e
    refine ⟨r1, res, h1, ?_⟩
    rw [h2, if_pos hval]
  · intro hempty
    apply hzero
    rw [hempty]
    intro it hit
    cases hit
  · intro lo hi hlo hhi hb
    exact (hbounds lo hi hlo hhi hb).2
  · intro hT31 hv31
    obtain ⟨_, b1, b2⟩ := hbounds 0 (2 ^ 31 - 1) (Nat.zero_le _) (by omega)
      (fun it hit => ⟨Nat.zero_le _, by have := hv31 it hit; omega⟩)
    apply hfit
    · have : (0 : Int) ≤ (r.mCloseTime : Int) := Int.ofNat_nonneg _
      have h3 : (r.mCloseTime : Int) < 2 ^ 31 := by exact_mod_cast hT31
      norm_num at h3 b1 b2 ⊢
      omega
    · have : (0 : Int) ≤ (r.mCloseTime : Int) := Int.ofNat_nonneg _
      norm_num at b1 b2 ⊢
      omega

/-- Witness of C26 as amended: `exVotesRound` closed at 104 and holds two
votes for 104 and one for 110; the mean (104 + 208 + 110 + 2) / 4 is 106 and
the offset handed to `adjustCloseTime` is 2. -/
theorem close_offset_wraps_rounded_mean_witness :
    (∃ r1 res, accept exTiming exAccept exVotesRound { hash := 170, items := [1] } =
        some (r1, res) ∧
      res.closeOffset =
        some (wrapInt32 (closeOffsetSpec exVotesRound.mCloseTime exVotesRound.mCloseTimes))) ∧
    wrapInt32 (closeOffsetSpec exVotesRound.mCloseTime exVotesRound.mCloseTimes) = 2 :=
  ⟨(close_offset_wraps_rounded_mean exTiming exAccept exVotesRound
      { hash := 170, items := [1] } exPos rfl (by decide) (by decide) (by decide)
      (by decide)).1,
   by decide⟩

/-! ## Retriable transactions and the initial position -/

/-- C27, the code at its failing input.  `exDisputed` is in establish with our
position on the set 170 (transaction 1), peer 3's set 187 (transactions 1 and
2) acquired, and transaction 2 disputed with our vote NO.  The record
(187, 1000, 110) is published; `stateEstablish` adopts it, the round is
finished with its position on 187 and our vote on transaction 2 is still NO.
`beginAccept` hands the set 187 to `accept`, which applies the transactions 1
and 2 and also puts transaction 2 into the retriable set. -/
theorem retriable_holds_applied_tx :
    exDisputed.state_ = State.establish ∧
    positionSet exDisputed = some (some (some { hash := 170, items := [1] })) ∧
    exDisputed.mDisputes.map (fun it => (it.1, it.2.mOurVote)) = [(2, false)] ∧
    (stateEstablish exTiming noFaults exZkOther exDisputed).map
      (fun res => (res.1.state_, res.1.mOurPosition.map (fun p => p.mCurrentHash))) =
      some (State.finished, some 187) ∧
    exAdopted.mDisputes.map (fun it => (it.1, it.2.mOurVote)) = [(2, false)] ∧
    beginAccept exAdopted = some { hash := 187, items := [1, 2] } ∧
    (accept exTiming exAccept exAdopted { hash := 187, items := [1, 2] }).map
      (fun x => (x.2.applied, x.2.retriableTxs, x.2.anyDisputes)) =
      some ([1, 2], [2], true) := by
  refine ⟨?_, ?_, ?_, ?_, ?_, ?_, ?_⟩ <;> decide

/-- C28, the code at its failing input.  The fresh round receives the
position of peer 3 on the tx-set 187 and then `mapComplete` with an invalid
map for 187.  Both calls return; the round is still open, peer 3's position is
stored and AcquiredSets maps 187 to the failed marker.  `takeInitialPosition`
finds that entry and dereferences it: the call crashes, and so do
`closeLedger` and the `timerEntry` that closes the ledger. -/
theorem initial_position_hits_failed_set :
    exFailedPeerSet.isSome = true ∧
    exFailedPeerSet.map (fun r => r.state_) = some State.open_ ∧
    exFailedPeerSet.map (fun r => r.mOurPosition) = some none ∧
    exFailedPeerSet.map (fun r => mfind r.mPeerPositions 3) = some (some exPeerPos) ∧
    exFailedPeerSet.map (fun r => mfind r.mAcquired exPeerPos.mCurrentHash) =
      some (some none) ∧
    exFailedPeerSet.map (fun r => takeInitialPosition exEnv exTick.C r) = some none ∧
    exFailedPeerSet.map (fun r => closeLedger exEnv exTick.C r) = some none ∧
    exFailedPeerSet.map (fun r => preCloseDecision exTiming exTick.P (timerClock exTick r)) =
      some true ∧
    exFailedPeerSet.map (fun r => timerEntry exTiming exTick [] r) = some none := by
  refine ⟨?_, ?_, ?_, ?_, ?_, ?_, ?_, ?_, ?_⟩ <;> decide

/-! ## Malformed arbiter records -/

theorem haveConsensus_short_record (F : ZkFaults) (zk : ZooKeeper) (r : Round)
    (pos : LedgerProposal) (node : ZkNode) (d : List Char)
    (hpos : r.mOurPosition = some pos)
    (hc : F.create = none) (hg : F.get = none)
    (hnode : mfind zk (roundPath r) = some node)
    (hdata : node.data = some d) (hlen : d.length < 1024)
    (hshort : (split '-' (cstr d)).length < 3) :
    haveConsensus F zk r =
      match zoo_set F.set zk (roundPath r) (roundValue r pos) node.version with
      | (ZkRet.ZOK, zk2) => some (true, { r with mConsensusFail := false }, zk2)
      | (_, zk2) => some (false, r, zk2) := by
  have htake : List.take 1024 d = d := List.take_of_length_le (Nat.le_of_lt hlen)
  have hsz : ¬ ((d.length : Int) = ((1024 : Nat) : Int)) := by
    intro h
    have := Int.ofNat_inj.1 h
    omega
  have hsz2 : ¬ ((d.length : Int) = -1) := by
    intro h
    have : (0 : Int) ≤ (d.length : Int) := Int.ofNat_nonneg _
    omega
  unfold haveConsensus
  simp only [hpos, zoo_create, hc, hnode, zoo_get, hg, hdata, htake, hsz, hsz2, ne_eq,
    not_true_eq_false, or_self, if_false, hshort, if_true]

theorem haveConsensus_long_record (F : ZkFaults) (zk : ZooKeeper) (r : Round)
    (node : ZkNode) (d : List Char)
    (hnode : mfind zk (roundPath r) = some node)
    (hdata : node.data = some d)
    (hlong : 3 ≤ (split '-' (cstr d)).length)
    (b : Bool) (r1 : Round) (zk1 : ZooKeeper)
    (h : haveConsensus F zk r = some (b, r1, zk1)) : zk1 = zk := by
  unfold haveConsensus at h
  cases hpos : r.mOurPosition with
  | none => rw [hpos] at h; cases h
  | some pos =>
    simp only [hpos, zoo_create] at h
    cases hc : F.create with
    | some c =>
      simp only [hc, Option.some.injEq, Prod.mk.injEq] at h
      exact h.2.2.symm
    | none =>
      simp only [hc, hnode, zoo_get] at h
      cases hg : F.get with
      | some c =>
        simp only [hg, ne_eq, reduceCtorEq, not_false_eq_true, true_or, if_true,
          Option.some.injEq, Prod.mk.injEq] at h
        exact h.2.2.symm
      | none =>
        simp only [hg, hdata] at h
        by_cases hlen : d.length < 1024
        · have htake : List.take 1024 d = d := List.take_of_length_le (Nat.le_of_lt hlen)
          have hsz : ¬ ((d.length : Int) = ((1024 : Nat) : Int)) := by
            intro h
            have := Int.ofNat_inj.1 h
            omega
          have hsz2 : ¬ ((d.length : Int) = -1) := by
            intro h
            have : (0 : Int) ≤ (d.length : Int) := Int.ofNat_nonneg _
            omega
          simp only [htake, hsz, hsz2, ne_eq, not_true_eq_false, or_self, if_false,
            Nat.not_lt.2 hlong] at h
          repeat' split at h
          all_goals first
            | (cases h; rfl)
            | cases h
        · have hsz : ((List.take 1024 d).length : Int) = ((1024 : Nat) : Int) := by
            rw [List.length_take]
            congr 1
            omega
          simp only [hsz, ne_eq, not_true_eq_false, true_or, or_true, if_true,
            Option.some.injEq, Prod.mk.injEq] at h
          exact h.2.2.symm

/-- C30: a record exists under the round key and is read (the arbiter answers,
the data is not null and shorter than the 1024-byte buffer).  If its text, up
to the first NUL, splits on '-' into fewer than three fields, `haveConsensus`
calls `zoo_set` with our own value and the version of the record it read; it
returns true exactly when that write succeeds, then with `consensus_fail`
false, and false otherwise, then with the round unchanged; the arbiter tree is
what `zoo_set` leaves, and our position is unchanged in both cases.  If the
text splits into three or more fields, the arbiter tree is unchanged whenever
`haveConsensus` returns. -/
theorem malformed_record_replaced (F : ZkFaults) (zk : ZooKeeper) (r : Round)
    (pos : LedgerProposal) (node : ZkNode) (d : List Char)
    (hpos : r.mOurPosition = some pos)
    (hnode : mfind zk (roundPath r) = some node)
    (hdata : node.data = some d) :
    (F.create = none → F.get = none → d.length < 1024 →
      (split '-' (cstr d)).length < 3 →
      ∃ (b : Bool) (r1 : Round),
        haveConsensus F zk r =
          some (b, r1, (zoo_set F.set zk (roundPath r) (roundValue r pos) node.version).2) ∧
        (b = true ↔
          (zoo_set F.set zk (roundPath r) (roundValue r pos) node.version).1 = ZkRet.ZOK) ∧
        (b = true → r1 = { r with mConsensusFail := false }) ∧
        (b = false → r1 = r) ∧
        r1.mOurPosition = some pos) ∧
    (3 ≤ (split '-' (cstr d)).length →
      ∀ (b : Bool) (r1 : Round) (zk1 : ZooKeeper),
        haveConsensus F zk r = some (b, r1, zk1) → zk1 = zk) := by
  constructor
  · intro hc hg hlen hshort
    rw [haveConsensus_short_record F zk r pos node d hpos hc hg hnode hdata hlen hshort]
    generalize zoo_set F.set zk (roundPath r) (roundValue r pos) node.version = res
    obtain ⟨ret, zk2⟩ := res
    cases ret with
    | ZOK =>
      exact ⟨true, { r with mConsensusFail := false }, rfl, ⟨fun _ => rfl, fun _ => rfl⟩,
        fun _ => rfl, (fun hb => Bool.noConfusion hb), hpos⟩
    | ZNODEEXISTS =>
      exact ⟨false, r, rfl, ⟨(fun hb => Bool.noConfusion hb), (fun hz => ZkRet.noConfusion hz)⟩,
        (fun hb => Bool.noConfusion hb), fun _ => rfl, hpos⟩
    | failure c =>
      exact ⟨false, r, rfl, ⟨(fun hb => Bool.noConfusion hb), (fun hz => ZkRet.noConfusion hz)⟩,
        (fun hb => Bool.noConfusion hb), fun _ => rfl, hpos⟩
  · intro hlong b r1 zk1 h
    exact haveConsensus_long_record F zk r node d hnode hdata hlong b r1 zk1 h

/-- Witness of C30: `exRound` finds the record `bad` at version 4 and replaces
it by its own value, which becomes version 5; and the three-field record
published for the prior ledger 999 is left alone. -/
theorem malformed_record_replaced_witness :
    (∃ (b : Bool) (r1 : Round),
      haveConsensus noFaults exZkBad exRound =
        some (b, r1,
          (zoo_set noFaults.set exZkBad (roundPath exRound) (roundValue exRound exPos) 4).2) ∧
      (b = true ↔
        (zoo_set noFaults.set exZkBad (roundPath exRound) (roundValue exRound exPos) 4).1 =
          ZkRet.ZOK) ∧
      (b = true → r1 = { exRound with mConsensusFail := false }) ∧
      (b = false → r1 = exRound) ∧
      r1.mOurPosition = some exPos) ∧
    (haveConsensus noFaults exZkBad exRound).map
      (fun res => (res.1, mfind res.2.2 (roundPath exRound))) =
      some (true, some { data := some (roundValue exRound exPos), version := 5 }) ∧
    exZkStale = exZkStale :=
  ⟨(malformed_record_replaced noFaults exZkBad exRound exPos
      { data := some ['b', 'a', 'd'], version := 4 } ['b', 'a', 'd'] rfl (by decide) rfl).1
      rfl rfl (by decide) (by decide),
   by decide,
   (malformed_record_replaced noFaults exZkStale exRound exPos
      { data := some (to_string 170 ++ ['-'] ++ to_string 999 ++ ['-'] ++ decimal 104),
        version := 0 }
      (to_string 170 ++ ['-'] ++ to_string 999 ++ ['-'] ++ decimal 104) rfl (by decide) rfl).2
      (by decide) false { exRound with mConsensusFail := true } exZkStale (by decide)⟩

/-! ## The text of an arbiter record -/

theorem hexChar_spec : ∀ d, d < 16 →
    hexVal (hexChar d) = some d ∧ hexChar d ≠ '-' ∧ hexChar d ≠ Char.ofNat 0 := by
  decide

theorem hexDigits_length : ∀ (n v : Nat), (hexDigits n v).length = n := by
  intro n
  induction n with
  | zero => intro v; rfl
  | succ n ih =>
    intro v
    simp [hexDigits, ih]

theorem hexDigits_chars : ∀ (n v : Nat), ∀ c ∈ hexDigits n v, c ≠ '-' ∧ c ≠ Char.ofNat 0 := by
  intro n
  induction n with
  | zero => intro v c hc; cases hc
  | succ n ih =>
    intro v c hc
    simp only [hexDigits, List.mem_append, List.mem_singleton] at hc
    rcases hc with hc | hc
    · exact ih _ c hc
    · rw [hc]
      exact (hexChar_spec (v % 16) (Nat.mod_lt _ (by norm_num))).2

theorem hexPrefix_hexDigits : ∀ (n v acc : Nat) (rest : List Char),
    hexPrefix (hexDigits n v ++ rest) acc = hexPrefix rest (acc * 16 ^ n + v % 16 ^ n) := by
  intro n
  induction n with
  | zero =>
    intro v acc rest
    simp [hexDigits, Nat.mod_one]
  | succ n ih =>
    intro v acc rest
    simp only [hexDigits, List.append_assoc, List.singleton_append]
    rw [ih]
    simp only [hexPrefix, (hexChar_spec (v % 16) (Nat.mod_lt _ (by norm_num))).1]
    congr 1
    have h1 : (16 : Nat) ^ (n + 1) = 16 * 16 ^ n := by ring
    rw [h1, Nat.mod_mul]
    ring

theorem from_hex_text_to_string (h : uint256) (hh : h < 2 ^ 256) :
    from_hex_text (to_string h) = h := by
  unfold from_hex_text to_string
  have := hexPrefix_hexDigits 64 h 0 []
  rw [List.append_nil] at this
  rw [this]
  simp only [hexPrefix, Nat.zero_mul, Nat.zero_add]
  have e : (16 : Nat) ^ 64 = 2 ^ 256 := by norm_num
  rw [e, Nat.mod_mod, Nat.mod_eq_of_lt hh]

theorem digit_spec : ∀ d, d < 10 →
    (48 ≤ (Char.ofNat (48 + d)).toNat ∧ (Char.ofNat (48 + d)).toNat ≤ 57) ∧
    (Char.ofNat (48 + d)).toNat - 48 = d ∧
    Char.ofNat (48 + d) ≠ '-' ∧ Char.ofNat (48 + d) ≠ Char.ofNat 0 ∧
    Char.ofNat (48 + d) ≠ '+' := by
  decide

theorem decimalAux_spec : ∀ (fuel n : Nat) (acc : List Char), n < 10 ^ (fuel + 1) →
    ∃ ds : List Char, decimalAux (fuel + 1) n acc = ds ++ acc ∧ ds ≠ [] ∧
      (∀ c ∈ ds, c ≠ '-' ∧ c ≠ Char.ofNat 0 ∧ c ≠ '+') ∧
      (∀ (rest : List Char) (a : Nat),
        parseDec (ds ++ rest) a = parseDec rest (a * 10 ^ ds.length + n)) ∧
      (∀ k, 1 ≤ k → n < 10 ^ k → ds.length ≤ k) := by
  have small : ∀ (fuel n : Nat) (acc : List Char), n < 10 →
      ∃ ds : List Char, decimalAux (fuel + 1) n acc = ds ++ acc ∧ ds ≠ [] ∧
        (∀ c ∈ ds, c ≠ '-' ∧ c ≠ Char.ofNat 0 ∧ c ≠ '+') ∧
        (∀ (rest : List Char) (a : Nat),
          parseDec (ds ++ rest) a = parseDec rest (a * 10 ^ ds.length + n)) ∧
        (∀ k, 1 ≤ k → n < 10 ^ k → ds.length ≤ k) := by
    intro fuel n acc hn
    obtain ⟨d1, d2, d3, d4, d5⟩ := digit_spec n hn
    refine ⟨[Char.ofNat (48 + n)], ?_, by simp, ?_, ?_, ?_⟩
    · simp [decimalAux, hn]
    · intro c hc
      rw [List.mem_singleton.1 hc]
      exact ⟨d3, d4, d5⟩
    · intro rest a
      simp [parseDec, d1, d2]
    · intro k hk _
      simpa using hk
  intro fuel
  induction fuel with
  | zero =>
    intro n acc h
    exact small 0 n acc (by simpa using h)
  | succ fuel ih =>
    intro n acc h
    by_cases hn : n < 10
    · exact small (fuel + 1) n acc hn
    · have hlt : n / 10 < 10 ^ (fuel + 1) := by
        rw [Nat.div_lt_iff_lt_mul (by norm_num)]
        rw [pow_succ] at h
        exact h
      obtain ⟨ds, e1, e2, e3, e4, e5⟩ := ih (n / 10) (Char.ofNat (48 + n % 10) :: acc) hlt
      obtain ⟨d1, d2, d3, d4, d5⟩ := digit_spec (n % 10) (Nat.mod_lt _ (by norm_num))
      refine ⟨ds ++ [Char.ofNat (48 + n % 10)], ?_, by simp, ?_, ?_, ?_⟩
      · rw [decimalAux, if_neg hn, e1]
        simp
      · intro c hc
        rcases List.mem_append.1 hc with hc | hc
        · exact e3 c hc
        · rw [List.mem_singleton.1 hc]
          exact ⟨d3, d4, d5⟩
      · intro rest a
        rw [List.append_assoc, e4]
        have hstep : parseDec ([Char.ofNat (48 + n % 10)] ++ rest) (a * 10 ^ ds.length + n / 10) =
            parseDec rest ((a * 10 ^ ds.length + n / 10) * 10 + n % 10) := by
          simp [parseDec, d1, d2]
        rw [hstep]
        congr 1
        have := Nat.div_add_mod n 10
        simp only [List.length_append, List.length_singleton, pow_succ]
        nlinarith [this]
      · intro k hk hnk
        have hk2 : 2 ≤ k := by
          by_contra hcon
          have : k = 1 := by omega
          rw [this] at hnk
          simp at hnk
          omega
        have hlt2 : n / 10 < 10 ^ (k - 1) := by
          rw [Nat.div_lt_iff_lt_mul (by norm_num), ← pow_succ]
          have : k - 1 + 1 = k := by omega
          rw [this]
          exact hnk
        have := e5 (k - 1) (by omega) hlt2
        simp only [List.length_append, List.length_singleton]
        omega

theorem decimal_spec (n : Nat) :
    ∃ ds : List Char, decimal n = ds ∧ ds ≠ [] ∧
      (∀ c ∈ ds, c ≠ '-' ∧ c ≠ Char.ofNat 0 ∧ c ≠ '+') ∧
      parseDec ds 0 = some n ∧
      (∀ k, 1 ≤ k → n < 10 ^ k → ds.length ≤ k) := by
  have hfuel : n < 10 ^ (n + 1) :=
    lt_of_lt_of_le (Nat.lt_pow_self (by norm_num) n) (Nat.pow_le_pow_right (by norm_num) (by omega))
  obtain ⟨ds, e1, e2, e3, e4, e5⟩ := decimalAux_spec n n [] hfuel
  refine ⟨ds, ?_, e2, e3, ?_, e5⟩
  · unfold decimal
    rw [e1, List.append_nil]
  · have := e4 [] 0
    rw [List.append_nil] at this
    rw [this]
    simp [parseDec]

theorem lexical_cast_decimal (c : Nat) (hc : c < 2 ^ 32) :
    lexical_cast_u32 (decimal c) = some c := by
  obtain ⟨ds, e1, e2, e3, e4, _⟩ := decimal_spec c
  rw [e1]
  unfold lexical_cast_u32
  cases ds with
  | nil => exact absurd rfl e2
  | cons d rest =>
    have hplus : d ≠ '+' := (e3 d (List.mem_cons_self _ _)).2.2
    have hbody : (match d :: rest with
        | '+' :: t => t
        | _ => d :: rest) = d :: rest := by
      split
      · rename_i t heq
        simp only [List.cons.injEq] at heq
        exact absurd heq.1 hplus
      · rfl
    simp only [hbody, e4, hc, if_true]
    simp

theorem split_ne_nil (sep : Char) (s : List Char) : split sep s ≠ [] := by
  cases s with
  | nil => simp [split]
  | cons c cs =>
    unfold split
    split
    · simp
    · split <;> simp

theorem split_no_sep (sep : Char) (a : List Char) (h : ∀ c ∈ a, c ≠ sep) :
    split sep a = [a] := by
  induction a with
  | nil => rfl
  | cons c cs ih =>
    have hc : c ≠ sep := h c (List.mem_cons_self _ _)
    have ih2 := ih (fun x hx => h x (List.mem_cons_of_mem _ hx))
    simp only [split, hc, if_false, ih2]

theorem split_field (sep : Char) (a rest : List Char) (h : ∀ c ∈ a, c ≠ sep) :
    split sep (a ++ sep :: rest) = a :: split sep rest := by
  induction a with
  | nil => simp [split]
  | cons c cs ih =>
    have hc : c ≠ sep := h c (List.mem_cons_self _ _)
    have ih2 := ih (fun x hx => h x (List.mem_cons_of_mem _ hx))
    simp only [List.cons_append, split, hc, if_false]
    rw [show cs.append (sep :: rest) = cs ++ sep :: rest from rfl, ih2]

theorem cstr_no_nul (s : List Char) (h : ∀ c ∈ s, c ≠ Char.ofNat 0) : cstr s = s := by
  unfold cstr
  rw [List.takeWhile_eq_self_iff]
  intro c hc
  simpa using h c hc

theorem record_fields (h l c : Nat) :
    split '-' (cstr (to_string h ++ ['-'] ++ to_string l ++ ['-'] ++ decimal c)) =
      [to_string h, to_string l, decimal c] ∧
    (to_string h ++ ['-'] ++ to_string l ++ ['-'] ++ decimal c).length =
      130 + (decimal c).length := by
  obtain ⟨ds, e1, _, e3, _, _⟩ := decimal_spec c
  have hcs : cstr (to_string h ++ ['-'] ++ to_string l ++ ['-'] ++ decimal c) =
      to_string h ++ ['-'] ++ to_string l ++ ['-'] ++ decimal c := by
    apply cstr_no_nul
    intro x hx
    simp only [List.mem_append, List.mem_singleton] at hx
    rcases hx with (((hx | hx) | hx) | hx) | hx
    · exact (hexDigits_chars 64 h x hx).2
    · rw [hx]; decide
    · exact (hexDigits_chars 64 l x hx).2
    · rw [hx]; decide
    · rw [e1] at hx
      exact (e3 x hx).2.1
  constructor
  · rw [hcs]
    have a1 : to_string h ++ ['-'] ++ to_string l ++ ['-'] ++ decimal c =
        to_string h ++ '-' :: (to_string l ++ '-' :: decimal c) := by simp
    rw [a1, split_field '-' (to_string h) _ (fun x hx => (hexDigits_chars 64 h x hx).1),
      split_field '-' (to_string l) _ (fun x hx => (hexDigits_chars 64 l x hx).1),
      split_no_sep '-' (decimal c) (fun x hx => by rw [e1] at hx; exact (e3 x hx).1)]
  · simp only [List.length_append, List.length_singleton, to_string, hexDigits_length]

/-- C23: for a tx-set hash and a prev-ledger hash of 256 bits and a close time
of 32 bits, the value that `haveConsensus` builds is the 64 hexadecimal digits
of the tx-set hash, `-`, the 64 hexadecimal digits of the prev-ledger hash,
`-`, and the decimal close time, and that is the data of the node it creates
when no record exists.  Read back the way `haveConsensus` reads a record, the
value splits into exactly these three fields, which decode to the two hashes
and the close time.  So a node that finds a record equal to its own value
returns true, clears `consensus_fail` and changes nothing else: its position
and the arbiter tree are what they were. -/
theorem arbiter_record_round_trip (F : ZkFaults) (zk : ZooKeeper) (r : Round)
    (pos : LedgerProposal) (node : ZkNode)
    (hpos : r.mOurPosition = some pos)
    (hh : pos.mCurrentHash < 2 ^ 256) (hl : r.mPrevLedgerHash < 2 ^ 256)
    (hc : pos.mCloseTime < 2 ^ 32) :
    roundValue r pos =
      to_string pos.mCurrentHash ++ ['-'] ++ to_string r.mPrevLedgerHash ++ ['-'] ++
        decimal pos.mCloseTime ∧
    (F.create = none → mfind zk (roundPath r) = none →
      (haveConsensus F zk r).map (fun res => mfind res.2.2 (roundPath r)) =
        some (some { data := some (roundValue r pos), version := 0 })) ∧
    split '-' (cstr (roundValue r pos)) =
      [to_string pos.mCurrentHash, to_string r.mPrevLedgerHash, decimal pos.mCloseTime] ∧
    from_hex_text (to_string pos.mCurrentHash) = pos.mCurrentHash ∧
    from_hex_text (to_string r.mPrevLedgerHash) = r.mPrevLedgerHash ∧
    lexical_cast_u32 (decimal pos.mCloseTime) = some pos.mCloseTime ∧
    (F.create = none → F.get = none → mfind zk (roundPath r) = some node →
      node.data = some (roundValue r pos) →
      haveConsensus F zk r = some (true, { r with mConsensusFail := false }, zk)) := by
  obtain ⟨hsplit, hlength⟩ := record_fields pos.mCurrentHash r.mPrevLedgerHash pos.mCloseTime
  have hx := from_hex_text_to_string pos.mCurrentHash hh
  have hy := from_hex_text_to_string r.mPrevLedgerHash hl
  have hz := lexical_cast_decimal pos.mCloseTime hc
  refine ⟨rfl, ?_, hsplit, hx, hy, hz, ?_⟩
  · intro hcr hfree
    unfold haveConsensus
    rw [hpos]
    simp only [zoo_create, hcr, hfree, Option.map_some', mfind_mset, if_true]
  · intro hcr hg hnode hdata
    have hlen : (roundValue r pos).length < 1024 := by
      obtain ⟨ds, e1, _, _, _, e5⟩ := decimal_spec pos.mCloseTime
      have h10 := e5 10 (by norm_num) (lt_of_lt_of_le hc (by norm_num))
      have hroundValue : (roundValue r pos).length = 130 + (decimal pos.mCloseTime).length :=
        hlength
      rw [hroundValue, e1]
      omega
    have htake : List.take 1024 (roundValue r pos) = roundValue r pos :=
      List.take_of_length_le (Nat.le_of_lt hlen)
    have hsz : ¬ (((roundValue r pos).length : Int) = ((1024 : Nat) : Int)) := by
      intro h
      have := Int.ofNat_inj.1 h
      omega
    have hsz2 : ¬ (((roundValue r pos).length : Int) = -1) := by
      intro h
      have : (0 : Int) ≤ ((roundValue r pos).length : Int) := Int.ofNat_nonneg _
      omega
    have hsplit2 : split '-' (cstr (roundValue r pos)) =
        [to_string pos.mCurrentHash, to_string r.mPrevLedgerHash, decimal pos.mCloseTime] :=
      hsplit
    unfold haveConsensus
    simp only [hpos, zoo_create, hcr, hnode, zoo_get, hg, hdata, htake, hsz, hsz2, ne_eq,
      not_true_eq_false, or_self, if_false, hsplit2, List.length_cons, List.length_nil,
      List.getD_cons_zero, List.getD_cons_succ, hx, hy, hz]
    simp

/-- Witness of C23: `exRound` finds its own value (170, 1000, 104) published
under the round key. -/
theorem arbiter_record_round_trip_witness :
    haveConsensus noFaults exZkOwn exRound =
      some (true, { exRound with mConsensusFail := false }, exZkOwn) :=
  (arbiter_record_round_trip noFaults exZkOwn exRound exPos
    { data := some (roundValue exRound exPos), version := 0 }
    rfl (by decide) (by decide) (by decide)).2.2.2.2.2.2 rfl rfl (by decide) rfl

/-! ## Bow-outs across the calls of a round -/

theorem addDisputedTransaction_acquired (E : Env) (r r1 : Round) (tx : uint256)
    (h : addDisputedTransaction E r tx = some r1) : r1.mAcquired = r.mAcquired := by
  unfold addDisputedTransaction at h
  by_cases hd : (mfind r.mDisputes tx).isSome = true
  · rw [if_pos hd] at h
    cases h; rfl
  · rw [if_neg hd] at h
    cases hv : ourVoteOn r tx with
    | none => rw [hv] at h; cases h
    | some v =>
      rw [hv] at h
      cases h
      unfold relayDisputed
      split <;> rfl

theorem createDisputes_acquired (E : Env) (r r1 : Round) (m1 m2 : Option SHAMap)
    (h : createDisputes E r m1 m2 = some r1) : r1.mAcquired = r.mAcquired := by
  unfold createDisputes at h
  split at h
  · split at h
    · cases h; rfl
    · refine foldlM_frame (fun a b => b.mAcquired = a.mAcquired) (fun _ => rfl)
        (fun a b c hab hbc => hbc.trans hab) _ ?_ _ r r1 h
      intro a x b hx
      split at hx
      · exact addDisputedTransaction_acquired E a b x.1 hx
      · split at hx
        · exact addDisputedTransaction_acquired E a b x.1 hx
        · cases hx; rfl
  · cases h

theorem mapCompleteDisputes_acquired (E : Env) (r r1 : Round) (hash : uint256) (m : SHAMap)
    (h : mapCompleteDisputes E r hash m = some r1) : r1.mAcquired = r.mAcquired := by
  unfold mapCompleteDisputes at h
  cases hp : r.mOurPosition with
  | none => rw [hp] at h; cases h; rfl
  | some pos =>
    rw [hp] at h
    simp only at h
    split at h
    · cases ha : mfind r.mAcquired pos.mCurrentHash with
      | none => rw [ha] at h; cases h; rfl
      | some ours =>
        rw [ha] at h
        simp only at h
        have hc := createDisputes_acquired E _ _ _ _ h
        exact hc
    · cases h; rfl

theorem mapCompleteInternal_acquired (E : Env) (r r1 : Round) (hash : uint256) (m : SHAMap)
    (acquired : Bool) (h : mapCompleteInternal E r hash (some m) acquired = some r1) :
    (∀ k, k ≠ hash → mfind r1.mAcquired k = mfind r.mAcquired k) ∧
    ((∃ s0, mfind r.mAcquired hash = some (some s0) ∧
        mfind r1.mAcquired hash = some (some s0)) ∨
      ((∀ s0, mfind r.mAcquired hash ≠ some (some s0)) ∧
        mfind r1.mAcquired hash = some (some m))) := by
  have key : ∀ r0 : Round,
      (∀ k, k ≠ hash → mfind r0.mAcquired k = mfind r.mAcquired k) →
      (match mapCompleteDisputes E r0 hash m with
        | none => none
        | some r4 => some (mapCompleteAdjust r4 hash m)) = some r1 →
      (∀ k, k ≠ hash → mfind r1.mAcquired k = mfind r.mAcquired k) ∧
        mfind r1.mAcquired hash = some (some m) := by
    intro r0 ha0 h0
    cases h4 : mapCompleteDisputes E r0 hash m with
    | none => rw [h4] at h0; cases h0
    | some r4 =>
      rw [h4] at h0
      cases h0
      have ha := mapCompleteDisputes_acquired E _ _ _ _ h4
      obtain ⟨b1, _, _⟩ := mapCompleteAdjust_keys r4 hash m
      constructor
      · intro k hk
        rw [b1, mfind_mset, if_neg (fun e => hk e.symm), ha]
        exact ha0 k hk
      · rw [b1, mfind_mset, if_pos rfl]
  revert h
  unfold mapCompleteInternal
  simp only
  cases hf : mfind r.mAcquired hash with
  | none =>
    simp only [Option.isSome_none, Bool.false_eq_true, if_false]
    intro h
    have hk := key _ (by unfold sendHaveTxSet; simp only; split <;> exact fun _ _ => rfl) h
    exact ⟨hk.1, Or.inr ⟨(fun s0 hs => nomatch hs), hk.2⟩⟩
  | some o =>
    cases o with
    | some s0 =>
      intro h
      cases h
      exact ⟨fun _ _ => rfl, Or.inl ⟨s0, rfl, hf⟩⟩
    | none =>
      simp only [Option.isSome_some, if_true]
      intro h
      have hera : ∀ k, k ≠ hash → mfind (merase r.mAcquired hash) k = mfind r.mAcquired k := by
        intro k hk
        rw [mfind_merase, if_neg (fun e => hk e.symm)]
      have hk := key _ (by unfold sendHaveTxSet; simp only; split <;> exact hera) h
      exact ⟨hk.1, Or.inr ⟨(fun s0 hs => nomatch hs), hk.2⟩⟩

theorem mapCompleteDisputes_returns (E : Env) (r : Round) (hash : uint256) (m : SHAMap)
    (h : ∀ pos, r.mOurPosition = some pos → hash ≠ pos.mCurrentHash →
      mfind r.mAcquired pos.mCurrentHash ≠ some none) :
    ∃ r1, mapCompleteDisputes E r hash m = some r1 := by
  cases hp : r.mOurPosition with
  | none => exact ⟨r, by unfold mapCompleteDisputes; rw [hp]⟩
  | some pos =>
    by_cases hc : (!pos.isBowOut && hash != pos.mCurrentHash) = true
    · have hne : hash ≠ pos.mCurrentHash := by
        intro e
        rw [e] at hc
        simp at hc
      cases ha : mfind r.mAcquired pos.mCurrentHash with
      | none =>
        refine ⟨r, ?_⟩
        unfold mapCompleteDisputes
        rw [hp]
        simp only [hc, if_true, ha]
      | some o =>
        cases o with
        | none => exact absurd ha (h pos hp hne)
        | some ours =>
          have hv : VoteReady { r with mCompares := sinsert r.mCompares hash } :=
            VoteReady_congr rfl rfl (VoteReady_of_valid r pos ours hp ha)
          obtain ⟨r1, h1, _⟩ :=
            createDisputes_keys E { r with mCompares := sinsert r.mCompares hash } ours m hv
          refine ⟨r1, ?_⟩
          unfold mapCompleteDisputes
          rw [hp]
          simp only [hc, if_true, ha]
          rw [← hp]
          exact h1
    · refine ⟨r, ?_⟩
      unfold mapCompleteDisputes
      rw [hp]
      simp only [hc, if_false]
      simp

theorem mapCompleteInternal_returns (E : Env) (r : Round) (hash : uint256) (m : SHAMap)
    (acquired : Bool) (hps : positionSet r ≠ some (some none)) :
    ∃ r1, mapCompleteInternal E r hash (some m) acquired = some r1 := by
  have hpos : ∀ pos, r.mOurPosition = some pos →
      mfind r.mAcquired pos.mCurrentHash ≠ some none := by
    intro pos hp ha
    apply hps
    unfold positionSet
    rw [hp]
    exact congrArg some ha
  have key : ∀ r0 : Round, r0.mOurPosition = r.mOurPosition →
      (∀ k, k ≠ hash → mfind r0.mAcquired k = mfind r.mAcquired k) →
      ∃ r1, (match mapCompleteDisputes E r0 hash m with
          | none => none
          | some r4 => some (mapCompleteAdjust r4 hash m)) = some r1 := by
    intro r0 hp0 ha0
    obtain ⟨r4, h4⟩ := mapCompleteDisputes_returns E r0 hash m (by
      intro pos hp hne
      rw [ha0 _ (fun e => hne e.symm)]
      exact hpos pos (hp0 ▸ hp))
    exact ⟨_, by rw [h4]⟩
  unfold mapCompleteInternal
  simp only
  cases hf : mfind r.mAcquired hash with
  | none =>
    simp only [Option.isSome_none, Bool.false_eq_true, if_false]
    apply key
    · unfold sendHaveTxSet; simp only; split <;> rfl
    · unfold sendHaveTxSet; simp only; split <;> exact fun _ _ => rfl
  | some o =>
    cases o with
    | some s0 => exact ⟨r, rfl⟩
    | none =>
      simp only [Option.isSome_some, if_true]
      have hera : ∀ k, k ≠ hash → mfind (merase r.mAcquired hash) k = mfind r.mAcquired k := by
        intro k hk
        rw [mfind_merase, if_neg (fun e => hk e.symm)]
      apply key
      · unfold sendHaveTxSet; simp only; split <;> rfl
      · unfold sendHaveTxSet; simp only; split <;> exact hera

theorem takeInitialDisputes_covered (E : Env) (S : SHAMap)
    (l : List (NodeID × LedgerProposal)) :
    ∀ (found : List uint256) (r r1 : Round), VoteReady r →
      takeInitialDisputes E S l found r = some r1 →
      r1.mAcquired = r.mAcquired ∧ r1.mOurPosition = r.mOurPosition ∧
      (∀ t, disputed r t = true → disputed r1 t = true) ∧
      (∀ it ∈ l, it.2.mCurrentHash ∉ found →
        ∀ s, mfind r.mAcquired it.2.mCurrentHash = some (some s) → S.hash ≠ s.hash →
          ∀ t ∈ (diffKeys S s).take 16384, disputed r1 t = true) := by
  induction l with
  | nil =>
    intro found r r1 _ h
    simp only [takeInitialDisputes, Option.some.injEq] at h
    subst h
    exact ⟨rfl, rfl, fun _ h => h, fun it hit => nomatch hit⟩
  | cons it rest ih =>
    intro found r r1 hv h
    by_cases hin : it.2.mCurrentHash ∈ found
    · simp only [takeInitialDisputes, hin, if_true] at h
      obtain ⟨a1, p1, k0, k1⟩ := ih found r r1 hv h
      refine ⟨a1, p1, k0, ?_⟩
      intro x hx hnf s hs hne t ht
      rcases List.mem_cons.1 hx with rfl | hx
      · exact absurd hin hnf
      · exact k1 x hx hnf s hs hne t ht
    · cases ha : mfind r.mAcquired it.2.mCurrentHash with
      | none =>
        simp only [takeInitialDisputes, hin, if_false, ha] at h
        obtain ⟨a1, p1, k0, k1⟩ := ih (it.2.mCurrentHash :: found) r r1 hv h
        refine ⟨a1, p1, k0, ?_⟩
        intro x hx hnf s hs hne t ht
        have hdiff : x.2.mCurrentHash ≠ it.2.mCurrentHash := by
          intro hsame
          rw [hsame, ha] at hs
          cases hs
        rcases List.mem_cons.1 hx with rfl | hx
        · exact absurd rfl hdiff
        · exact k1 x hx (by simp [hdiff, hnf]) s hs hne t ht
      | some o =>
        cases o with
        | none =>
          simp only [takeInitialDisputes, hin, if_false, ha] at h
          cases h
        | some s0 =>
          have hv2 : VoteReady { r with mCompares := sinsert r.mCompares s0.hash } :=
            VoteReady_congr rfl rfl hv
          obtain ⟨r2, h2, a2, p2, m2, c2⟩ := createDisputes_keys E _ S s0 hv2
          simp only [takeInitialDisputes, hin, if_false, ha, h2] at h
          obtain ⟨a1, p1, k0, k1⟩ :=
            ih (it.2.mCurrentHash :: found) r2 r1 (VoteReady_congr p2 a2 hv2) h
          refine ⟨a1.trans a2, p1.trans p2, fun t ht => k0 t (m2 t ht), ?_⟩
          intro x hx hnf s hs hne t ht
          have hcase : x.2.mCurrentHash = it.2.mCurrentHash → disputed r1 t = true := by
            intro hsame
            rw [hsame, ha] at hs
            cases hs
            exact k0 t ((c2 hne t).2 (Or.inr ht))
          rcases List.mem_cons.1 hx with rfl | hx
          · exact hcase rfl
          · by_cases hsame : x.2.mCurrentHash = it.2.mCurrentHash
            · exact hcase hsame
            · exact k1 x hx (by simp [hsame, hnf]) s (by rw [a2]; exact hs) hne t ht

theorem diffKeys_same_items (a b : SHAMap) (h : ∀ t, a.hasItem t = b.hasItem t)
    (t : uint256) : t ∉ diffKeys a b := by
  intro ht
  have h1 := h t
  unfold SHAMap.hasItem at h1
  rcases (mem_diffKeys a b t).1 ht with ⟨ha, hb⟩ | ⟨hb, ha⟩
  · simp [ha, hb] at h1
  · simp [ha, hb] at h1

theorem getTransactionTree_disputes (E : Env) (r : Round) (h : uint256) :
    (getTransactionTree E r h).2.mDisputes = r.mDisputes := by
  unfold getTransactionTree
  split
  · rfl
  · split <;> rfl

theorem peerPositionStore_disputed (E : Env) (r : Round) (p : LedgerProposal) (t : uint256) :
    disputed (peerPositionStore E r p).2 t = disputed r t := by
  have key : ∀ r2 : Round, r2.mDisputes = r.mDisputes →
      disputed (match getTransactionTree E r2 p.mCurrentHash with
        | (some set, r3) =>
          (true, { r3 with mDisputes :=
              r3.mDisputes.map (fun (it : uint256 × DisputedTx) =>
                (it.1, it.2.setVote p.mPeerID (set.hasItem it.1))) })
        | (none, r3) => (true, r3)).2 t = disputed r t := by
    intro r2 hd2
    have hg := getTransactionTree_disputes E r2 p.mCurrentHash
    rcases hgt : getTransactionTree E r2 p.mCurrentHash with ⟨o, r3⟩
    rw [hgt] at hg
    simp only at hg
    cases o with
    | none =>
      simp only
      unfold disputed
      rw [hg, hd2]
    | some set =>
      simp only
      unfold disputed
      simp only
      rw [mfind_map_isSome r3.mDisputes
        (fun it => it.2.setVote p.mPeerID (set.hasItem it.1)) t, hg, hd2]
  unfold peerPositionStore
  simp only
  apply key
  unfold countCloseTime
  simp only
  split <;> rfl

theorem peerPosition_disputed (E : Env) (r : Round) (p : LedgerProposal) (t : uint256) :
    disputed (peerPosition E r p).2 t = disputed r t := by
  unfold peerPosition
  simp only
  split
  · rfl
  · split
    · rfl
    · split
      · unfold disputed
        simp only
        exact mfind_map_isSome r.mDisputes _ t
      · exact peerPositionStore_disputed E r p t

theorem takeInitialPosition_covered (E : Env) (C : CloseInputs) (r rF : Round) (P : NodeID)
    (p : LedgerProposal) (xs : SHAMap)
    (h : takeInitialPosition E C r = some rF)
    (hP : mfind r.mPeerPositions P = some p)
    (hxs : mfind r.mAcquired p.mCurrentHash = some (some xs))
    (hheld : ∀ s0, mfind r.mAcquired C.initialSetHash = some (some s0) →
      ∀ t, s0.hasItem t = (initialTxSet C r).hasItem t)
    (hhash : (initialTxSet C r).hash = xs.hash →
      ∀ t, (initialTxSet C r).hasItem t = xs.hasItem t) :
    ∃ ours, positionSet rF = some (some (some ours)) ∧
      (∀ t, ours.hasItem t = (initialTxSet C r).hasItem t) ∧
      mfind rF.mPeerPositions P = some p ∧
      mfind rF.mAcquired p.mCurrentHash = some (some xs) ∧
      (∀ t ∈ (diffKeys (initialTxSet C r) xs).take 16384, disputed rF t = true) ∧
      ((diffKeys (initialTxSet C r) xs).length ≤ 16384 →
        ∀ t, ours.hasItem t ≠ xs.hasItem t → disputed rF t = true) := by
  unfold takeInitialPosition at h
  simp only at h
  cases ha : mapCompleteInternal E r (initialTxSet C r).hash (some (initialTxSet C r)) false with
  | none => rw [ha] at h; cases h
  | some ra =>
    rw [ha] at h
    simp only at h
    split at h
    · cases h
    · rename_i r3 h3
      have hF : rF.mOurPosition = r3.mOurPosition ∧ rF.mAcquired = r3.mAcquired ∧
          rF.mPeerPositions = r3.mPeerPositions ∧ rF.mDisputes = r3.mDisputes := by
        cases h
        split <;> exact ⟨rfl, rfl, rfl, rfl⟩
      obtain ⟨hother, hentry⟩ :=
        mapCompleteInternal_acquired E r ra (initialTxSet C r).hash (initialTxSet C r) false ha
      have ppa : ra.mPeerPositions = r.mPeerPositions :=
        (acquireCore_fields (mapCompleteInternal_core E r ra _ _ false ha)).2.2.2.2.2.1
      have hours : ∃ ours, mfind ra.mAcquired (initialTxSet C r).hash = some (some ours) ∧
          (∀ t, ours.hasItem t = (initialTxSet C r).hasItem t) ∧
          (p.mCurrentHash = (initialTxSet C r).hash → ours = xs) := by
        rcases hentry with ⟨s0, hs0, hs1⟩ | ⟨hnew, hs1⟩
        · refine ⟨s0, hs1, hheld s0 hs0, ?_⟩
          intro hk
          rw [hk, hs0] at hxs
          cases hxs
          rfl
        · refine ⟨initialTxSet C r, hs1, fun _ => rfl, ?_⟩
          intro hk
          rw [hk] at hxs
          exact absurd hxs (hnew xs)
      obtain ⟨ours, hours, hsame, hkey⟩ := hours
      have hx2 : mfind ra.mAcquired p.mCurrentHash = some (some xs) := by
        by_cases hk : p.mCurrentHash = (initialTxSet C r).hash
        · rw [hk, hours, hkey hk]
        · rw [hother _ hk]
          exact hxs
      obtain ⟨a3, p3, _, k1⟩ := takeInitialDisputes_covered E (initialTxSet C r) _ [] _ r3
        (VoteReady_of_valid _ _ ours rfl hours) h3
      have hmem : (P, p) ∈ ra.mPeerPositions := by
        rw [ppa]
        exact mfind_mem _ _ _ hP
      have hcov : ∀ t ∈ (diffKeys (initialTxSet C r) xs).take 16384, disputed r3 t = true := by
        intro t ht
        by_cases hh : (initialTxSet C r).hash = xs.hash
        · exact absurd (List.mem_of_mem_take ht) (diffKeys_same_items _ _ (hhash hh) t)
        · exact k1 (P, p) hmem (List.not_mem_nil _) xs hx2 hh t ht
      have hdis : ∀ t, disputed rF t = disputed r3 t := by
        intro t
        unfold disputed
        rw [hF.2.2.2]
      refine ⟨ours, ?_, hsame, ?_, ?_, ?_, ?_⟩
      · unfold positionSet
        rw [hF.1, hF.2.1, p3, a3]
        exact congrArg some hours
      · rw [hF.2.2.1,
          (acquireCore_fields (takeInitialDisputes_core E _ _ _ _ _ h3)).2.2.2.2.2.1]
        show mfind ra.mPeerPositions P = some p
        rw [ppa]
        exact hP
      · rw [hF.2.1, a3]
        exact hx2
      · intro t ht
        rw [hdis]
        exact hcov t ht
      · intro hlen t ht
        rw [hdis]
        apply hcov
        apply mem_take_diffKeys _ _ hlen
        rw [← hsame t]
        exact ht

theorem takeInitialPosition_returns (E : Env) (C : CloseInputs) (r : Round)
    (hps : positionSet r ≠ some (some none))
    (hfail : ∀ it ∈ r.mPeerPositions, mfind r.mAcquired it.2.mCurrentHash ≠ some none) :
    ∃ rF, takeInitialPosition E C r = some rF := by
  obtain ⟨ra, ha⟩ :=
    mapCompleteInternal_returns E r (initialTxSet C r).hash (initialTxSet C r) false hps
  obtain ⟨hother, hentry⟩ :=
    mapCompleteInternal_acquired E r ra (initialTxSet C r).hash (initialTxSet C r) false ha
  have ppa : ra.mPeerPositions = r.mPeerPositions :=
    (acquireCore_fields (mapCompleteInternal_core E r ra _ _ false ha)).2.2.2.2.2.1
  have hours : ∃ ours, mfind ra.mAcquired (initialTxSet C r).hash = some (some ours) := by
    rcases hentry with ⟨s0, _, hs1⟩ | ⟨_, hs1⟩
    · exact ⟨s0, hs1⟩
    · exact ⟨_, hs1⟩
  obtain ⟨ours, hours⟩ := hours
  let pos : LedgerProposal :=
    { mPeerID := ra.mValPublic, mPreviousLedger := C.initialLedger.parentHash,
      mCurrentHash := (initialTxSet C r).hash, mCloseTime := ra.mCloseTime,
      mProposeSeq := LedgerProposal.seqJoin }
  let r2 : Round :=
    { ra with
      mOurPosition := some pos,
      mDisputes := ra.mDisputes.map
        (fun it => (it.1, it.2.setOurVote (decide (it.1 ∈ C.initialLedger.txs)))) }
  have hv : VoteReady r2 := VoteReady_of_valid r2 pos ours rfl hours
  have hf2 : ∀ it ∈ r2.mPeerPositions, mfind r2.mAcquired it.2.mCurrentHash ≠ some none := by
    intro it hit
    have hit2 : it ∈ r.mPeerPositions := ppa ▸ hit
    by_cases hk : it.2.mCurrentHash = (initialTxSet C r).hash
    · show mfind ra.mAcquired it.2.mCurrentHash ≠ some none
      rw [hk, hours]
      intro h
      cases h
    · show mfind ra.mAcquired it.2.mCurrentHash ≠ some none
      rw [hother _ hk]
      exact hfail it hit2
  obtain ⟨r3, h3, _⟩ :=
    takeInitialDisputes_covers E (initialTxSet C r) r2.mPeerPositions [] r2 hv hf2
  refine ⟨if r3.mProposing then propose r3 pos else r3, ?_⟩
  unfold takeInitialPosition
  simp only
  rw [ha]
  simp only
  rw [h3]

theorem addDisputedTransaction_sub (E : Env) (r r1 : Round) (tx : uint256)
    (h : addDisputedTransaction E r tx = some r1) (t : uint256)
    (ht : disputed r1 t = true) : disputed r t = true ∨ t = tx := by
  unfold addDisputedTransaction at h
  by_cases hd : (mfind r.mDisputes tx).isSome = true
  · rw [if_pos hd] at h
    cases h
    exact Or.inl ht
  · rw [if_neg hd] at h
    cases hv : ourVoteOn r tx with
    | none => rw [hv] at h; cases h
    | some v =>
      rw [hv] at h
      cases h
      have hdis : (relayDisputed E
          { r with mDisputes := mset r.mDisputes tx (newDisputedTx r tx v) } tx).mDisputes =
          mset r.mDisputes tx (newDisputedTx r tx v) := by
        unfold relayDisputed; split <;> rfl
      unfold disputed at ht ⊢
      rw [hdis, mfind_mset] at ht
      by_cases htx : tx = t
      · exact Or.inr htx.symm
      · rw [if_neg htx] at ht
        exact Or.inl ht

theorem foldl_disputes_sub (E : Env) (l : List (uint256 × Bool × Bool)) :
    ∀ r r1 : Round,
      l.foldlM
        (fun r pos =>
          if pos.2.1 then addDisputedTransaction E r pos.1
          else if pos.2.2 then addDisputedTransaction E r pos.1
          else some r) r = some r1 →
      ∀ t, disputed r1 t = true → disputed r t = true ∨ t ∈ l.map (fun e => e.1) := by
  induction l with
  | nil =>
    intro r r1 h t ht
    simp only [List.foldlM_nil] at h
    cases h
    exact Or.inl ht
  | cons e rest ih =>
    intro r r1 h t ht
    simp only [List.foldlM_cons] at h
    cases hx : (if e.2.1 = true then addDisputedTransaction E r e.1
        else if e.2.2 = true then addDisputedTransaction E r e.1 else some r) with
    | none => rw [hx] at h; cases h
    | some r2 =>
      rw [hx] at h
      have hstep : disputed r2 t = true → disputed r t = true ∨ t = e.1 := by
        intro h2
        split at hx
        · exact addDisputedTransaction_sub E r r2 e.1 hx t h2
        · split at hx
          · exact addDisputedTransaction_sub E r r2 e.1 hx t h2
          · cases hx
            exact Or.inl h2
      rcases ih r2 r1 h t ht with h2 | h2
      · rcases hstep h2 with h3 | h3
        · exact Or.inl h3
        · exact Or.inr (by rw [List.map_cons, List.mem_cons]; exact Or.inl h3)
      · exact Or.inr (by rw [List.map_cons, List.mem_cons]; exact Or.inr h2)

theorem createDisputes_sub (E : Env) (r r1 : Round) (a b : SHAMap)
    (h : createDisputes E r (some a) (some b) = some r1) (t : uint256)
    (ht : disputed r1 t = true) :
    disputed r t = true ∨ t ∈ (diffKeys a b).take 16384 := by
  unfold createDisputes at h
  simp only at h
  split at h
  · cases h
    exact Or.inl ht
  · have hs := foldl_disputes_sub E (a.compare b 16384) r r1 h t ht
    rw [compare_keys] at hs
    exact hs

theorem mapCompleteDisputes_sub (E : Env) (r r1 : Round) (hash : uint256) (ours m : SHAMap)
    (hours : ∀ pos, r.mOurPosition = some pos →
      mfind r.mAcquired pos.mCurrentHash = some (some ours))
    (h : mapCompleteDisputes E r hash m = some r1) (t : uint256)
    (ht : disputed r1 t = true) :
    disputed r t = true ∨ t ∈ (diffKeys ours m).take 16384 := by
  unfold mapCompleteDisputes at h
  cases hp : r.mOurPosition with
  | none => rw [hp] at h; cases h; exact Or.inl ht
  | some pos =>
    have ha := hours pos hp
    rw [hp] at h
    simp only at h
    split at h
    · rw [ha] at h
      simp only at h
      exact createDisputes_sub E _ r1 ours m h t ht
    · cases h; exact Or.inl ht

theorem mapCompleteInternal_sub (E : Env) (r r1 : Round) (hash : uint256) (ours m : SHAMap)
    (acquired : Bool)
    (hours : ∀ pos, r.mOurPosition = some pos →
      hash ≠ pos.mCurrentHash ∧ mfind r.mAcquired pos.mCurrentHash = some (some ours))
    (h : mapCompleteInternal E r hash (some m) acquired = some r1) (t : uint256)
    (ht : disputed r1 t = true) :
    disputed r t = true ∨ t ∈ (diffKeys ours m).take 16384 := by
  have key : ∀ r0 : Round, r0.mOurPosition = r.mOurPosition → r0.mDisputes = r.mDisputes →
      (∀ k, k ≠ hash → mfind r0.mAcquired k = mfind r.mAcquired k) →
      (match mapCompleteDisputes E r0 hash m with
        | none => none
        | some r4 => some (mapCompleteAdjust r4 hash m)) = some r1 →
      disputed r t = true ∨ t ∈ (diffKeys ours m).take 16384 := by
    intro r0 hp0 hd0 ha0 h0
    cases h4 : mapCompleteDisputes E r0 hash m with
    | none => rw [h4] at h0; cases h0
    | some r4 =>
      rw [h4] at h0
      cases h0
      obtain ⟨_, _, b3⟩ := mapCompleteAdjust_keys r4 hash m
      rw [b3] at ht
      have hs := mapCompleteDisputes_sub E r0 r4 hash ours m (by
        intro pos hp
        obtain ⟨hne, hv⟩ := hours pos (hp0 ▸ hp)
        rw [ha0 _ (fun e => hne e.symm)]
        exact hv) h4 t ht
      unfold disputed at hs ⊢
      rw [hd0] at hs
      exact hs
  revert h
  unfold mapCompleteInternal
  simp only
  cases hf : mfind r.mAcquired hash with
  | none =>
    simp only [Option.isSome_none, Bool.false_eq_true, if_false]
    intro h
    refine key _ ?_ ?_ ?_ h
    · unfold sendHaveTxSet; simp only; split <;> rfl
    · unfold sendHaveTxSet; simp only; split <;> rfl
    · unfold sendHaveTxSet; simp only; split <;> exact fun _ _ => rfl
  | some o =>
    cases o with
    | some s0 =>
      intro h
      cases h
      exact Or.inl ht
    | none =>
      simp only [Option.isSome_some, if_true]
      intro h
      have hera : ∀ k, k ≠ hash → mfind (merase r.mAcquired hash) k = mfind r.mAcquired k := by
        intro k hk
        rw [mfind_merase, if_neg (fun e => hk e.symm)]
      refine key _ ?_ ?_ ?_ h
      · unfold sendHaveTxSet; simp only; split <;> rfl
      · unfold sendHaveTxSet; simp only; split <;> rfl
      · unfold sendHaveTxSet; simp only; split <;> exact hera

/-- Counterexample to C17: four rounds in which our position's set and the
position set of peer 3 are both validly acquired, peer 3 is in PeerPositions
and a transaction is in exactly one of the two sets, yet Disputes holds no
DisputedTx for it.  First the cap of the comparison: our set is empty, the
delivered set of peer 3 holds the 16385 transactions 0 to 16384, and
transaction 16384 is not disputed.  Then two-element sets (ours holds
transaction 1, that of peer 3 holds 1 and 2, transaction 2 is not disputed):
the set 187 is delivered by `mapComplete` before our position is taken and
peer 3 proposes it only afterwards, and a repeated `mapComplete` of 187 does
not dispute it either; `peerPosition` finds the set 187 in the local store and
records it as acquired; and `mapComplete` delivers the set 187 while our
position is a bow-out. -/
theorem dispute_coverage_gaps :
    (∃ r1, mapComplete exEnv exEmptyRound 187 (some exBigSet) true = some r1 ∧
      positionSet r1 = some (some (some { hash := 170, items := [] })) ∧
      mfind r1.mPeerPositions 3 = some exPeerPos ∧ exPeerPos.mCurrentHash = 187 ∧
      mfind r1.mAcquired 187 = some (some exBigSet) ∧
      exBigSet.hasItem 16384 = true ∧
      ({ hash := 170, items := [] } : SHAMap).hasItem 16384 = false ∧
      disputed r1 16384 = false) ∧
    (({ hash := 170, items := [1] } : SHAMap).hasItem 2 = false ∧
      ({ hash := 187, items := [1, 2] } : SHAMap).hasItem 2 = true) ∧
    (exLatePeer.map positionSet = some (some (some (some { hash := 170, items := [1] }))) ∧
      exLatePeer.map (fun r => mfind r.mPeerPositions 3) = some (some exPeerPos) ∧
      exLatePeer.map (fun r => mfind r.mAcquired 187) =
        some (some (some { hash := 187, items := [1, 2] })) ∧
      exLatePeer.map (fun r => disputed r 2) = some false ∧
      (exLatePeer.bind
        (fun r => mapComplete exEnv r 187 (some { hash := 187, items := [1, 2] }) true)).map
          (fun r => disputed r 2) = some false) ∧
    ((peerPosition exHolds187 exRound exPeerPos).1 = true ∧
      positionSet (peerPosition exHolds187 exRound exPeerPos).2 =
        some (some (some { hash := 170, items := [1] })) ∧
      mfind (peerPosition exHolds187 exRound exPeerPos).2.mPeerPositions 3 = some exPeerPos ∧
      mfind (peerPosition exHolds187 exRound exPeerPos).2.mAcquired 187 =
        some (some { hash := 187, items := [1, 2] }) ∧
      disputed (peerPosition exHolds187 exRound exPeerPos).2 2 = false) ∧
    (exNotParticipating.map (fun r => r.mOurPosition.map (fun pos => pos.isBowOut)) =
        some (some true) ∧
      exNotParticipating.map positionSet =
        some (some (some (some { hash := 170, items := [1] }))) ∧
      exNotParticipating.map (fun r => mfind r.mPeerPositions 3) =
        some (some { exPeerPos with mPreviousLedger := 2000 }) ∧
      exNotParticipating.map (fun r => mfind r.mAcquired 187) =
        some (some (some { hash := 187, items := [1, 2] })) ∧
      exNotParticipating.map (fun r => disputed r 2) = some false) := by
  refine ⟨compare_cap_on_big_set, ⟨by decide, by decide⟩,
    ⟨by decide, by decide, by decide, by decide, by decide⟩,
    ⟨by decide, by decide, by decide, by decide, by decide⟩,
    ⟨by decide, by decide, by decide, by decide, by decide⟩⟩

/-- C17 as amended: dispute coverage is what the comparisons of
`mapComplete` and `takeInitialPosition` establish, within the cap of the
comparison; tx-sets with the same root hash hold the same transactions.
(a) Our position `pos`, not a bow-out, has its set `ours` validly acquired
and `mapComplete` delivers a valid tx-set `m` under a hash that is not yet
mapped to a valid set: the call returns, our position's set and
PeerPositions are unchanged, `m` is validly acquired under that hash, a
transaction has a DisputedTx afterwards exactly if it had one before or is
among the first 16384 differences between `ours` and `m`, and if the two
sets differ in at most 16384 transactions every transaction in exactly one
of them has a DisputedTx.  (b) When `takeInitialPosition` returns, for every
peer P in PeerPositions whose position set `xs` was validly acquired before
the call (a set already held under the hash of our initial set holding the
transactions of the initial set): our position's set holds the transactions
of the initial set and is validly acquired, P is still in PeerPositions with
its set validly acquired, each of the first 16384 differences between the
initial set and `xs` has a DisputedTx, and if they differ in at most 16384
transactions every transaction in exactly one of our position's set and `xs`
has a DisputedTx.  (c) `takeInitialPosition` returns when neither the set of
our position nor the set of a peer position carries the failed marker.
(d) `peerPosition` creates and removes no DisputedTx, and a `mapComplete`
for a hash that is already mapped to a valid set changes nothing. -/
theorem dispute_coverage_by_comparison (E : Env) :
    (∀ (r : Round) (pos : LedgerProposal) (ours m : SHAMap) (hash : uint256) (acquired : Bool),
      r.mOurPosition = some pos → pos.isBowOut = false →
      mfind r.mAcquired pos.mCurrentHash = some (some ours) →
      (∀ s, mfind r.mAcquired hash ≠ some (some s)) →
      (ours.hash = m.hash → ∀ t, ours.hasItem t = m.hasItem t) →
      ∃ r1, mapComplete E r hash (some m) acquired = some r1 ∧
        positionSet r1 = some (some (some ours)) ∧
        r1.mPeerPositions = r.mPeerPositions ∧
        mfind r1.mAcquired hash = some (some m) ∧
        (∀ t, disputed r1 t = true ↔
          (disputed r t = true ∨ t ∈ (diffKeys ours m).take 16384)) ∧
        ((diffKeys ours m).length ≤ 16384 →
          ∀ t, ours.hasItem t ≠ m.hasItem t → disputed r1 t = true)) ∧
    (∀ (C : CloseInputs) (r rF : Round) (P : NodeID) (p : LedgerProposal) (xs : SHAMap),
      takeInitialPosition E C r = some rF →
      mfind r.mPeerPositions P = some p →
      mfind r.mAcquired p.mCurrentHash = some (some xs) →
      (∀ s0, mfind r.mAcquired C.initialSetHash = some (some s0) →
        ∀ t, s0.hasItem t = (initialTxSet C r).hasItem t) →
      ((initialTxSet C r).hash = xs.hash →
        ∀ t, (initialTxSet C r).hasItem t = xs.hasItem t) →
      ∃ ours, positionSet rF = some (some (some ours)) ∧
        (∀ t, ours.hasItem t = (initialTxSet C r).hasItem t) ∧
        mfind rF.mPeerPositions P = some p ∧
        mfind rF.mAcquired p.mCurrentHash = some (some xs) ∧
        (∀ t ∈ (diffKeys (initialTxSet C r) xs).take 16384, disputed rF t = true) ∧
        ((diffKeys (initialTxSet C r) xs).length ≤ 16384 →
          ∀ t, ours.hasItem t ≠ xs.hasItem t → disputed rF t = true)) ∧
    (∀ (C : CloseInputs) (r : Round), positionSet r ≠ some (some none) →
      (∀ it ∈ r.mPeerPositions, mfind r.mAcquired it.2.mCurrentHash ≠ some none) →
      ∃ rF, takeInitialPosition E C r = some rF) ∧
    (∀ (r : Round) (p : LedgerProposal) (t : uint256),
      disputed (peerPosition E r p).2 t = disputed r t) ∧
    (∀ (r : Round) (hash : uint256) (s m : SHAMap) (acquired : Bool),
      mfind r.mAcquired hash = some (some s) →
      mapComplete E r hash (some m) acquired = some r) := by
  refine ⟨?_, ?_, ?_, ?_, ?_⟩
  · intro r pos ours m hash acquired hpos hnb hours hnew hhash
    have hne : hash ≠ pos.mCurrentHash := fun h => hnew ours (h ▸ hours)
    obtain ⟨r1, h1, h2, h3, h4, h5, h6, h7⟩ :=
      mapCompleteInternal_covers E r pos ours m hash acquired hpos hnb hne hours hnew
    have hlow : ∀ t, t ∈ (diffKeys ours m).take 16384 → disputed r1 t = true := by
      intro t ht
      by_cases hh : ours.hash = m.hash
      · exact absurd (List.mem_of_mem_take ht) (diffKeys_same_items _ _ (hhash hh) t)
      · exact (h7 hh t).2 (Or.inr ht)
    refine ⟨r1, h1, ?_, h5, h4, ?_, ?_⟩
    · unfold positionSet
      rw [h2]
      exact congrArg some h3
    · intro t
      constructor
      · intro ht
        refine mapCompleteInternal_sub E r r1 hash ours m acquired ?_ h1 t ht
        intro pos1 hp1
        have hsame : pos1 = pos := Option.some.inj (hp1.symm.trans hpos)
        rw [hsame]
        exact ⟨hne, hours⟩
      · rintro (ht | ht)
        · exact h6 t ht
        · exact hlow t ht
    · intro hlen t ht
      exact hlow t (mem_take_diffKeys ours m hlen t ht)
  · intro C r rF P p xs h hP hxs hheld hhash
    exact takeInitialPosition_covered E C r rF P p xs h hP hxs hheld hhash
  · intro C r hps hfail
    exact takeInitialPosition_returns E C r hps hfail
  · intro r p t
    exact peerPosition_disputed E r p t
  · intro r hash s m acquired hs
    unfold mapComplete mapCompleteInternal
    simp only [hs]

/-- The amended C17 on concrete rounds: with our empty set 170, the delivery of
the set 187 (transactions 1 and 2) of peer 3 disputes transactions 1 and 2;
with the set 187 of peer 3 acquired first, taking our position on the open
ledger (set 170, transaction 1) returns and disputes transaction 2; and a
second delivery of the set 187 changes nothing. -/
theorem dispute_coverage_by_comparison_witness :
    (∃ r1, mapComplete exEnv exEmptyRound 187 (some { hash := 187, items := [1, 2] }) true =
        some r1 ∧
      positionSet r1 = some (some (some { hash := 170, items := [] })) ∧
      r1.mPeerPositions = exEmptyRound.mPeerPositions ∧
      mfind r1.mAcquired 187 = some (some { hash := 187, items := [1, 2] }) ∧
      ∀ t, ({ hash := 170, items := [] } : SHAMap).hasItem t ≠
          ({ hash := 187, items := [1, 2] } : SHAMap).hasItem t → disputed r1 t = true) ∧
    (∃ ours,
      positionSet ((takeInitialPosition exEnv exTick.C exOpenRound).getD exOpenRound) =
        some (some (some ours)) ∧
      mfind ((takeInitialPosition exEnv exTick.C exOpenRound).getD exOpenRound).mPeerPositions 3 =
        some exPeerPos ∧
      ∀ t, ours.hasItem t ≠ ({ hash := 187, items := [1, 2] } : SHAMap).hasItem t →
        disputed ((takeInitialPosition exEnv exTick.C exOpenRound).getD exOpenRound) t = true) ∧
    (∃ rF, takeInitialPosition exEnv exTick.C exOpenRound = some rF) ∧
    mapComplete exEnv exRound187 187 (some { hash := 187, items := [1, 2] }) true =
      some exRound187 := by
  refine ⟨?_, ?_, ?_, ?_⟩
  · obtain ⟨r1, h1, h2, h3, h4, _, h6⟩ :=
      (dispute_coverage_by_comparison exEnv).1 exEmptyRound exPos
        { hash := 170, items := [] } { hash := 187, items := [1, 2] } 187 true
        rfl (by decide) (by decide)
        (fun s hs => nomatch (show (none : Option (Option SHAMap)) = some (some s) from hs))
        (fun h => absurd h (by decide))
    exact ⟨r1, h1, h2, h3, h4, h6 (by decide)⟩
  · obtain ⟨ours, h1, _, h3, _, _, h6⟩ :=
      (dispute_coverage_by_comparison exEnv).2.1 exTick.C exOpenRound
        ((takeInitialPosition exEnv exTick.C exOpenRound).getD exOpenRound) 3 exPeerPos
        { hash := 187, items := [1, 2] } (by decide) (by decide) (by decide)
        (fun s hs => nomatch (show (none : Option (Option SHAMap)) = some (some s) from hs))
        (fun h => absurd h (by decide))
    exact ⟨ours, h1, h3, h6 (by decide)⟩
  · exact (dispute_coverage_by_comparison exEnv).2.2.1 exTick.C exOpenRound (by decide)
      (by decide)
  · exact (dispute_coverage_by_comparison exEnv).2.2.2.2 exRound187 187
      { hash := 187, items := [1, 2] } { hash := 187, items := [1, 2] } true (by decide)

end LedgerConsensusZk
